import Mathlib

/-!
# UnCalc: an infix-to-postfix integer calculator

A shallow embedding of `src/calc.cpp`.  The C++ class `UnCalc` parses a text
expression character by character (`Parser::feed`, then `Parser::finish`)
into a postfix sequence of expression units and evaluates that sequence on a
stack of `int32_t` values.

Modelling conventions.
* `char` is `Char`, a `std::string` is a `List Char` (the constructor takes a
  `String` and reads its characters).
* `int32_t` values are `Int`s; every arithmetic result is reduced to the
  32-bit two's-complement range by `wrap32`.  The one exception is the
  quotient of `INT32_MIN` by `-1`, which `/` and `%` cannot compute: the source
  guards a zero divisor only and the machine division traps, so the model
  reports the separate outcome `Exception.division_overflow`.
* `ssize_t` counters are `Int`s.
* `std::stack` is a `List` whose head is the top.
* A thrown C++ exception is the `.error` side of `Except`; the exception
  object is an `Exception`.  Reading the top of an empty `std::stack` has no
  defined behaviour in the source; the model reports it as the separate
  outcome `Exception.stack_underflow`.
-/

set_option linter.dupNamespace false

namespace UnCalc

/-- Outcomes that abort a computation. -/
inductive Exception where
  /-- The class `UnCalc::syntax_error`, with its `what()` text. -/
  | syntax_error (what : String)
  /-- The class `std::domain_error`, with its `what()` text. -/
  | domain_error (what : String)
  /-- The class `std::out_of_range`, thrown by `map::at` on a missing key. -/
  | out_of_range
  /-- Access to the top of an empty `std::stack`. -/
  | stack_underflow
  /-- The operators `/` and `%` of `int32_t` on `INT32_MIN` and `-1`: the quotient
  is no `int32_t` value, the behaviour is undefined and the division traps. -/
  | division_overflow
deriving DecidableEq

open Exception

/-- The constant `UnCalc::OP_UNARY_MINUS`. -/
def OP_UNARY_MINUS : Char := '#'

/-- The constant `UnCalc::NUMBER_MAX`. -/
def NUMBER_MAX : Int := 99999999

/-- Reduction of a mathematical integer to `int32_t` (two's complement). -/
def wrap32 (x : Int) : Int := (x + 2147483648) % 4294967296 - 2147483648

/-- The library function `isdigit` in the "C" locale. -/
def isdigit (c : Char) : Bool := decide ('0' ≤ c) && decide (c ≤ '9')

/-- The library function `isblank` in the "C" locale: space and tab. -/
def isblank (c : Char) : Bool := c == ' ' || c == '\t'

/-- The expression units: the concrete subclasses of `ExpUnit`. -/
inductive ExpUnit where
  | Operand (val : Int)
  | AdditionOp
  | SubstractionOp
  | MultiplicationOp
  | DivisionOp
  | ModulusOp
  | ExponentOp
  | MinusOp
deriving DecidableEq

/-- The data of the abstract class `Oprtr`, with the unit its `clone()` returns. -/
structure Oprtr where
  priority : Nat
  operand_number : Int
  clone : ExpUnit
deriving DecidableEq

/-- The map `UnCalc::operator_table`; `none` is `end()`. -/
def operator_table (c : Char) : Option Oprtr :=
  if c = '+' then some ⟨1, 2, .AdditionOp⟩
  else if c = '-' then some ⟨1, 2, .SubstractionOp⟩
  else if c = '*' then some ⟨2, 2, .MultiplicationOp⟩
  else if c = '/' then some ⟨2, 2, .DivisionOp⟩
  else if c = '%' then some ⟨2, 2, .ModulusOp⟩
  else if c = '^' then some ⟨3, 2, .ExponentOp⟩
  else if c = OP_UNARY_MINUS then some ⟨4, 1, .MinusOp⟩
  else none

/-- The value `d - '0'` of a character. -/
def digitVal (d : Char) : Int := (d.toNat : Int) - 48

/-- The `for` loop of the constructor `Operand::Operand`, from accumulator `val`. -/
def Operand.loop : List Char → Int → Except Exception Int
  | [], val => .ok val
  | d :: s, val =>
    if val > NUMBER_MAX then .error (syntax_error "operand too big")
    else Operand.loop s (wrap32 (val * 10 + digitVal d))

/-- The constructor `Operand::Operand`: the stored `val`, or the exception. -/
def Operand.new (s : List Char) : Except Exception Int :=
  match Operand.loop s 0 with
  | .error e => .error e
  | .ok val => if val > NUMBER_MAX then .error (syntax_error "operand too big") else .ok val

/-- The values `val * 10 + (d - '0')` computed by the loop of `Operand::Operand`,
before their reduction to `int32_t`, in order. -/
def Operand.sums : List Char → Int → List Int
  | [], _ => []
  | d :: s, val =>
    if val > NUMBER_MAX then []
    else (val * 10 + digitVal d) :: Operand.sums s (wrap32 (val * 10 + digitVal d))

/-- The loop of `ExponentOp::eval`: `n` more rounds of `res *= first`. -/
def ExponentOp.loop : Nat → Int → Int → Int
  | 0, _, res => res
  | n + 1, first, res => ExponentOp.loop n first (wrap32 (res * first))

/-- The body of `ExponentOp::eval` on the pair `(first, second)`. -/
def ExponentOp.eval (first second : Int) : Int :=
  ExponentOp.loop second.toNat first (if second ≥ 0 then 1 else 0)

/-- The method `ExpUnit::eval` of each unit on the accumulator stack.
Binary operators pop the right operand first (`get_operand`).  `DivisionOp`
and `ModulusOp` test the divisor for zero and then divide; the division of
`INT32_MIN` by `-1` does not return. -/
def ExpUnit.eval : ExpUnit → List Int → Except Exception (List Int)
  | .Operand val, acm => .ok (val :: acm)
  | .AdditionOp, rhs :: lhs :: acm => .ok (wrap32 (lhs + rhs) :: acm)
  | .SubstractionOp, rhs :: lhs :: acm => .ok (wrap32 (lhs - rhs) :: acm)
  | .MultiplicationOp, rhs :: lhs :: acm => .ok (wrap32 (lhs * rhs) :: acm)
  | .DivisionOp, rhs :: lhs :: acm =>
    if rhs = 0 then .error (domain_error "divided by zero in #UnCalc")
    else if lhs = -2147483648 ∧ rhs = -1 then .error division_overflow
    else .ok (wrap32 (Int.tdiv lhs rhs) :: acm)
  | .ModulusOp, rhs :: lhs :: acm =>
    if rhs = 0 then .error (domain_error "modulo by zero in #UnCalc")
    else if lhs = -2147483648 ∧ rhs = -1 then .error division_overflow
    else .ok (wrap32 (Int.tmod lhs rhs) :: acm)
  | .ExponentOp, rhs :: lhs :: acm => .ok (ExponentOp.eval lhs rhs :: acm)
  | .MinusOp, rhs :: acm => .ok (wrap32 (-rhs) :: acm)
  | _, _ => .error stack_underflow

/-- The `for` loop of `UnCalc::eval`: every unit in order on the accumulator. -/
def evalLoop : List ExpUnit → List Int → Except Exception (List Int)
  | [], acm => .ok acm
  | unit :: rest, acm =>
    match unit.eval acm with
    | .error e => .error e
    | .ok acm1 => evalLoop rest acm1

/-- The method `UnCalc::eval`: run the units from an empty stack, return the top. -/
def eval (exp : List ExpUnit) : Except Exception Int :=
  match evalLoop exp [] with
  | .error e => .error e
  | .ok [] => .error stack_underflow
  | .ok (top :: _) => .ok top

/-- The state of `UnCalc::Parser`; `exp` is the referenced output container. -/
structure Parser where
  token : List (Char × Int)
  num_buf : List Char
  exp : List ExpUnit
  operand_number : Int
  after_operand : Bool
deriving DecidableEq

/-- The constructor `Parser::Parser` on an empty container. -/
def Parser.new : Parser :=
  { token := [], num_buf := [], exp := [], operand_number := 0, after_operand := false }

/-- The method `Parser::produce_operand_unit`, with its boolean result. -/
def Parser.produce_operand_unit (p : Parser) : Except Exception (Bool × Parser) :=
  if p.num_buf.length = 0 then .ok (false, p)
  else if p.after_operand then .error (syntax_error "Missing operator")
  else
    match Operand.new p.num_buf with
    | .error e => .error e
    | .ok val =>
      .ok (true, { p with exp := p.exp ++ [.Operand val], num_buf := [],
                          operand_number := p.operand_number + 1 })

/-- The method `Parser::produce_operator_unit`. -/
def Parser.produce_operator_unit (p : Parser) (oprtr : Char) : Except Exception Parser :=
  match operator_table oprtr with
  | none => .error out_of_range
  | some op =>
    let n := p.operand_number - (op.operand_number - 1)
    if n ≤ 0 then .error (syntax_error "Missing operand")
    else .ok { p with operand_number := n, exp := p.exp ++ [op.clone] }

/-- The method `Parser::left_parentheses`. -/
def Parser.left_parentheses (p : Parser) : Except Exception Parser :=
  if p.after_operand then .error (syntax_error "Missing operator before '('")
  else .ok { p with token := ('(', p.operand_number) :: p.token, operand_number := 0 }

/-- The `while` loop of `Parser::right_parentheses` with the tail after it;
the first argument is the content of the stack `token`. -/
def Parser.right_parentheses_loop (finale : Bool) :
    List (Char × Int) → Parser → Except Exception Parser
  | [], p =>
    if !finale then .error (syntax_error "Missing '('") else .ok { p with token := [] }
  | c :: rest, p =>
    if c.1 = '(' then
      if finale then .error (syntax_error "Missing ')'")
      else if p.operand_number < 1 then .error (syntax_error "Missing operand before ')'")
      else .ok { p with token := rest, operand_number := c.2 + 1 }
    else
      match p.produce_operator_unit c.1 with
      | .error e => .error e
      | .ok p1 => Parser.right_parentheses_loop finale rest p1

/-- The method `Parser::right_parentheses`. -/
def Parser.right_parentheses (p : Parser) (finale : Bool) : Except Exception Parser :=
  Parser.right_parentheses_loop finale p.token p

/-- The `while` loop in the operator branch of `Parser::feed`; the second
argument is the content of the stack `token`. -/
def Parser.feed_loop (new_op : Oprtr) : List (Char × Int) → Parser → Except Exception Parser
  | [], p => .ok { p with token := [] }
  | t :: rest, p =>
    if t.1 = '(' then .ok { p with token := t :: rest }
    else
      match operator_table t.1 with
      | none => .error out_of_range
      | some old_op =>
        if old_op.priority < new_op.priority then .ok { p with token := t :: rest }
        else
          match p.produce_operator_unit t.1 with
          | .error e => .error e
          | .ok p1 => Parser.feed_loop new_op rest p1

/-- The method `Parser::feed`. -/
def Parser.feed (p : Parser) (c : Char) : Except Exception Parser :=
  if isdigit c then .ok { p with num_buf := p.num_buf ++ [c] }
  else
    match p.produce_operand_unit with
    | .error e => .error e
    | .ok (produced, p1) =>
      let p2 := if produced then { p1 with after_operand := true } else p1
      if isblank c then .ok p2
      else if c = ')' then
        match p2.right_parentheses false with
        | .error e => .error e
        | .ok p3 => .ok { p3 with after_operand := true }
      else if c = '(' then
        match p2.left_parentheses with
        | .error e => .error e
        | .ok p3 => .ok { p3 with after_operand := false }
      else
        let c1 := if c = '-' ∧ p2.after_operand = false then OP_UNARY_MINUS else c
        match operator_table c1 with
        | none => .error (syntax_error "Unknown operator")
        | some new_op =>
          match Parser.feed_loop new_op p2.token { p2 with after_operand := false } with
          | .error e => .error e
          | .ok p3 => .ok { p3 with token := (c1, 0) :: p3.token }

/-- The head of the `else` branch of `Parser::feed`: the call of
`produce_operand_unit`, and `after_operand = true` when it produced a unit. -/
def Parser.flush (p : Parser) : Except Exception Parser :=
  match p.produce_operand_unit with
  | .error e => .error e
  | .ok (produced, p1) => .ok (if produced then { p1 with after_operand := true } else p1)

/-- The rest of the `else` branch of `Parser::feed`, on the state `flush` left. -/
def Parser.dispatch (p2 : Parser) (c : Char) : Except Exception Parser :=
  if isblank c then .ok p2
  else if c = ')' then
    match p2.right_parentheses false with
    | .error e => .error e
    | .ok p3 => .ok { p3 with after_operand := true }
  else if c = '(' then
    match p2.left_parentheses with
    | .error e => .error e
    | .ok p3 => .ok { p3 with after_operand := false }
  else
    let c1 := if c = '-' ∧ p2.after_operand = false then OP_UNARY_MINUS else c
    match operator_table c1 with
    | none => .error (syntax_error "Unknown operator")
    | some new_op =>
      match Parser.feed_loop new_op p2.token { p2 with after_operand := false } with
      | .error e => .error e
      | .ok p3 => .ok { p3 with token := (c1, 0) :: p3.token }

/-- The method `Parser::finish`. -/
def Parser.finish (p : Parser) : Except Exception Parser :=
  match p.produce_operand_unit with
  | .error e => .error e
  | .ok (_, p1) =>
    match p1.right_parentheses true with
    | .error e => .error e
    | .ok p2 => if p2.exp.isEmpty then .error (syntax_error "empty expression") else .ok p2

/-- The `for` loop of the constructor `UnCalc::UnCalc`. -/
def feedAll : Parser → List Char → Except Exception Parser
  | p, [] => .ok p
  | p, c :: cs =>
    match p.feed c with
    | .error e => .error e
    | .ok p1 => feedAll p1 cs

/-- The constructor `UnCalc::UnCalc` on a character sequence: the member `exp`. -/
def compile (text : List Char) : Except Exception (List ExpUnit) :=
  match feedAll Parser.new text with
  | .error e => .error e
  | .ok p =>
    match p.finish with
    | .error e => .error e
    | .ok p1 => .ok p1.exp

/-- The constructor `UnCalc::UnCalc`. -/
def UnCalc (text : String) : Except Exception (List ExpUnit) := compile text.data

/-- The `try` block of `main`: construct `UnCalc calc(line)`, return `calc.eval()`. -/
def evaluate (line : String) : Except Exception Int :=
  match UnCalc line with
  | .error e => .error e
  | .ok exp => eval exp

/-- Equality of results is decidable, so closed instances can be evaluated. -/
instance instDecidableEqExcept {ε α : Type} [DecidableEq ε] [DecidableEq α] :
    DecidableEq (Except ε α)
  | .ok a, .ok b =>
    if h : a = b then isTrue (by rw [h]) else isFalse (fun h1 => h (by cases h1; rfl))
  | .error a, .error b =>
    if h : a = b then isTrue (by rw [h]) else isFalse (fun h1 => h (by cases h1; rfl))
  | .ok _, .error _ => isFalse (fun h => by cases h)
  | .error _, .ok _ => isFalse (fun h => by cases h)

/-- The number a digit string denotes in base ten (leading zeros allowed). -/
def decimalValue (s : List Char) : Nat :=
  Nat.ofDigits 10 (s.reverse.map fun d => d.toNat - 48)

/-- The bounds of `int32_t`. -/
def InInt32 (x : Int) : Prop := -2147483648 ≤ x ∧ x ≤ 2147483647

/-- Depth of the value stack after a unit runs at depth `h`, by the arity of the
unit alone; `none` when the unit would pop more values than the stack holds. -/
def ExpUnit.depth : ExpUnit → Nat → Option Nat
  | .Operand _, h => some (h + 1)
  | .MinusOp, h => if 1 ≤ h then some h else none
  | _, h => if 2 ≤ h then some (h - 1) else none

/-- Depth of the value stack after a sequence of units, from depth `h`; `none`
when some unit of the sequence would pop below the bottom. -/
def depthLoop : List ExpUnit → Nat → Option Nat
  | [], h => some h
  | unit :: rest, h =>
    match unit.depth h with
    | none => none
    | some h1 => depthLoop rest h1

/-- The bookkeeping invariant of the parser, for a stack content `tk`: the
counter and the saved counters are not negative, the units emitted so far run
without popping below the bottom, and they leave at least as many values as
the counter and the saved counters add up to (and at least one, once a unit
has been emitted). -/
def Parser.Inv (tk : List (Char × Int)) (p : Parser) : Prop :=
  0 ≤ p.operand_number ∧ (∀ t ∈ tk, 0 ≤ t.2) ∧
    ∃ h : Nat, depthLoop p.exp 0 = some h ∧
      p.operand_number + (tk.map Prod.snd).sum ≤ h ∧ (p.exp ≠ [] → 1 ≤ h)

/-- The binary operators of the grammar. -/
inductive BinOp where
  | add
  | sub
  | mul
  | div
  | mod
  | pow
deriving DecidableEq

/-- The character that writes a binary operator. -/
def BinOp.symbol : BinOp → Char
  | .add => '+'
  | .sub => '-'
  | .mul => '*'
  | .div => '/'
  | .mod => '%'
  | .pow => '^'

/-- The grammar level that introduces a binary operator: 1 for `expr`
(`+ -`), 2 for `term` (`* / %`), 3 for `factor` (`^`). -/
def BinOp.level : BinOp → Nat
  | .add => 1
  | .sub => 1
  | .mul => 2
  | .div => 2
  | .mod => 2
  | .pow => 3

/-- The postfix instruction of a binary operator. -/
def BinOp.unit : BinOp → ExpUnit
  | .add => .AdditionOp
  | .sub => .SubstractionOp
  | .mul => .MultiplicationOp
  | .div => .DivisionOp
  | .mod => .ModulusOp
  | .pow => .ExponentOp

/-- Reference meaning of a binary operator on `int32_t` values `a` (left) and
`b` (right): wrapping arithmetic, quotient and remainder truncated toward zero
and undefined for a zero divisor, power 0 for a negative exponent. -/
def BinOp.apply : BinOp → Int → Int → Except Exception Int
  | .add, a, b => .ok (wrap32 (a + b))
  | .sub, a, b => .ok (wrap32 (a - b))
  | .mul, a, b => .ok (wrap32 (a * b))
  | .div, a, b =>
    if b = 0 then .error (.domain_error "divided by zero in #UnCalc")
    else .ok (wrap32 (Int.tdiv a b))
  | .mod, a, b =>
    if b = 0 then .error (.domain_error "modulo by zero in #UnCalc")
    else .ok (wrap32 (Int.tmod a b))
  | .pow, a, b => .ok (if b < 0 then 0 else wrap32 (a ^ b.toNat))

/-- Parse trees of the grammar; parentheses leave no node. -/
inductive Tree where
  | number (n : Nat)
  | negate (t : Tree)
  | binary (op : BinOp) (l r : Tree)
deriving DecidableEq

/-- Postfix form of a parse tree. -/
def Tree.toExp : Tree → List ExpUnit
  | .number n => [.Operand n]
  | .negate t => t.toExp ++ [.MinusOp]
  | .binary op l r => l.toExp ++ r.toExp ++ [op.unit]

/-- The grammar, `Derives n w t`: the text `w` is a sentence of the nonterminal
of level `n` with parse tree `t`.  Level 1 is `expr`, 2 is `term`, 3 is
`factor`, 4 is `power`, 5 is `atom`.

* `expr := term (('+'|'-') term)*`, `term := factor (('*'|'/'|'%') factor)*`
  and `factor := power ('^' power)*` are `lift` (a single operand) and
  `binary` (one more operator and operand to the right of a sentence of the
  same level, which groups to the left);
* `power := ('-')? atom` is `lift` and `minus`;
* `atom := NUMBER | '(' expr ')'` is `number` and `paren`;
* `NUMBER := digit+` of value at most 99,999,999 is `number`;
* blanks may stand before and after every sentence, hence between any two
  tokens, and never inside a number. -/
inductive Derives : Nat → List Char → Tree → Prop where
  | number (ds : List Char) : ds ≠ [] → (∀ c ∈ ds, isdigit c = true) →
      decimalValue ds ≤ 99999999 → Derives 5 ds (.number (decimalValue ds))
  | paren {w : List Char} {t : Tree} : Derives 1 w t → Derives 5 ('(' :: (w ++ [')'])) t
  | minus {w : List Char} {t : Tree} : Derives 5 w t → Derives 4 ('-' :: w) (.negate t)
  | binary (op : BinOp) {w1 w2 : List Char} {t1 t2 : Tree} :
      Derives op.level w1 t1 → Derives (op.level + 1) w2 t2 →
      Derives op.level (w1 ++ op.symbol :: w2) (.binary op t1 t2)
  | lift {n : Nat} {w : List Char} {t : Tree} : 1 ≤ n → Derives (n + 1) w t → Derives n w t
  | blank_left {n : Nat} {b : Char} {w : List Char} {t : Tree} :
      isblank b = true → Derives n w t → Derives n (b :: w) t
  | blank_right {n : Nat} {b : Char} {w : List Char} {t : Tree} :
      isblank b = true → Derives n w t → Derives n (w ++ [b]) t

/-- A run of blanks (possibly empty). -/
def Blank (s : List Char) : Prop := ∀ c ∈ s, isblank c = true

/-- The digit string `ds` is a number literal of the grammar, of value `a`. -/
def Literal (ds : List Char) (a : Nat) : Prop :=
  ds ≠ [] ∧ (∀ c ∈ ds, isdigit c = true) ∧ decimalValue ds = a ∧ a ≤ 99999999

instance instDecidableBlank (s : List Char) : Decidable (Blank s) := by
  unfold Blank; infer_instance

instance instDecidableLiteral (ds : List Char) (a : Nat) : Decidable (Literal ds a) := by
  unfold Literal; infer_instance

instance instDecidableInInt32 (x : Int) : Decidable (InInt32 x) := by
  unfold InInt32; infer_instance

/-- The value flag of the parser: a number is being read, or the last token
read was a number or a right parenthesis. -/
def Parser.after_value (p : Parser) : Bool := !p.num_buf.isEmpty || p.after_operand

/-- An operator waiting on the parser's stack `token`: a binary operator or
the unary minus. -/
inductive Pending where
  | binary (op : BinOp)
  | minus
deriving DecidableEq

/-- The character the parser keeps on `token` for a waiting operator. -/
def Pending.symbol : Pending → Char
  | .binary op => op.symbol
  | .minus => OP_UNARY_MINUS

/-- The priority of a waiting operator in `operator_table`. -/
def Pending.priority : Pending → Nat
  | .binary op => op.level
  | .minus => 4

/-- The number of operands a waiting operator takes, less one. -/
def Pending.extra : Pending → Int
  | .binary _ => 1
  | .minus => 0

/-- The unit a waiting operator emits. -/
def Pending.unit : Pending → ExpUnit
  | .binary op => op.unit
  | .minus => .MinusOp

/-- The entries of `token` for a list of waiting operators, top first. -/
def Pending.tokens (pend : List Pending) : List (Char × Int) :=
  pend.map fun pd => (pd.symbol, 0)

/-- The top of the stack `tk` does not yield to an operator of priority `n`:
the stack is empty, or its top is a left parenthesis or an operator of
priority below `n`. -/
def TopLow (n : Nat) (tk : List (Char × Int)) : Prop :=
  match tk with
  | [] => True
  | t :: _ => t.1 = '(' ∨ ∃ op, operator_table t.1 = some op ∧ op.priority < n

/-- The state `q` of the parser once a sentence has been read from state `p`
and flushed: the operators `pend` wait on top of the stack of `p`, the units
`out` have been emitted, the counter has grown by one and by one more for
each waiting binary operator. -/
def Parser.After (p q : Parser) (pend : List Pending) (out : List ExpUnit) : Prop :=
  q.token = Pending.tokens pend ++ p.token ∧ q.num_buf = [] ∧ q.exp = p.exp ++ out ∧
    q.operand_number = p.operand_number + 1 + (pend.map Pending.extra).sum ∧
    q.after_operand = true

/-- The constructor `UnCalc::UnCalc` continued from the parser state `p`: the
remaining characters are fed, then `finish` is called. -/
def Parser.run (p : Parser) (text : List Char) : Except Exception (List ExpUnit) :=
  match feedAll p text with
  | .error e => .error e
  | .ok p1 =>
    match p1.finish with
    | .error e => .error e
    | .ok p2 => .ok p2.exp

/-- The state `p` with one more left parenthesis, with saved counter 0, at the
bottom of the stack `token`. -/
def Parser.enclosed (p : Parser) : Parser :=
  { p with token := p.token ++ [('(', 0)] }

/-- Once a unit has been emitted, the counter of the current scope is at least
one unless a left parenthesis is still open on the stack `tk`. -/
def Parser.Counted (tk : List (Char × Int)) (p : Parser) : Prop :=
  p.exp ≠ [] → 1 ≤ p.operand_number ∨ ∃ t ∈ tk, t.1 = '('

/-- The messages of the syntax errors other than "empty expression". -/
def otherMessages : List String :=
  ["operand too big", "Missing operator", "Missing operand", "Missing operator before '('",
   "Missing operand before ')'", "Missing '('", "Missing ')'", "Unknown operator"]

/-- The exception `e` is a syntax error with one of the messages `otherMessages`. -/
def Exception.Other (e : Exception) : Prop := ∃ m ∈ otherMessages, e = .syntax_error m

/-- Every entry of the stack `tk` is a left parenthesis or a key of
`operator_table`. -/
def Known (tk : List (Char × Int)) : Prop :=
  ∀ t ∈ tk, t.1 = '(' ∨ (operator_table t.1).isSome = true

/-- The parser has taken in something that is not a blank: a unit has been
emitted, a number is being read, or the stack `token` is not empty. -/
def Parser.Started (p : Parser) : Prop := p.exp ≠ [] ∨ p.num_buf ≠ [] ∨ p.token ≠ []

/-- The position between the texts `u` and `v` lies between two digits: `u`
ends with a digit and `v` starts with one. -/
def betweenDigits (u v : List Char) : Bool :=
  (match u.getLast? with
    | some d => isdigit d
    | none => false) &&
  (match v.head? with
    | some c => isdigit c
    | none => false)

/-- The six operator characters of the grammar. -/
def isOperatorChar (c : Char) : Bool :=
  c == '+' || c == '-' || c == '*' || c == '/' || c == '%' || c == '^'

/-- The operator characters of the sentences of a parse tree, left to right. -/
def Tree.operators : Tree → List Char
  | .number _ => []
  | .negate t => '-' :: t.operators
  | .binary op l r => l.operators ++ op.symbol :: r.operators

/-- Reading a program back into parse trees, on a stack of trees; `none` when
the program is not the postfix form of trees. -/
def Tree.ofExp : List ExpUnit → List Tree → Option (List Tree)
  | [], st => some st
  | .Operand val :: rest, st => Tree.ofExp rest (.number val.toNat :: st)
  | .MinusOp :: rest, t :: st => Tree.ofExp rest (.negate t :: st)
  | .AdditionOp :: rest, r :: l :: st => Tree.ofExp rest (.binary .add l r :: st)
  | .SubstractionOp :: rest, r :: l :: st => Tree.ofExp rest (.binary .sub l r :: st)
  | .MultiplicationOp :: rest, r :: l :: st => Tree.ofExp rest (.binary .mul l r :: st)
  | .DivisionOp :: rest, r :: l :: st => Tree.ofExp rest (.binary .div l r :: st)
  | .ModulusOp :: rest, r :: l :: st => Tree.ofExp rest (.binary .mod l r :: st)
  | .ExponentOp :: rest, r :: l :: st => Tree.ofExp rest (.binary .pow l r :: st)
  | _, _ => none

/-- The right operand the unit `^` finds on the stack `acm` (the number of
rounds its loop is asked for); nothing for the other units. -/
def ExpUnit.exponent : ExpUnit → List Int → List Int
  | .ExponentOp, rhs :: _ :: _ => [rhs]
  | _, _ => []

/-- The right operands of all executions of the unit `^` while `UnCalc::eval`
runs the units from the stack `acm`, in order of execution. -/
def exponents : List ExpUnit → List Int → List Int
  | [], _ => []
  | unit :: rest, acm =>
    unit.exponent acm ++
      match unit.eval acm with
      | .error _ => []
      | .ok acm1 => exponents rest acm1

/-- The values of the literal units of a program, in program order. -/
def literals : List ExpUnit → List Int
  | [] => []
  | .Operand val :: rest => val :: literals rest
  | _ :: rest => literals rest

/-- The number of operator units of a program. -/
def operatorCount : List ExpUnit → Nat
  | [] => 0
  | .Operand _ :: rest => operatorCount rest
  | _ :: rest => operatorCount rest + 1

/-- The number of operators on the stack `token` (entries other than left
parentheses). -/
def pendingCount : List (Char × Int) → Nat
  | [] => 0
  | t :: rest => if t.1 = '(' then pendingCount rest else pendingCount rest + 1

/-- The maximal runs of digits of a text, left to right. -/
def digitRuns (text : List Char) : List (List Char) :=
  (text.splitOnP fun c => !isdigit c).filter fun run => !run.isEmpty

/-- The maximal runs of digits of `cur ++ text`, for a run `cur` in progress. -/
def digitRunsFrom : List Char → List Char → List (List Char)
  | cur, [] => if cur.isEmpty then [] else [cur]
  | cur, c :: cs =>
    if isdigit c then digitRunsFrom (cur ++ [c]) cs
    else if cur.isEmpty then digitRunsFrom [] cs
    else cur :: digitRunsFrom [] cs

/-- The number of operator characters of a text: the characters that are keys
of `operator_table`. -/
def operatorChars (text : List Char) : Nat :=
  (text.filter fun c => (operator_table c).isSome).length

end UnCalc

/-! ## Arithmetic facts -/

namespace UnCalc

open Exception

theorem isdigit_bounds {c : Char} (h : isdigit c = true) : 48 ≤ c.toNat ∧ c.toNat ≤ 57 := by
  unfold isdigit at h
  simp only [Bool.and_eq_true, decide_eq_true_eq] at h
  obtain ⟨h1, h2⟩ := h
  rw [Char.le_def] at h1 h2
  exact ⟨h1, h2⟩

theorem wrap32_of_inInt32 {x : Int} (h : InInt32 x) : wrap32 x = x := by
  unfold InInt32 at h; unfold wrap32; omega

theorem wrap32_inInt32 (x : Int) : InInt32 (wrap32 x) := by
  unfold InInt32 wrap32; omega

theorem wrap32_mul_left (x y : Int) : wrap32 (wrap32 x * y) = wrap32 (x * y) := by
  have h : wrap32 x = x - 4294967296 * ((x + 2147483648) / 4294967296) := by
    unfold wrap32; omega
  rw [h]
  unfold wrap32
  have : (x - 4294967296 * ((x + 2147483648) / 4294967296)) * y + 2147483648
      = (x * y + 2147483648) + 4294967296 * (-(((x + 2147483648) / 4294967296) * y)) := by ring
  rw [this, Int.add_mul_emod_self_left]

theorem decimalValue_cons (d : Char) (s : List Char) :
    decimalValue (d :: s) = (d.toNat - 48) * 10 ^ s.length + decimalValue s := by
  unfold decimalValue
  simp [Nat.ofDigits_append, Nat.ofDigits_singleton]
  ring

theorem operand_loop_spec (s : List Char) (hs : ∀ c ∈ s, isdigit c = true) :
    ∀ val : Int, 0 ≤ val →
      (Operand.loop s val = .ok (val * 10 ^ s.length + decimalValue s) ∨
        (Operand.loop s val = .error (syntax_error "operand too big") ∧
          NUMBER_MAX < val * 10 ^ s.length + decimalValue s)) ∧
      ∀ x ∈ Operand.sums s val, InInt32 x := by
  induction s with
  | nil => intro val _; simp [Operand.loop, decimalValue, Operand.sums]
  | cons d s ih =>
    intro val hval
    have hd := isdigit_bounds (hs d (List.mem_cons_self _ _))
    have hs1 : ∀ c ∈ s, isdigit c = true := fun c hc => hs c (List.mem_cons_of_mem _ hc)
    have hpow : (0 : Int) < 10 ^ s.length := by positivity
    have hdec : (0 : Int) ≤ decimalValue s := by positivity
    have hcons : (decimalValue (d :: s) : Int)
        = ((d.toNat : Int) - 48) * 10 ^ s.length + decimalValue s := by
      rw [decimalValue_cons]; push_cast [Nat.cast_sub hd.1]; ring
    by_cases hbig : val > NUMBER_MAX
    · refine ⟨Or.inr ⟨by simp [Operand.loop, hbig], ?_⟩, by simp [Operand.sums, hbig]⟩
      have h1 : val * 1 ≤ val * 10 ^ (d :: s).length := by
        apply mul_le_mul_of_nonneg_left _ hval
        exact_mod_cast Nat.one_le_pow _ _ (by norm_num)
      have h2 : (0 : Int) ≤ decimalValue (d :: s) := by positivity
      omega
    · have hin : InInt32 (val * 10 + digitVal d) := by
        unfold NUMBER_MAX at hbig; unfold InInt32 digitVal; omega
      have hnext : 0 ≤ val * 10 + digitVal d := by unfold digitVal; omega
      obtain ⟨ih1, ih2⟩ := ih hs1 (val * 10 + digitVal d) hnext
      have heq : (val * 10 + digitVal d) * 10 ^ s.length + decimalValue s
          = val * 10 ^ (d :: s).length + decimalValue (d :: s) := by
        rw [hcons]; unfold digitVal; simp only [List.length_cons]; ring
      rw [heq] at ih1
      refine ⟨?_, ?_⟩
      · simpa [Operand.loop, hbig, wrap32_of_inInt32 hin] using ih1
      · intro x hx
        simp only [Operand.sums, hbig, if_false, wrap32_of_inInt32 hin, List.mem_cons] at hx
        rcases hx with hx | hx
        · rw [hx]; exact hin
        · exact ih2 x hx

theorem operand_new_spec (s : List Char) (hs : ∀ c ∈ s, isdigit c = true) :
    Operand.new s = if (decimalValue s : Int) ≤ NUMBER_MAX then .ok (decimalValue s : Int)
      else .error (syntax_error "operand too big") := by
  have h := (operand_loop_spec s hs 0 le_rfl).1
  simp only [zero_mul, zero_add] at h
  unfold Operand.new
  rcases h with h | ⟨h, hlt⟩
  · rw [h]
    by_cases hle : (decimalValue s : Int) ≤ NUMBER_MAX
    · simp [hle, not_lt.mpr hle]
    · simp [hle, not_le.mp hle]
  · rw [h]; simp [not_le.mpr hlt]

theorem exponent_loop_spec (n : Nat) (first : Int) :
    ∀ res : Int, ExponentOp.loop (n + 1) first res = wrap32 (res * first ^ (n + 1)) := by
  induction n with
  | zero => intro res; simp [ExponentOp.loop]
  | succ n ih =>
    intro res
    rw [ExponentOp.loop, ih, wrap32_mul_left]
    congr 1; ring

theorem exponent_eval_spec (first second : Int) :
    ExponentOp.eval first second =
      if second < 0 then 0 else if second = 0 then 1 else wrap32 (first ^ second.toNat) := by
  unfold ExponentOp.eval
  by_cases h1 : second < 0
  · have : second.toNat = 0 := by omega
    simp [h1, this, ExponentOp.loop, not_le.mpr h1]
  · by_cases h2 : second = 0
    · subst h2; simp [ExponentOp.loop]
    · obtain ⟨n, hn⟩ : ∃ n, second.toNat = n + 1 := ⟨second.toNat - 1, by omega⟩
      have h3 : 0 ≤ second := by omega
      simp only [h1, h2, if_false, hn, exponent_loop_spec, ge_iff_le, h3, if_true, one_mul]

theorem tdiv_inInt32 {a b : Int} (ha : InInt32 a) (hb : b ≠ 0)
    (hmin : ¬ (a = -2147483648 ∧ b = -1)) : InInt32 (Int.tdiv a b) := by
  have h1 : (Int.tdiv a b).natAbs = a.natAbs / b.natAbs := Int.natAbs_tdiv a b
  have h2 : a.natAbs / b.natAbs ≤ a.natAbs := Nat.div_le_self _ _
  unfold InInt32 at *
  by_cases hb1 : b = -1
  · subst hb1
    have : Int.tdiv a (-1) = -a := by simp
    rw [this]; omega
  · by_cases hb2 : b = 1
    · subst hb2; simp; omega
    · have h3 : 2 ≤ b.natAbs := by omega
      have h4 : a.natAbs / b.natAbs ≤ a.natAbs / 2 := Nat.div_le_div_left h3 (by norm_num)
      omega

theorem tmod_abs_lt (a : Int) {b : Int} (hb : b ≠ 0) : |Int.tmod a b| < |b| := by
  have h1 : (Int.tmod a b).natAbs = a.natAbs % b.natAbs := by
    cases a <;> cases b <;> simp [Int.tmod, Int.natAbs_ofNat] <;> rfl
  have h2 : a.natAbs % b.natAbs < b.natAbs := Nat.mod_lt _ (by omega)
  rw [Int.abs_eq_natAbs, Int.abs_eq_natAbs]
  omega



theorem tmod_nonpos (a b : Int) (ha : a ≤ 0) : Int.tmod a b ≤ 0 := by
  rcases a with m | m
  · have hm : m = 0 := by
      have : (m : Int) ≤ 0 := ha
      omega
    subst hm; simp
  · rcases b with n | n
    · show -((Nat.succ m % n : Nat) : Int) ≤ 0
      omega
    · show -((Nat.succ m % Nat.succ n : Nat) : Int) ≤ 0
      omega

theorem tmod_sign (a b : Int) : Int.tmod a b = 0 ∨ Int.sign (Int.tmod a b) = Int.sign a := by
  by_cases h0 : Int.tmod a b = 0
  · exact Or.inl h0
  · right
    rcases Int.le_total 0 a with ha | ha
    · have h2 : 0 ≤ Int.tmod a b := Int.tmod_nonneg b ha
      have h3 : 0 < Int.tmod a b := lt_of_le_of_ne h2 (Ne.symm h0)
      have h4 : 0 < a := by
        rcases eq_or_lt_of_le ha with h | h
        · rw [← h] at h0; simp at h0
        · exact h
      rw [Int.sign_eq_one_of_pos h3, Int.sign_eq_one_of_pos h4]
    · have h2 : Int.tmod a b ≤ 0 := tmod_nonpos a b ha
      have h3 : Int.tmod a b < 0 := lt_of_le_of_ne h2 h0
      have h4 : a < 0 := by
        rcases eq_or_lt_of_le ha with h | h
        · rw [h] at h0; simp at h0
        · exact h
      rw [Int.sign_eq_neg_one_of_neg h3, Int.sign_eq_neg_one_of_neg h4]

/-! ## The bookkeeping invariant of the parser -/

theorem depthLoop_append (a b : List ExpUnit) :
    ∀ h : Nat, depthLoop (a ++ b) h =
      match depthLoop a h with
      | none => none
      | some h1 => depthLoop b h1 := by
  induction a with
  | nil => intro h; simp [depthLoop]
  | cons u a ih =>
    intro h
    simp only [List.cons_append, depthLoop]
    cases u.depth h with
    | none => rfl
    | some h1 => exact ih h1

theorem operator_table_cases {c : Char} {op : Oprtr} (h : operator_table c = some op) :
    (op.operand_number = 2 ∧ ∀ d : Nat, op.clone.depth d = if 2 ≤ d then some (d - 1) else none) ∨
    (op.operand_number = 1 ∧ ∀ d : Nat, op.clone.depth d = if 1 ≤ d then some d else none) := by
  unfold operator_table at h
  split_ifs at h <;> cases h <;> simp [ExpUnit.depth]

theorem inv_produce_operand_unit {tk : List (Char × Int)} {p p1 : Parser} {b : Bool}
    (hinv : p.Inv tk) (h : p.produce_operand_unit = .ok (b, p1)) :
    p1.Inv tk ∧ p1.token = p.token ∧ p1.after_operand = p.after_operand := by
  unfold Parser.produce_operand_unit at h
  split_ifs at h with h1 h2
  · cases h; exact ⟨hinv, rfl, rfl⟩
  · cases hnew : Operand.new p.num_buf with
    | error e => rw [hnew] at h; cases h
    | ok val =>
      rw [hnew] at h
      cases h
      refine ⟨?_, rfl, rfl⟩
      obtain ⟨h0, htk, d, hd, hsum, _⟩ := hinv
      refine ⟨by simp only; omega, htk, d + 1, ?_, by simp only; omega, fun _ => by omega⟩
      simp only [depthLoop_append, hd, depthLoop, ExpUnit.depth]

theorem inv_produce_operator_unit {tk : List (Char × Int)} {p p1 : Parser} {c : Char}
    (hinv : p.Inv tk) (h : p.produce_operator_unit c = .ok p1) :
    p1.Inv tk ∧ p1.after_operand = p.after_operand := by
  unfold Parser.produce_operator_unit at h
  cases htab : operator_table c with
  | none => rw [htab] at h; cases h
  | some op =>
    rw [htab] at h
    simp only at h
    split_ifs at h with hn
    cases h
    refine ⟨?_, rfl⟩
    obtain ⟨h0, htk, d, hd, hsum, _⟩ := hinv
    have hnn : 0 ≤ (tk.map Prod.snd).sum := by
      apply List.sum_nonneg
      intro x hx
      obtain ⟨t, ht, rfl⟩ := List.mem_map.mp hx
      exact htk t ht
    rcases operator_table_cases htab with ⟨ha, hdep⟩ | ⟨ha, hdep⟩
    · rw [ha] at hn
      refine ⟨by simp only; omega, htk, d - 1, ?_, by simp only; omega, fun _ => by omega⟩
      have h2 : 2 ≤ d := by omega
      simp only [depthLoop_append, hd, depthLoop, hdep, h2, if_true]
    · rw [ha] at hn
      refine ⟨by simp only; omega, htk, d, ?_, by simp only; omega, fun _ => by omega⟩
      have h2 : 1 ≤ d := by omega
      simp only [depthLoop_append, hd, depthLoop, hdep, h2, if_true]

theorem inv_right_parentheses_loop (finale : Bool) (tk : List (Char × Int)) :
    ∀ {p p1 : Parser}, p.Inv tk → Parser.right_parentheses_loop finale tk p = .ok p1 →
      p1.Inv p1.token := by
  induction tk with
  | nil =>
    intro p p1 hinv h
    unfold Parser.right_parentheses_loop at h
    split_ifs at h
    cases h
    exact hinv
  | cons c rest ih =>
    intro p p1 hinv h
    unfold Parser.right_parentheses_loop at h
    have hrest : ∀ t ∈ rest, 0 ≤ t.2 := fun t ht => hinv.2.1 t (List.mem_cons_of_mem _ ht)
    have hc : 0 ≤ c.2 := hinv.2.1 c (List.mem_cons_self _ _)
    split_ifs at h with h1 h2 h3
    · cases h
      obtain ⟨h0, htk, d, hd, hsum, hne⟩ := hinv
      simp only [List.map_cons, List.sum_cons] at hsum
      exact ⟨by simp only; omega, hrest, d, hd, by simp only; omega, hne⟩
    · cases hprod : p.produce_operator_unit c.1 with
      | error e => rw [hprod] at h; cases h
      | ok p2 =>
        rw [hprod] at h
        have hinv2 := (inv_produce_operator_unit hinv hprod).1
        apply ih _ h
        obtain ⟨h0, htk, d, hd, hsum, hne⟩ := hinv2
        simp only [List.map_cons, List.sum_cons] at hsum
        exact ⟨h0, hrest, d, hd, by omega, hne⟩

theorem inv_feed_loop (new_op : Oprtr) (tk : List (Char × Int)) :
    ∀ {p p1 : Parser}, p.Inv tk → Parser.feed_loop new_op tk p = .ok p1 →
      p1.Inv p1.token := by
  induction tk with
  | nil =>
    intro p p1 hinv h
    unfold Parser.feed_loop at h
    cases h
    exact hinv
  | cons t rest ih =>
    intro p p1 hinv h
    unfold Parser.feed_loop at h
    have hrest : ∀ x ∈ rest, 0 ≤ x.2 := fun x hx => hinv.2.1 x (List.mem_cons_of_mem _ hx)
    have ht : 0 ≤ t.2 := hinv.2.1 t (List.mem_cons_self _ _)
    split_ifs at h with h1
    · cases h; exact hinv
    · cases htab : operator_table t.1 with
      | none => rw [htab] at h; cases h
      | some old_op =>
        rw [htab] at h
        simp only at h
        split_ifs at h with h2
        · cases h; exact hinv
        · cases hprod : p.produce_operator_unit t.1 with
          | error e => rw [hprod] at h; cases h
          | ok p2 =>
            rw [hprod] at h
            have hinv2 := (inv_produce_operator_unit hinv hprod).1
            apply ih _ h
            obtain ⟨h0, htk, d, hd, hsum, hne⟩ := hinv2
            simp only [List.map_cons, List.sum_cons] at hsum
            exact ⟨h0, hrest, d, hd, by omega, hne⟩


theorem feed_eq (p : Parser) (c : Char) :
    p.feed c = if isdigit c then .ok { p with num_buf := p.num_buf ++ [c] }
      else match p.flush with
        | .error e => .error e
        | .ok p2 => p2.dispatch c := by
  unfold Parser.feed Parser.flush Parser.dispatch
  cases p.produce_operand_unit with
  | error e => rfl
  | ok r => rfl

theorem inv_flush {p p1 : Parser} (hinv : p.Inv p.token) (h : p.flush = .ok p1) :
    p1.Inv p1.token := by
  unfold Parser.flush at h
  cases hprod : p.produce_operand_unit with
  | error e => rw [hprod] at h; cases h
  | ok r =>
    obtain ⟨produced, q⟩ := r
    rw [hprod] at h
    obtain ⟨hq, htok, -⟩ := inv_produce_operand_unit hinv hprod
    rw [← htok] at hq
    simp only at h
    cases h
    split_ifs
    · exact hq
    · exact hq

theorem inv_dispatch {p p1 : Parser} {c : Char} (hinv : p.Inv p.token)
    (h : p.dispatch c = .ok p1) : p1.Inv p1.token := by
  unfold Parser.dispatch at h
  by_cases hb : isblank c = true
  · rw [if_pos hb] at h
    cases h; exact hinv
  rw [if_neg hb] at h
  by_cases hr : c = ')'
  · rw [if_pos hr] at h
    cases hrp : p.right_parentheses false with
    | error e => rw [hrp] at h; cases h
    | ok q3 =>
      rw [hrp] at h
      have hp1 : p1 = { q3 with after_operand := true } := by
        injection h with h; exact h.symm
      rw [hp1]
      have hq3 : q3.Inv q3.token := inv_right_parentheses_loop false p.token hinv hrp
      exact hq3
  rw [if_neg hr] at h
  by_cases hl : c = '('
  · rw [if_pos hl] at h
    cases hlp : p.left_parentheses with
    | error e => rw [hlp] at h; cases h
    | ok q3 =>
      rw [hlp] at h
      have hp1 : p1 = { q3 with after_operand := false } := by
        injection h with h; exact h.symm
      rw [hp1]
      unfold Parser.left_parentheses at hlp
      split_ifs at hlp
      cases hlp
      obtain ⟨h0, htk, d, hd, hsum, hne⟩ := hinv
      refine ⟨le_refl _, ?_, d, hd, ?_, hne⟩
      · intro t ht
        rcases List.mem_cons.mp ht with rfl | ht
        · exact h0
        · exact htk t ht
      · simp only [List.map_cons, List.sum_cons]; omega
  rw [if_neg hl] at h
  simp only at h
  generalize (if c = '-' ∧ p.after_operand = false then OP_UNARY_MINUS else c) = c1 at h
  cases htab : operator_table c1 with
  | none => rw [htab] at h; cases h
  | some new_op =>
    rw [htab] at h
    simp only at h
    cases hfl : Parser.feed_loop new_op p.token { p with after_operand := false } with
    | error e => rw [hfl] at h; cases h
    | ok q3 =>
      rw [hfl] at h
      have hp1 : p1 = { q3 with token := (c1, 0) :: q3.token } := by
        injection h with h; exact h.symm
      rw [hp1]
      have hinv3 := inv_feed_loop new_op p.token (p := { p with after_operand := false })
        hinv hfl
      obtain ⟨h0, htk, d, hd, hsum, hne⟩ := hinv3
      refine ⟨h0, ?_, d, hd, ?_, hne⟩
      · intro t ht
        rcases List.mem_cons.mp ht with rfl | ht
        · exact le_refl _
        · exact htk t ht
      · simp only [List.map_cons, List.sum_cons]; omega

theorem inv_feed {p p1 : Parser} {c : Char} (hinv : p.Inv p.token)
    (h : p.feed c = .ok p1) : p1.Inv p1.token := by
  rw [feed_eq] at h
  split_ifs at h with hdig
  · cases h; exact hinv
  · cases hfl : p.flush with
    | error e => rw [hfl] at h; cases h
    | ok p2 =>
      rw [hfl] at h
      exact inv_dispatch (inv_flush hinv hfl) h

theorem inv_feedAll (text : List Char) :
    ∀ {p p1 : Parser}, p.Inv p.token → feedAll p text = .ok p1 → p1.Inv p1.token := by
  induction text with
  | nil => intro p p1 hinv h; cases h; exact hinv
  | cons c cs ih =>
    intro p p1 hinv h
    unfold feedAll at h
    cases hf : p.feed c with
    | error e => rw [hf] at h; cases h
    | ok p2 =>
      rw [hf] at h
      exact ih (inv_feed hinv hf) h

theorem inv_finish {p p1 : Parser} (hinv : p.Inv p.token) (h : p.finish = .ok p1) :
    p1.Inv p1.token ∧ p1.exp ≠ [] := by
  unfold Parser.finish at h
  cases hprod : p.produce_operand_unit with
  | error e => rw [hprod] at h; cases h
  | ok r =>
    obtain ⟨produced, q⟩ := r
    rw [hprod] at h
    obtain ⟨hq, htok, -⟩ := inv_produce_operand_unit hinv hprod
    rw [← htok] at hq
    simp only at h
    cases hrp : q.right_parentheses true with
    | error e => rw [hrp] at h; cases h
    | ok q2 =>
      rw [hrp] at h
      simp only at h
      split_ifs at h with hemp
      cases h
      refine ⟨inv_right_parentheses_loop true q.token hq hrp, ?_⟩
      intro hnil
      rw [hnil] at hemp
      exact hemp rfl

theorem inv_new : Parser.new.Inv Parser.new.token := by
  unfold Parser.Inv Parser.new
  simp [depthLoop]

theorem compile_depth {text : List Char} {exp : List ExpUnit} (h : compile text = .ok exp) :
    ∃ d : Nat, depthLoop exp 0 = some d ∧ 1 ≤ d := by
  unfold compile at h
  cases hfa : feedAll Parser.new text with
  | error e => rw [hfa] at h; cases h
  | ok p =>
    rw [hfa] at h
    simp only at h
    cases hfin : p.finish with
    | error e => rw [hfin] at h; cases h
    | ok p1 =>
      rw [hfin] at h
      cases h
      obtain ⟨⟨-, -, d, hd, -, hne⟩, hexp⟩ := inv_finish (inv_feedAll text inv_new hfa) hfin
      exact ⟨d, hd, hne hexp⟩

theorem eval_of_depth (u : ExpUnit) (acm : List Int) {d : Nat}
    (h : u.depth acm.length = some d) :
    (∃ acm1, u.eval acm = .ok acm1 ∧ acm1.length = d) ∨
      (∃ m, u.eval acm = .error (domain_error m)) ∨ u.eval acm = .error division_overflow := by
  cases u with
  | Operand val => left; simp [ExpUnit.depth] at h; exact ⟨_, rfl, by simp [h]⟩
  | MinusOp =>
    cases acm with
    | nil => simp [ExpUnit.depth] at h
    | cons a acm => left; simp [ExpUnit.depth] at h; exact ⟨_, rfl, by simp [h]⟩
  | DivisionOp =>
    rcases acm with _ | ⟨a, _ | ⟨b, acm⟩⟩
    · simp [ExpUnit.depth] at h
    · simp [ExpUnit.depth] at h
    · simp [ExpUnit.depth] at h
      by_cases ha : a = 0
      · right; left; simp [ExpUnit.eval, ha]
      · by_cases hm : b = -2147483648 ∧ a = -1
        · right; right; simp [ExpUnit.eval, ha, hm]
        · left; simp [ExpUnit.eval, ha, hm, h]
  | ModulusOp =>
    rcases acm with _ | ⟨a, _ | ⟨b, acm⟩⟩
    · simp [ExpUnit.depth] at h
    · simp [ExpUnit.depth] at h
    · simp [ExpUnit.depth] at h
      by_cases ha : a = 0
      · right; left; simp [ExpUnit.eval, ha]
      · by_cases hm : b = -2147483648 ∧ a = -1
        · right; right; simp [ExpUnit.eval, ha, hm]
        · left; simp [ExpUnit.eval, ha, hm, h]
  | AdditionOp =>
    rcases acm with _ | ⟨a, _ | ⟨b, acm⟩⟩
    · simp [ExpUnit.depth] at h
    · simp [ExpUnit.depth] at h
    · left; simp [ExpUnit.depth] at h; exact ⟨_, rfl, by simp [h]⟩
  | SubstractionOp =>
    rcases acm with _ | ⟨a, _ | ⟨b, acm⟩⟩
    · simp [ExpUnit.depth] at h
    · simp [ExpUnit.depth] at h
    · left; simp [ExpUnit.depth] at h; exact ⟨_, rfl, by simp [h]⟩
  | MultiplicationOp =>
    rcases acm with _ | ⟨a, _ | ⟨b, acm⟩⟩
    · simp [ExpUnit.depth] at h
    · simp [ExpUnit.depth] at h
    · left; simp [ExpUnit.depth] at h; exact ⟨_, rfl, by simp [h]⟩
  | ExponentOp =>
    rcases acm with _ | ⟨a, _ | ⟨b, acm⟩⟩
    · simp [ExpUnit.depth] at h
    · simp [ExpUnit.depth] at h
    · left; simp [ExpUnit.depth] at h; exact ⟨_, rfl, by simp [h]⟩

theorem evalLoop_of_depth (exp : List ExpUnit) :
    ∀ (acm : List Int) {d : Nat}, depthLoop exp acm.length = some d →
      (∃ acm1, evalLoop exp acm = .ok acm1 ∧ acm1.length = d) ∨
        (∃ m, evalLoop exp acm = .error (domain_error m)) ∨
        evalLoop exp acm = .error division_overflow := by
  induction exp with
  | nil => intro acm d h; left; simp [depthLoop] at h; exact ⟨acm, rfl, h⟩
  | cons u rest ih =>
    intro acm d h
    unfold depthLoop at h
    cases hu : u.depth acm.length with
    | none => rw [hu] at h; cases h
    | some d1 =>
      rw [hu] at h
      simp only at h
      rcases eval_of_depth u acm hu with ⟨acm1, he, hl⟩ | ⟨m, he⟩ | he
      · rw [← hl] at h
        simpa [evalLoop, he] using ih acm1 h
      · right; left; exact ⟨m, by simp [evalLoop, he]⟩
      · right; right; simp [evalLoop, he]

/-! ## The operator loops on waiting operators -/

theorem pending_table (pd : Pending) :
    operator_table pd.symbol = some ⟨pd.priority, pd.extra + 1, pd.unit⟩ := by
  cases pd with
  | minus => rfl
  | binary op => cases op <;> rfl

theorem pending_symbol_ne_lparen (pd : Pending) : pd.symbol ≠ '(' := by
  cases pd with
  | minus => decide
  | binary op => cases op <;> decide

theorem pending_extra_nonneg (pend : List Pending) : 0 ≤ (pend.map Pending.extra).sum := by
  apply List.sum_nonneg
  intro x hx
  obtain ⟨pd, -, rfl⟩ := List.mem_map.mp hx
  cases pd <;> simp [Pending.extra]

theorem produce_operator_unit_pending (p : Parser) (pd : Pending)
    (h : 1 ≤ p.operand_number - pd.extra) :
    p.produce_operator_unit pd.symbol =
      .ok { p with operand_number := p.operand_number - pd.extra,
                   exp := p.exp ++ [pd.unit] } := by
  unfold Parser.produce_operator_unit
  rw [pending_table]
  simp only [add_sub_cancel_right]
  rw [if_neg (by omega)]

theorem feed_loop_low (new_op : Oprtr) (tk : List (Char × Int))
    (htop : TopLow new_op.priority tk) (p : Parser) :
    Parser.feed_loop new_op tk p = .ok { p with token := tk } := by
  cases tk with
  | nil => rfl
  | cons t rest =>
    unfold Parser.feed_loop
    by_cases h1 : t.1 = '('
    · rw [if_pos h1]
    · rw [if_neg h1]
      rcases htop with h | ⟨op, hop, hlt⟩
      · exact absurd h h1
      · rw [hop]; simp only; rw [if_pos hlt]

theorem feed_loop_pending (new_op : Oprtr) (tk : List (Char × Int))
    (htop : TopLow new_op.priority tk) (pend : List Pending) :
    ∀ p : Parser, (∀ pd ∈ pend, new_op.priority ≤ pd.priority) →
      1 ≤ p.operand_number - (pend.map Pending.extra).sum →
      Parser.feed_loop new_op (Pending.tokens pend ++ tk) p =
        .ok { p with token := tk, exp := p.exp ++ pend.map Pending.unit,
                     operand_number := p.operand_number - (pend.map Pending.extra).sum } := by
  induction pend with
  | nil =>
    intro p _ _
    simp [Pending.tokens, feed_loop_low new_op tk htop p]
  | cons pd pend ih =>
    intro p hprio hcount
    have hnn := pending_extra_nonneg pend
    simp only [List.map_cons, List.sum_cons] at hcount
    have h1 : 1 ≤ p.operand_number - pd.extra := by omega
    simp only [Pending.tokens, List.map_cons, List.cons_append]
    unfold Parser.feed_loop
    rw [if_neg (pending_symbol_ne_lparen pd), pending_table]
    simp only
    rw [if_neg (by have := hprio pd (List.mem_cons_self _ _); omega),
      produce_operator_unit_pending p pd h1]
    simp only
    have := ih { p with operand_number := p.operand_number - pd.extra,
                        exp := p.exp ++ [pd.unit] }
      (fun x hx => hprio x (List.mem_cons_of_mem _ hx)) (by simp only; omega)
    simp only [Pending.tokens] at this
    rw [this]
    simp only [List.append_assoc, List.singleton_append, List.map_cons, List.sum_cons,
      sub_sub]

theorem right_parentheses_loop_pending (s : Int) (tk : List (Char × Int))
    (pend : List Pending) :
    ∀ p : Parser, 1 ≤ p.operand_number - (pend.map Pending.extra).sum →
      Parser.right_parentheses_loop false (Pending.tokens pend ++ ('(', s) :: tk) p =
        .ok { p with token := tk, exp := p.exp ++ pend.map Pending.unit,
                     operand_number := s + 1 } := by
  induction pend with
  | nil =>
    intro p hcount
    simp only [List.map_nil, List.sum_nil, sub_zero] at hcount
    simp only [Pending.tokens, List.map_nil, List.nil_append, List.append_nil]
    unfold Parser.right_parentheses_loop
    simp only [if_true, Bool.false_eq_true, if_false]
    rw [if_neg (by omega)]
  | cons pd pend ih =>
    intro p hcount
    have hnn := pending_extra_nonneg pend
    simp only [List.map_cons, List.sum_cons] at hcount
    have h1 : 1 ≤ p.operand_number - pd.extra := by omega
    simp only [Pending.tokens, List.map_cons, List.cons_append]
    unfold Parser.right_parentheses_loop
    rw [if_neg (pending_symbol_ne_lparen pd), produce_operator_unit_pending p pd h1]
    simp only
    have := ih { p with operand_number := p.operand_number - pd.extra,
                        exp := p.exp ++ [pd.unit] } (by simp only; omega)
    simp only [Pending.tokens] at this
    rw [this]
    simp only [List.append_assoc, List.singleton_append, List.map_cons]

theorem right_parentheses_loop_finale (pend : List Pending) :
    ∀ p : Parser, 1 ≤ p.operand_number - (pend.map Pending.extra).sum →
      Parser.right_parentheses_loop true (Pending.tokens pend) p =
        .ok { p with token := [], exp := p.exp ++ pend.map Pending.unit,
                     operand_number := p.operand_number - (pend.map Pending.extra).sum } := by
  induction pend with
  | nil =>
    intro p _
    simp [Pending.tokens, Parser.right_parentheses_loop]
  | cons pd pend ih =>
    intro p hcount
    have hnn := pending_extra_nonneg pend
    simp only [List.map_cons, List.sum_cons] at hcount
    have h1 : 1 ≤ p.operand_number - pd.extra := by omega
    simp only [Pending.tokens, List.map_cons]
    unfold Parser.right_parentheses_loop
    rw [if_neg (pending_symbol_ne_lparen pd), produce_operator_unit_pending p pd h1]
    simp only
    have := ih { p with operand_number := p.operand_number - pd.extra,
                        exp := p.exp ++ [pd.unit] } (by simp only; omega)
    simp only [Pending.tokens] at this
    rw [this]
    simp only [List.append_assoc, List.singleton_append, List.map_cons, List.sum_cons,
      sub_sub]

/-! ## Single steps of the parser -/

theorem feedAll_append (a b : List Char) :
    ∀ p : Parser, feedAll p (a ++ b) =
      match feedAll p a with
      | .error e => .error e
      | .ok p1 => feedAll p1 b := by
  induction a with
  | nil => intro p; rfl
  | cons c a ih =>
    intro p
    simp only [List.cons_append, feedAll]
    cases p.feed c with
    | error e => rfl
    | ok p1 => exact ih p1

theorem feedAll_digits (ds : List Char) (hds : ∀ c ∈ ds, isdigit c = true) :
    ∀ p : Parser, feedAll p ds = .ok { p with num_buf := p.num_buf ++ ds } := by
  induction ds with
  | nil => intro p; simp [feedAll]
  | cons d ds ih =>
    intro p
    have hd := hds d (List.mem_cons_self _ _)
    simp only [feedAll, feed_eq, hd, if_true]
    rw [ih (fun c hc => hds c (List.mem_cons_of_mem _ hc))]
    simp

theorem flush_clean (p : Parser) (h : p.num_buf = []) : p.flush = .ok p := by
  unfold Parser.flush Parser.produce_operand_unit
  simp [h]

theorem isblank_not_digit {b : Char} (h : isblank b = true) : isdigit b = false := by
  unfold isblank at h
  simp only [Bool.or_eq_true, beq_iff_eq] at h
  rcases h with rfl | rfl <;> rfl

theorem step_blank {p q : Parser} {b : Char} (hb : isblank b = true) (hq : p.flush = .ok q) :
    p.feed b = .ok q := by
  rw [feed_eq, isblank_not_digit hb, hq]
  simp [Parser.dispatch, hb]

theorem step_lparen {p q : Parser} (hq : p.flush = .ok q) (ha : q.after_operand = false) :
    p.feed '(' = .ok { q with token := ('(', q.operand_number) :: q.token,
                               operand_number := 0, after_operand := false } := by
  rw [feed_eq, hq]
  have h1 : isdigit '(' = false := rfl
  have h2 : isblank '(' = false := rfl
  simp [h1, Parser.dispatch, h2, Parser.left_parentheses, ha]

theorem step_rparen {p q : Parser} (hq : p.flush = .ok q) (pend : List Pending) (s : Int)
    (tk : List (Char × Int)) (htok : q.token = Pending.tokens pend ++ ('(', s) :: tk)
    (hcount : 1 ≤ q.operand_number - (pend.map Pending.extra).sum) :
    p.feed ')' = .ok { q with token := tk, exp := q.exp ++ pend.map Pending.unit,
                               operand_number := s + 1, after_operand := true } := by
  rw [feed_eq, hq]
  have h1 : isdigit ')' = false := rfl
  have h2 : isblank ')' = false := rfl
  simp only [h1, Parser.dispatch, h2, Parser.right_parentheses, htok,
    right_parentheses_loop_pending s tk pend q hcount]
  simp

theorem binop_symbol_class (op : BinOp) :
    isdigit op.symbol = false ∧ isblank op.symbol = false ∧ op.symbol ≠ ')' ∧
      op.symbol ≠ '(' ∧ operator_table op.symbol = some ⟨op.level, 2, op.unit⟩ := by
  cases op <;> exact ⟨rfl, rfl, by decide, by decide, rfl⟩

theorem step_binary {p q : Parser} (hq : p.flush = .ok q) (op : BinOp)
    (ha : q.after_operand = true) (pend : List Pending) (tk : List (Char × Int))
    (htok : q.token = Pending.tokens pend ++ tk)
    (hprio : ∀ pd ∈ pend, op.level ≤ pd.priority) (htop : TopLow op.level tk)
    (hcount : 1 ≤ q.operand_number - (pend.map Pending.extra).sum) :
    p.feed op.symbol =
      .ok { q with token := (op.symbol, 0) :: tk, exp := q.exp ++ pend.map Pending.unit,
                   operand_number := q.operand_number - (pend.map Pending.extra).sum,
                   after_operand := false } := by
  obtain ⟨h1, h2, h3, h4, h5⟩ := binop_symbol_class op
  rw [feed_eq, hq]
  have hc1 : (if op.symbol = '-' ∧ q.after_operand = false then OP_UNARY_MINUS else op.symbol)
      = op.symbol := by
    rw [if_neg]; rw [ha]; simp
  simp only [h1, Parser.dispatch, h2, if_neg h3, if_neg h4, hc1, h5, htok, Bool.false_eq_true,
    if_false]
  rw [feed_loop_pending ⟨op.level, 2, op.unit⟩ tk htop pend
    { token := Pending.tokens pend ++ tk, num_buf := q.num_buf, exp := q.exp,
      operand_number := q.operand_number, after_operand := false } hprio hcount]

theorem step_minus {p q : Parser} (hq : p.flush = .ok q) (ha : q.after_operand = false)
    (htop : TopLow 4 q.token) :
    p.feed '-' = .ok { q with token := (OP_UNARY_MINUS, 0) :: q.token,
                               after_operand := false } := by
  rw [feed_eq, hq]
  have h1 : isdigit '-' = false := rfl
  have h2 : isblank '-' = false := rfl
  have h3 : operator_table OP_UNARY_MINUS = some ⟨4, 1, .MinusOp⟩ := rfl
  have h4 : ('-' : Char) ≠ ')' := by decide
  have h5 : ('-' : Char) ≠ '(' := by decide
  simp only [h1, Parser.dispatch, h2, if_neg h4, if_neg h5, ha, and_self, if_true, h3,
    Bool.false_eq_true, if_false]
  rw [feed_loop_low ⟨4, 1, .MinusOp⟩ q.token htop]

/-! ## Sentences of the grammar -/

theorem topLow_mono {n m : Nat} (h : n ≤ m) {tk : List (Char × Int)} (ht : TopLow n tk) :
    TopLow m tk := by
  cases tk with
  | nil => trivial
  | cons t rest =>
    rcases ht with h1 | ⟨op, hop, hlt⟩
    · exact Or.inl h1
    · exact Or.inr ⟨op, hop, by omega⟩

theorem feedAll_single (p : Parser) (c : Char) :
    feedAll p [c] = p.feed c := by
  simp only [feedAll]
  cases p.feed c <;> rfl

theorem feedAll_derives {n : Nat} {w : List Char} {t : Tree} (hd : Derives n w t) :
    ∀ p : Parser, p.num_buf = [] → p.after_operand = false → 0 ≤ p.operand_number →
      TopLow n p.token →
      ∃ (pend : List Pending) (out : List ExpUnit) (p1 q : Parser),
        feedAll p w = .ok p1 ∧ p1.flush = .ok q ∧ p.After q pend out ∧
        (∀ pd ∈ pend, n ≤ pd.priority) ∧ out ++ pend.map Pending.unit = t.toExp := by
  induction hd with
  | number ds hne hdig hle =>
    intro p hbuf haft hcnt htop
    have hnew : Operand.new ds = .ok (decimalValue ds : Int) := by
      rw [operand_new_spec ds hdig, if_pos]; unfold NUMBER_MAX; omega
    have hlen : ds.length ≠ 0 := by
      intro h; exact hne (List.length_eq_zero.mp h)
    refine ⟨[], [.Operand (decimalValue ds)], { p with num_buf := p.num_buf ++ ds },
      { p with exp := p.exp ++ [.Operand (decimalValue ds)], num_buf := [],
               operand_number := p.operand_number + 1, after_operand := true },
      feedAll_digits ds hdig p, ?_, ?_, ?_, ?_⟩
    · unfold Parser.flush Parser.produce_operand_unit
      simp only [hbuf, List.nil_append, hlen, if_false, haft, Bool.false_eq_true, hnew,
        if_true]
    · exact ⟨by simp [Pending.tokens], rfl, rfl, by simp, rfl⟩
    · intro pd hpd; cases hpd
    · simp [Tree.toExp]
  | @paren w t hd1 ih =>
    intro p hbuf haft hcnt htop
    have hstep := step_lparen (flush_clean p hbuf) haft
    obtain ⟨pend, out, p1, q, hfa, hfl, hAfter, -, hpost⟩ :=
      ih { p with token := ('(', p.operand_number) :: p.token, operand_number := 0,
                  after_operand := false } hbuf rfl (le_refl _) (Or.inl rfl)
    obtain ⟨a1, a2, a3, a4, a5⟩ := hAfter
    simp only at a1 a3 a4
    have hclose := step_rparen hfl pend p.operand_number p.token a1 (by rw [a4]; omega)
    refine ⟨[], out ++ pend.map Pending.unit,
      { q with token := p.token, exp := q.exp ++ pend.map Pending.unit,
               operand_number := p.operand_number + 1, after_operand := true },
      { q with token := p.token, exp := q.exp ++ pend.map Pending.unit,
               operand_number := p.operand_number + 1, after_operand := true },
      ?_, flush_clean _ a2, ?_, ?_, ?_⟩
    · simp only [feedAll, hstep, feedAll_append, hfa, hclose]
    · exact ⟨by simp [Pending.tokens], a2, by simp [a3], by simp, rfl⟩
    · intro pd hpd; cases hpd
    · simpa using hpost
  | @minus w t hd1 ih =>
    intro p hbuf haft hcnt htop
    have hstep := step_minus (flush_clean p hbuf) haft htop
    obtain ⟨pend, out, p1, q, hfa, hfl, hAfter, hprio, hpost⟩ :=
      ih { p with token := (OP_UNARY_MINUS, 0) :: p.token, after_operand := false }
        hbuf rfl hcnt (Or.inr ⟨⟨4, 1, .MinusOp⟩, rfl, by decide⟩)
    obtain ⟨a1, a2, a3, a4, a5⟩ := hAfter
    simp only at a1 a3 a4
    refine ⟨pend ++ [.minus], out, p1, q, ?_, hfl, ?_, ?_, ?_⟩
    · simp only [feedAll, hstep, hfa]
    · exact ⟨by simp [a1, Pending.tokens, Pending.symbol], a2, a3,
        by simp [a4, Pending.extra], a5⟩
    · intro pd hpd
      rcases List.mem_append.mp hpd with h | h
      · have := hprio pd h; omega
      · simp only [List.mem_singleton] at h; subst h; exact le_refl _
    · simp [Tree.toExp, ← hpost, Pending.unit]
  | @binary op w1 w2 t1 t2 hd1 hd2 ih1 ih2 =>
    intro p hbuf haft hcnt htop
    obtain ⟨pend1, out1, p1, q1, hfa1, hfl1, hAfter1, hprio1, hpost1⟩ :=
      ih1 p hbuf haft hcnt htop
    obtain ⟨a1, a2, a3, a4, a5⟩ := hAfter1
    have hstep := step_binary hfl1 op a5 pend1 p.token a1 hprio1 htop (by rw [a4]; omega)
    obtain ⟨pend2, out2, p2, q2, hfa2, hfl2, hAfter2, hprio2, hpost2⟩ :=
      ih2 { q1 with token := (op.symbol, 0) :: p.token,
                    exp := q1.exp ++ pend1.map Pending.unit,
                    operand_number := q1.operand_number - (pend1.map Pending.extra).sum,
                    after_operand := false }
        a2 rfl (by simp only; rw [a4]; omega)
        (Or.inr ⟨⟨op.level, 2, op.unit⟩, (binop_symbol_class op).2.2.2.2, by simp⟩)
    obtain ⟨b1, b2, b3, b4, b5⟩ := hAfter2
    simp only at b1 b3 b4
    refine ⟨pend2 ++ [.binary op], out1 ++ pend1.map Pending.unit ++ out2, p2, q2, ?_, hfl2,
      ?_, ?_, ?_⟩
    · rw [feedAll_append, hfa1]
      simp only [feedAll, hstep, hfa2]
    · exact ⟨by simp [b1, Pending.tokens, Pending.symbol], b2, by simp [b3, a3],
        by simp [b4, a4, Pending.extra]; ring, b5⟩
    · intro pd hpd
      rcases List.mem_append.mp hpd with h | h
      · have := hprio2 pd h; omega
      · simp only [List.mem_singleton] at h; subst h; exact le_refl _
    · simp [Tree.toExp, ← hpost1, ← hpost2, Pending.unit]
  | @lift n w t hn hd1 ih =>
    intro p hbuf haft hcnt htop
    obtain ⟨pend, out, p1, q, hfa, hfl, hAfter, hprio, hpost⟩ :=
      ih p hbuf haft hcnt (topLow_mono (Nat.le_succ n) htop)
    exact ⟨pend, out, p1, q, hfa, hfl, hAfter, fun pd hpd => by have := hprio pd hpd; omega,
      hpost⟩
  | @blank_left n b w t hb hd1 ih =>
    intro p hbuf haft hcnt htop
    obtain ⟨pend, out, p1, q, hfa, hfl, hAfter, hprio, hpost⟩ := ih p hbuf haft hcnt htop
    refine ⟨pend, out, p1, q, ?_, hfl, hAfter, hprio, hpost⟩
    simp only [feedAll, step_blank hb (flush_clean p hbuf), hfa]
  | @blank_right n b w t hb hd1 ih =>
    intro p hbuf haft hcnt htop
    obtain ⟨pend, out, p1, q, hfa, hfl, hAfter, hprio, hpost⟩ := ih p hbuf haft hcnt htop
    refine ⟨pend, out, q, q, ?_, flush_clean q hAfter.2.1, hAfter, hprio, hpost⟩
    rw [feedAll_append, hfa]
    simp only [feedAll_single, step_blank hb hfl]

theorem produce_of_flush {p q : Parser} (h : p.flush = .ok q) :
    ∃ (b : Bool) (pr : Parser), p.produce_operand_unit = .ok (b, pr) ∧ pr.token = q.token ∧
      pr.exp = q.exp ∧ pr.operand_number = q.operand_number := by
  unfold Parser.flush at h
  cases hprod : p.produce_operand_unit with
  | error e => rw [hprod] at h; cases h
  | ok r =>
    obtain ⟨b, pr⟩ := r
    rw [hprod] at h
    simp only at h
    have hq : q = if b = true then { pr with after_operand := true } else pr := by
      injection h with h; exact h.symm
    refine ⟨b, pr, rfl, ?_, ?_, ?_⟩ <;> rw [hq] <;> split_ifs <;> rfl

theorem toExp_ne_nil (t : Tree) : t.toExp ≠ [] := by
  cases t <;> simp [Tree.toExp]

theorem compile_of_derives {w : List Char} {t : Tree} (hd : Derives 1 w t) :
    compile w = .ok t.toExp := by
  obtain ⟨pend, out, p1, q, hfa, hfl, ⟨a1, a2, a3, a4, a5⟩, -, hpost⟩ :=
    feedAll_derives hd Parser.new rfl rfl (le_refl _) trivial
  obtain ⟨b, pr, hprod, c1, c2, c3⟩ := produce_of_flush hfl
  have htok : pr.token = Pending.tokens pend := by
    rw [c1, a1]; simp [Parser.new]
  have hcount : 1 ≤ pr.operand_number - (pend.map Pending.extra).sum := by
    rw [c3, a4]; simp [Parser.new]
  have hexp : pr.exp ++ pend.map Pending.unit = t.toExp := by
    rw [c2, a3, ← hpost]; simp [Parser.new]
  unfold compile
  rw [hfa]
  simp only [Parser.finish, hprod, Parser.right_parentheses, htok,
    right_parentheses_loop_finale pend pr hcount, hexp]
  have hne : t.toExp.isEmpty = false := by
    cases h : t.toExp with
    | nil => exact absurd h (toExp_ne_nil t)
    | cons u rest => rfl
  simp [hne]

theorem derives_lift_le {m : Nat} {w : List Char} {t : Tree} (hd : Derives m w t) :
    ∀ k n : Nat, n + k = m → 1 ≤ n → Derives n w t := by
  intro k
  induction k with
  | zero => intro n hn _; simp at hn; subst hn; exact hd
  | succ k ih =>
    intro n hn h1
    exact Derives.lift h1 (ih (n + 1) (by omega) (by omega))

theorem derives_le {m n : Nat} {w : List Char} {t : Tree} (hd : Derives m w t)
    (h1 : 1 ≤ n) (hnm : n ≤ m) : Derives n w t :=
  derives_lift_le hd (m - n) n (by omega) h1

theorem derives_literal {ds : List Char} {a : Nat} (h : Literal ds a) {n : Nat}
    (h1 : 1 ≤ n) (h5 : n ≤ 5) : Derives n ds (.number a) := by
  obtain ⟨hne, hdig, hval, hle⟩ := h
  subst hval
  exact derives_le (Derives.number ds hne hdig hle) h1 h5

theorem derives_blanks_left {s : List Char} (hs : Blank s) {n : Nat} {w : List Char} {t : Tree}
    (hd : Derives n w t) : Derives n (s ++ w) t := by
  induction s with
  | nil => exact hd
  | cons c s ih =>
    exact Derives.blank_left (hs c (List.mem_cons_self _ _))
      (ih fun x hx => hs x (List.mem_cons_of_mem _ hx))

theorem derives_blanks_right {s : List Char} (hs : Blank s) {n : Nat} :
    ∀ {w : List Char} {t : Tree}, Derives n w t → Derives n (w ++ s) t := by
  induction s with
  | nil => intro w t hd; simpa using hd
  | cons c s ih =>
    intro w t hd
    have h1 := Derives.blank_right (hs c (List.mem_cons_self _ _)) hd
    have h2 := ih (fun x hx => hs x (List.mem_cons_of_mem _ hx)) h1
    simpa using h2

theorem binop_level_bounds (op : BinOp) : 1 ≤ op.level ∧ op.level ≤ 3 := by
  cases op <;> simp [BinOp.level]

theorem derives_binary_text {op : BinOp} {w1 w2 s1 s2 : List Char} {t1 t2 : Tree}
    (h1 : Derives op.level w1 t1) (h2 : Derives (op.level + 1) w2 t2)
    (hs1 : Blank s1) (hs2 : Blank s2) :
    Derives op.level (w1 ++ s1 ++ op.symbol :: (s2 ++ w2)) (.binary op t1 t2) :=
  Derives.binary op (derives_blanks_right hs1 h1) (derives_blanks_left hs2 h2)

/-! ## The value flag of the parser -/

theorem produce_operator_unit_frame {p p1 : Parser} {c : Char}
    (h : p.produce_operator_unit c = .ok p1) :
    p1.num_buf = p.num_buf ∧ p1.after_operand = p.after_operand := by
  unfold Parser.produce_operator_unit at h
  cases htab : operator_table c with
  | none => rw [htab] at h; cases h
  | some op =>
    rw [htab] at h
    simp only at h
    split_ifs at h
    cases h
    exact ⟨rfl, rfl⟩

theorem right_parentheses_loop_frame (finale : Bool) (tk : List (Char × Int)) :
    ∀ {p p1 : Parser}, Parser.right_parentheses_loop finale tk p = .ok p1 →
      p1.num_buf = p.num_buf ∧ p1.after_operand = p.after_operand := by
  induction tk with
  | nil =>
    intro p p1 h
    unfold Parser.right_parentheses_loop at h
    split_ifs at h
    cases h
    exact ⟨rfl, rfl⟩
  | cons c rest ih =>
    intro p p1 h
    unfold Parser.right_parentheses_loop at h
    split_ifs at h
    · cases h; exact ⟨rfl, rfl⟩
    · cases hprod : p.produce_operator_unit c.1 with
      | error e => rw [hprod] at h; cases h
      | ok p2 =>
        rw [hprod] at h
        obtain ⟨f1, f2⟩ := produce_operator_unit_frame hprod
        obtain ⟨g1, g2⟩ := ih h
        exact ⟨g1.trans f1, g2.trans f2⟩

theorem feed_loop_frame (new_op : Oprtr) (tk : List (Char × Int)) :
    ∀ {p p1 : Parser}, Parser.feed_loop new_op tk p = .ok p1 →
      p1.num_buf = p.num_buf ∧ p1.after_operand = p.after_operand := by
  induction tk with
  | nil =>
    intro p p1 h
    unfold Parser.feed_loop at h
    cases h
    exact ⟨rfl, rfl⟩
  | cons t rest ih =>
    intro p p1 h
    unfold Parser.feed_loop at h
    split_ifs at h
    · cases h; exact ⟨rfl, rfl⟩
    · cases htab : operator_table t.1 with
      | none => rw [htab] at h; cases h
      | some old_op =>
        rw [htab] at h
        simp only at h
        split_ifs at h
        · cases h; exact ⟨rfl, rfl⟩
        · cases hprod : p.produce_operator_unit t.1 with
          | error e => rw [hprod] at h; cases h
          | ok p2 =>
            rw [hprod] at h
            obtain ⟨f1, f2⟩ := produce_operator_unit_frame hprod
            obtain ⟨g1, g2⟩ := ih h
            exact ⟨g1.trans f1, g2.trans f2⟩

theorem flush_flag {p q : Parser} (h : p.flush = .ok q) :
    q.num_buf = [] ∧ q.after_operand = p.after_value := by
  unfold Parser.flush Parser.produce_operand_unit at h
  by_cases hlen : p.num_buf.length = 0
  · have hnil : p.num_buf = [] := List.length_eq_zero.mp hlen
    rw [if_pos hlen] at h
    simp only [Bool.false_eq_true, if_false] at h
    cases h
    exact ⟨hnil, by simp [Parser.after_value, hnil]⟩
  · have hne : p.num_buf ≠ [] := fun hnil => hlen (by rw [hnil]; rfl)
    rw [if_neg hlen] at h
    split_ifs at h with ha
    cases hnew : Operand.new p.num_buf with
    | error e => rw [hnew] at h; cases h
    | ok val =>
      rw [hnew] at h
      simp only [if_true] at h
      cases h
      refine ⟨rfl, ?_⟩
      cases hb : p.num_buf with
      | nil => exact absurd hb hne
      | cons d ds => simp [Parser.after_value, hb]

theorem dispatch_flag {q p1 : Parser} {c : Char} (hbuf : q.num_buf = [])
    (h : q.dispatch c = .ok p1) :
    p1.after_value =
      (if isblank c then q.after_operand else if c = ')' then true else false) ∧
    (c = '-' → ∃ rest, p1.token =
      ((if q.after_operand then '-' else OP_UNARY_MINUS), 0) :: rest) := by
  unfold Parser.dispatch at h
  by_cases hb : isblank c = true
  · rw [if_pos hb] at h
    cases h
    refine ⟨by simp [Parser.after_value, hbuf, hb], ?_⟩
    intro hc; subst hc; exact absurd hb (by decide)
  rw [if_neg hb] at h
  have hb1 : isblank c = false := Bool.eq_false_iff.mpr hb
  by_cases hr : c = ')'
  · rw [if_pos hr] at h
    cases hrp : q.right_parentheses false with
    | error e => rw [hrp] at h; cases h
    | ok q3 =>
      rw [hrp] at h
      have hp1 : p1 = { q3 with after_operand := true } := by
        injection h with h; exact h.symm
      refine ⟨by simp [hp1, Parser.after_value, hb1, if_pos hr], ?_⟩
      intro hc; rw [hc] at hr; exact absurd hr (by decide)
  rw [if_neg hr] at h
  by_cases hl : c = '('
  · rw [if_pos hl] at h
    cases hlp : q.left_parentheses with
    | error e => rw [hlp] at h; cases h
    | ok q3 =>
      rw [hlp] at h
      have hp1 : p1 = { q3 with after_operand := false } := by
        injection h with h; exact h.symm
      unfold Parser.left_parentheses at hlp
      split_ifs at hlp
      cases hlp
      refine ⟨by simp [hp1, Parser.after_value, hb1, if_neg hr, hbuf], ?_⟩
      intro hc; rw [hc] at hl; exact absurd hl (by decide)
  rw [if_neg hl] at h
  simp only at h
  cases htab : operator_table
      (if c = '-' ∧ q.after_operand = false then OP_UNARY_MINUS else c) with
  | none => rw [htab] at h; cases h
  | some new_op =>
    rw [htab] at h
    simp only at h
    cases hfl : Parser.feed_loop new_op q.token { q with after_operand := false } with
    | error e => rw [hfl] at h; cases h
    | ok q3 =>
      rw [hfl] at h
      have hp1 : p1 = { q3 with token :=
          ((if c = '-' ∧ q.after_operand = false then OP_UNARY_MINUS else c), 0) :: q3.token } := by
        injection h with h; exact h.symm
      obtain ⟨f1, f2⟩ := feed_loop_frame new_op q.token hfl
      simp only at f1 f2
      refine ⟨by simp [hp1, Parser.after_value, hb1, if_neg hr, f1, f2, hbuf], ?_⟩
      intro hc
      refine ⟨q3.token, ?_⟩
      rw [hp1]
      subst hc
      cases q.after_operand <;> simp

theorem feed_flag {p p1 : Parser} {c : Char} (h : p.feed c = .ok p1) :
    p1.after_value =
      (if isdigit c then true else if isblank c then p.after_value
        else if c = ')' then true else false) ∧
    (c = '-' → ∃ rest, p1.token =
      ((if p.after_value then '-' else OP_UNARY_MINUS), 0) :: rest) := by
  rw [feed_eq] at h
  by_cases hd : isdigit c = true
  · rw [if_pos hd] at h
    cases h
    refine ⟨by simp [Parser.after_value, hd], ?_⟩
    intro hc; subst hc; exact absurd hd (by decide)
  · rw [if_neg hd] at h
    cases hfl : p.flush with
    | error e => rw [hfl] at h; cases h
    | ok q =>
      rw [hfl] at h
      obtain ⟨g1, g2⟩ := flush_flag hfl
      obtain ⟨d1, d2⟩ := dispatch_flag g1 h
      rw [g2] at d1 d2
      exact ⟨by rw [d1]; simp [hd], d2⟩

/-! ## One more left parenthesis at the bottom of the stack -/

theorem compile_eq_run (text : List Char) : compile text = Parser.new.run text := rfl

theorem produce_operator_unit_token (p : Parser) (x : List (Char × Int)) (c : Char) :
    Parser.produce_operator_unit { p with token := x } c =
      match p.produce_operator_unit c with
      | .error e => .error e
      | .ok q => .ok { q with token := x } := by
  unfold Parser.produce_operator_unit
  cases operator_table c with
  | none => rfl
  | some op =>
    simp only
    split_ifs <;> rfl

theorem right_parentheses_loop_token (finale : Bool) (x tk : List (Char × Int)) :
    ∀ p : Parser, Parser.right_parentheses_loop finale tk { p with token := x } =
      Parser.right_parentheses_loop finale tk p := by
  induction tk with
  | nil => intro p; rfl
  | cons c rest ih =>
    intro p
    unfold Parser.right_parentheses_loop
    rw [produce_operator_unit_token]
    cases p.produce_operator_unit c.1 with
    | error e => rfl
    | ok q => simp only [ih q]

theorem feed_loop_token (new_op : Oprtr) (x tk : List (Char × Int)) :
    ∀ p : Parser, Parser.feed_loop new_op tk { p with token := x } =
      Parser.feed_loop new_op tk p := by
  induction tk with
  | nil => intro p; rfl
  | cons c rest ih =>
    intro p
    unfold Parser.feed_loop
    rw [produce_operator_unit_token]
    cases p.produce_operator_unit c.1 with
    | error e => rfl
    | ok q => simp only [ih q]

theorem produce_operator_unit_after (p : Parser) (b : Bool) (c : Char) :
    Parser.produce_operator_unit { p with after_operand := b } c =
      match p.produce_operator_unit c with
      | .error e => .error e
      | .ok q => .ok { q with after_operand := b } := by
  unfold Parser.produce_operator_unit
  cases operator_table c with
  | none => rfl
  | some op =>
    simp only
    split_ifs <;> rfl

theorem right_parentheses_loop_after (finale : Bool) (b : Bool) (tk : List (Char × Int)) :
    ∀ p : Parser, Parser.right_parentheses_loop finale tk { p with after_operand := b } =
      match Parser.right_parentheses_loop finale tk p with
      | .error e => .error e
      | .ok q => .ok { q with after_operand := b } := by
  induction tk with
  | nil =>
    intro p
    unfold Parser.right_parentheses_loop
    split_ifs <;> rfl
  | cons c rest ih =>
    intro p
    unfold Parser.right_parentheses_loop
    rw [produce_operator_unit_after]
    split_ifs
    · rfl
    · rfl
    · rfl
    · cases p.produce_operator_unit c.1 with
      | error e => rfl
      | ok q => simp only [ih q]

theorem feed_loop_enclosed (new_op : Oprtr) (lp : Int) (tk : List (Char × Int)) :
    ∀ {p q : Parser}, Parser.feed_loop new_op tk p = .ok q →
      Parser.feed_loop new_op (tk ++ [('(', lp)]) p =
        .ok { q with token := q.token ++ [('(', lp)] } := by
  induction tk with
  | nil =>
    intro p q h
    unfold Parser.feed_loop at h
    cases h
    simp [Parser.feed_loop]
  | cons t rest ih =>
    intro p q h
    unfold Parser.feed_loop at h
    simp only [List.cons_append]
    unfold Parser.feed_loop
    by_cases h1 : t.1 = '('
    · rw [if_pos h1] at h ⊢
      cases h; rfl
    · rw [if_neg h1] at h ⊢
      cases htab : operator_table t.1 with
      | none => rw [htab] at h; cases h
      | some old_op =>
        rw [htab] at h
        simp only at h ⊢
        by_cases h2 : old_op.priority < new_op.priority
        · rw [if_pos h2] at h ⊢
          cases h; rfl
        · rw [if_neg h2] at h ⊢
          cases hprod : p.produce_operator_unit t.1 with
          | error e => rw [hprod] at h; cases h
          | ok p2 =>
            rw [hprod] at h
            exact ih h

theorem right_parentheses_loop_enclosed (lp : Int) (tk : List (Char × Int)) :
    ∀ {p q : Parser}, Parser.right_parentheses_loop false tk p = .ok q →
      Parser.right_parentheses_loop false (tk ++ [('(', lp)]) p =
        .ok { q with token := q.token ++ [('(', lp)] } := by
  induction tk with
  | nil =>
    intro p q h
    unfold Parser.right_parentheses_loop at h
    simp at h
  | cons t rest ih =>
    intro p q h
    unfold Parser.right_parentheses_loop at h
    simp only [List.cons_append]
    unfold Parser.right_parentheses_loop
    by_cases h1 : t.1 = '('
    · rw [if_pos h1] at h ⊢
      simp only [Bool.false_eq_true, if_false] at h ⊢
      by_cases h2 : p.operand_number < 1
      · rw [if_pos h2] at h; cases h
      · rw [if_neg h2] at h ⊢
        cases h; rfl
    · rw [if_neg h1] at h ⊢
      cases hprod : p.produce_operator_unit t.1 with
      | error e => rw [hprod] at h; cases h
      | ok p2 =>
        rw [hprod] at h
        exact ih h

theorem right_parentheses_loop_drained (lp : Int) (tk : List (Char × Int)) :
    ∀ {p q : Parser}, Parser.right_parentheses_loop true tk p = .ok q →
      Parser.right_parentheses_loop true (tk ++ [('(', lp)]) p =
        .error (syntax_error "Missing ')'") ∧
      Parser.right_parentheses_loop false tk p = .error (syntax_error "Missing '('") ∧
      Parser.right_parentheses_loop false (tk ++ [('(', lp)]) p =
        (if q.operand_number < 1 then .error (syntax_error "Missing operand before ')'")
          else .ok { q with token := [], operand_number := lp + 1 }) ∧
      q.token = [] := by
  induction tk with
  | nil =>
    intro p q h
    unfold Parser.right_parentheses_loop at h
    simp only [Bool.not_true, Bool.false_eq_true, if_false] at h
    cases h
    simp [Parser.right_parentheses_loop]
  | cons t rest ih =>
    intro p q h
    unfold Parser.right_parentheses_loop at h
    simp only [List.cons_append]
    by_cases h1 : t.1 = '('
    · rw [if_pos h1] at h
      simp at h
    · rw [if_neg h1] at h
      cases hprod : p.produce_operator_unit t.1 with
      | error e => rw [hprod] at h; cases h
      | ok p2 =>
        rw [hprod] at h
        obtain ⟨i1, i2, i3, i4⟩ := ih h
        refine ⟨?_, ?_, ?_, i4⟩
        · unfold Parser.right_parentheses_loop
          rw [if_neg h1, hprod]; exact i1
        · unfold Parser.right_parentheses_loop
          rw [if_neg h1, hprod]; exact i2
        · unfold Parser.right_parentheses_loop
          rw [if_neg h1, hprod]; exact i3

theorem flush_enclosed (p : Parser) :
    p.enclosed.flush =
      match p.flush with
      | .error e => .error e
      | .ok q => .ok q.enclosed := by
  unfold Parser.flush Parser.produce_operand_unit Parser.enclosed
  simp only
  split_ifs
  · rfl
  · rfl
  · cases Operand.new p.num_buf <;> rfl

theorem dispatch_enclosed {p q : Parser} {c : Char} (h : p.dispatch c = .ok q) :
    p.enclosed.dispatch c = .ok q.enclosed := by
  unfold Parser.dispatch at h ⊢
  by_cases hb : isblank c = true
  · rw [if_pos hb] at h ⊢
    cases h; rfl
  rw [if_neg hb] at h ⊢
  by_cases hr : c = ')'
  · rw [if_pos hr] at h ⊢
    cases hrp : p.right_parentheses false with
    | error e => rw [hrp] at h; cases h
    | ok q3 =>
      rw [hrp] at h
      have hq : q = { q3 with after_operand := true } := by
        injection h with h; exact h.symm
      unfold Parser.right_parentheses at hrp ⊢
      have h1 := right_parentheses_loop_enclosed 0 p.token hrp
      have h2 : Parser.right_parentheses_loop false p.enclosed.token p.enclosed =
          Parser.right_parentheses_loop false (p.token ++ [('(', 0)]) p :=
        right_parentheses_loop_token false _ _ p
      rw [h2, h1, hq]
      rfl
  rw [if_neg hr] at h ⊢
  by_cases hl : c = '('
  · rw [if_pos hl] at h ⊢
    unfold Parser.left_parentheses at h ⊢
    have ha : p.enclosed.after_operand = p.after_operand := rfl
    rw [ha]
    by_cases ho : p.after_operand = true
    · rw [if_pos ho] at h; cases h
    · rw [if_neg ho] at h ⊢
      simp only at h ⊢
      have hq : q = { p with token := ('(', p.operand_number) :: p.token,
                             operand_number := 0, after_operand := false } := by
        injection h with h; exact h.symm
      rw [hq]; rfl
  rw [if_neg hl] at h ⊢
  simp only at h ⊢
  have ha : p.enclosed.after_operand = p.after_operand := rfl
  rw [ha]
  cases htab : operator_table
      (if c = '-' ∧ p.after_operand = false then OP_UNARY_MINUS else c) with
  | none => rw [htab] at h; cases h
  | some new_op =>
    rw [htab] at h
    simp only at h ⊢
    cases hfl : Parser.feed_loop new_op p.token { p with after_operand := false } with
    | error e => rw [hfl] at h; cases h
    | ok q3 =>
      rw [hfl] at h
      have hq : q = { q3 with token :=
          ((if c = '-' ∧ p.after_operand = false then OP_UNARY_MINUS else c), 0) :: q3.token } := by
        injection h with h; exact h.symm
      have h1 := feed_loop_enclosed new_op 0 p.token hfl
      have h2 : Parser.feed_loop new_op p.enclosed.token
          { p.enclosed with after_operand := false } =
          Parser.feed_loop new_op (p.token ++ [('(', 0)]) { p with after_operand := false } :=
        feed_loop_token new_op _ _ { p with after_operand := false }
      rw [h2, h1, hq]
      rfl

theorem feed_enclosed {p q : Parser} {c : Char} (h : p.feed c = .ok q) :
    p.enclosed.feed c = .ok q.enclosed := by
  rw [feed_eq] at h ⊢
  by_cases hd : isdigit c = true
  · rw [if_pos hd] at h ⊢
    cases h; rfl
  · rw [if_neg hd] at h ⊢
    rw [flush_enclosed]
    cases hfl : p.flush with
    | error e => rw [hfl] at h; cases h
    | ok p2 =>
      rw [hfl] at h
      exact dispatch_enclosed h

theorem feedAll_enclosed (text : List Char) :
    ∀ {p q : Parser}, feedAll p text = .ok q → feedAll p.enclosed text = .ok q.enclosed := by
  induction text with
  | nil => intro p q h; cases h; rfl
  | cons c cs ih =>
    intro p q h
    unfold feedAll at h ⊢
    cases hf : p.feed c with
    | error e => rw [hf] at h; cases h
    | ok p1 =>
      rw [hf] at h
      rw [feed_enclosed hf]
      exact ih h

theorem feed_lparen_new : Parser.new.feed '(' = .ok Parser.new.enclosed := rfl

theorem run_nil (p : Parser) :
    p.run [] = match p.finish with
      | .error e => .error e
      | .ok p2 => .ok p2.exp := rfl

theorem run_cons (p : Parser) (c : Char) (cs : List Char) :
    p.run (c :: cs) = match p.feed c with
      | .error e => .error e
      | .ok p1 => p1.run cs := by
  unfold Parser.run
  simp only [feedAll]
  cases p.feed c <;> rfl

theorem run_append (p : Parser) (a b : List Char) :
    p.run (a ++ b) = match feedAll p a with
      | .error e => .error e
      | .ok p1 => p1.run b := by
  unfold Parser.run
  rw [feedAll_append]
  cases feedAll p a <;> rfl

theorem finish_ok {p p2 : Parser} (h : p.finish = .ok p2) :
    ∃ (b : Bool) (pr : Parser), p.produce_operand_unit = .ok (b, pr) ∧
      Parser.right_parentheses_loop true pr.token pr = .ok p2 ∧ p2.exp ≠ [] := by
  unfold Parser.finish at h
  cases hprod : p.produce_operand_unit with
  | error e => rw [hprod] at h; cases h
  | ok r =>
    obtain ⟨b, pr⟩ := r
    rw [hprod] at h
    simp only at h
    cases hrp : pr.right_parentheses true with
    | error e => rw [hrp] at h; cases h
    | ok q =>
      rw [hrp] at h
      simp only at h
      by_cases hemp : q.exp.isEmpty = true
      · rw [if_pos hemp] at h; cases h
      · rw [if_neg hemp] at h
        cases h
        refine ⟨b, pr, rfl, hrp, ?_⟩
        intro hnil; rw [hnil] at hemp; exact hemp rfl

theorem produce_operand_unit_fields {p pr : Parser} {b : Bool}
    (h : p.produce_operand_unit = .ok (b, pr)) :
    pr.token = p.token ∧ pr.num_buf = [] ∧ pr.after_operand = p.after_operand ∧
      (b = false → pr = p) ∧ (b = true → p.after_operand = false) := by
  unfold Parser.produce_operand_unit at h
  by_cases hlen : p.num_buf.length = 0
  · rw [if_pos hlen] at h
    cases h
    exact ⟨rfl, List.length_eq_zero.mp hlen, rfl, fun _ => rfl, fun hb => by cases hb⟩
  · rw [if_neg hlen] at h
    by_cases ha : p.after_operand = true
    · rw [if_pos ha] at h; cases h
    · rw [if_neg ha] at h
      cases hnew : Operand.new p.num_buf with
      | error e => rw [hnew] at h; cases h
      | ok val =>
        rw [hnew] at h
        cases h
        refine ⟨rfl, rfl, rfl, ?_, ?_⟩
        · intro hb; cases hb
        · intro _; simpa using ha

theorem flush_of_produce {p pr : Parser} {b : Bool} (h : p.produce_operand_unit = .ok (b, pr)) :
    p.flush = .ok { pr with after_operand := (b || pr.after_operand) } := by
  have hfl : p.flush = .ok (if b = true then { pr with after_operand := true } else pr) := by
    unfold Parser.flush; rw [h]
  rw [hfl]; cases b <;> rfl

/-- Every text the constructor accepts is rejected with "Missing ')'" when a
left parenthesis is put before it. -/
theorem compile_lparen_of_ok {e : List Char} {exp : List ExpUnit} (h : compile e = .ok exp) :
    compile ('(' :: e) = .error (syntax_error "Missing ')'") := by
  rw [compile_eq_run] at h ⊢
  rw [run_cons, feed_lparen_new]
  simp only
  unfold Parser.run at h ⊢
  cases hfa : feedAll Parser.new e with
  | error x => rw [hfa] at h; cases h
  | ok p1 =>
    rw [hfa] at h
    rw [feedAll_enclosed e hfa]
    simp only at h ⊢
    cases hfin : p1.finish with
    | error x => rw [hfin] at h; cases h
    | ok p2 =>
      obtain ⟨b, pr, hprod, hloop, -⟩ := finish_ok hfin
      have hprod2 : p1.enclosed.produce_operand_unit = .ok (b, pr.enclosed) := by
        unfold Parser.produce_operand_unit at hprod ⊢
        unfold Parser.enclosed
        simp only
        split_ifs at hprod ⊢ with h1 h2
        · cases hprod; rfl
        · cases hnew : Operand.new p1.num_buf with
          | error x => rw [hnew] at hprod; cases hprod
          | ok val => rw [hnew] at hprod; cases hprod; rfl
      have hl := (right_parentheses_loop_drained 0 pr.token hloop).1
      have ht : Parser.right_parentheses_loop true pr.enclosed.token pr.enclosed =
          Parser.right_parentheses_loop true (pr.token ++ [('(', 0)]) pr :=
        right_parentheses_loop_token true _ _ pr
      simp only [Parser.finish, hprod2, Parser.right_parentheses, ht, hl]

/-- Every text the constructor accepts is rejected with "Missing '('" when a
right parenthesis is put after it. -/
theorem compile_rparen_of_ok {e : List Char} {exp : List ExpUnit} (h : compile e = .ok exp) :
    compile (e ++ [')']) = .error (syntax_error "Missing '('") := by
  rw [compile_eq_run] at h ⊢
  rw [run_append]
  unfold Parser.run at h
  cases hfa : feedAll Parser.new e with
  | error x => rw [hfa] at h; cases h
  | ok p1 =>
    rw [hfa] at h
    simp only at h ⊢
    cases hfin : p1.finish with
    | error x => rw [hfin] at h; cases h
    | ok p2 =>
      obtain ⟨b, pr, hprod, hloop, -⟩ := finish_ok hfin
      have hfl := flush_of_produce hprod
      have hl := (right_parentheses_loop_drained 0 pr.token hloop).2.1
      have hfeed : p1.feed ')' = .error (syntax_error "Missing '('") := by
        rw [feed_eq, hfl]
        have h1 : isdigit ')' = false := rfl
        have h2 : isblank ')' = false := rfl
        simp only [h1, Parser.dispatch, h2, Parser.right_parentheses, Bool.false_eq_true,
          if_false, if_true]
        rw [right_parentheses_loop_after, hl]
      rw [run_cons, hfeed]

/-! ## The counter of the outermost scope -/

theorem counted_produce_operator_unit {p p1 : Parser} {c : Char}
    (h : p.produce_operator_unit c = .ok p1) : 1 ≤ p1.operand_number := by
  unfold Parser.produce_operator_unit at h
  cases htab : operator_table c with
  | none => rw [htab] at h; cases h
  | some op =>
    rw [htab] at h
    simp only at h
    split_ifs at h with hn
    cases h
    simp only; omega

theorem counted_right_parentheses_loop (finale : Bool) (tk : List (Char × Int)) :
    ∀ {p p1 : Parser}, (∀ t ∈ tk, 0 ≤ t.2) → p.Counted tk →
      Parser.right_parentheses_loop finale tk p = .ok p1 → p1.Counted p1.token := by
  induction tk with
  | nil =>
    intro p p1 _ hc h
    unfold Parser.right_parentheses_loop at h
    split_ifs at h
    cases h
    exact hc
  | cons c rest ih =>
    intro p p1 hnn hc h
    unfold Parser.right_parentheses_loop at h
    have hc0 : 0 ≤ c.2 := hnn c (List.mem_cons_self _ _)
    split_ifs at h with h1 h2 h3
    · cases h
      intro _
      left; simp only; omega
    · cases hprod : p.produce_operator_unit c.1 with
      | error e => rw [hprod] at h; cases h
      | ok p2 =>
        rw [hprod] at h
        exact ih (fun t ht => hnn t (List.mem_cons_of_mem _ ht))
          (fun _ => Or.inl (counted_produce_operator_unit hprod)) h

theorem counted_feed_loop (new_op : Oprtr) (tk : List (Char × Int)) :
    ∀ {p p1 : Parser}, p.Counted tk → Parser.feed_loop new_op tk p = .ok p1 →
      p1.Counted p1.token := by
  induction tk with
  | nil =>
    intro p p1 hc h
    unfold Parser.feed_loop at h
    cases h
    exact hc
  | cons t rest ih =>
    intro p p1 hc h
    unfold Parser.feed_loop at h
    split_ifs at h with h1
    · cases h; exact hc
    · cases htab : operator_table t.1 with
      | none => rw [htab] at h; cases h
      | some old_op =>
        rw [htab] at h
        simp only at h
        split_ifs at h with h2
        · cases h; exact hc
        · cases hprod : p.produce_operator_unit t.1 with
          | error e => rw [hprod] at h; cases h
          | ok p2 =>
            rw [hprod] at h
            exact ih (fun _ => Or.inl (counted_produce_operator_unit hprod)) h

theorem counted_flush {p p1 : Parser} (hinv : p.Inv p.token) (hc : p.Counted p.token)
    (h : p.flush = .ok p1) : p1.Counted p1.token := by
  unfold Parser.flush Parser.produce_operand_unit at h
  have h0 := hinv.1
  split_ifs at h with h1 h2
  · simp only [Bool.false_eq_true, if_false] at h
    cases h; exact hc
  · cases hnew : Operand.new p.num_buf with
    | error e => rw [hnew] at h; cases h
    | ok val =>
      rw [hnew] at h
      simp only [if_true] at h
      cases h
      intro _; left; simp only; omega

theorem counted_dispatch {p p1 : Parser} {c : Char} (hinv : p.Inv p.token)
    (hc : p.Counted p.token) (h : p.dispatch c = .ok p1) : p1.Counted p1.token := by
  unfold Parser.dispatch at h
  by_cases hb : isblank c = true
  · rw [if_pos hb] at h
    cases h; exact hc
  rw [if_neg hb] at h
  by_cases hr : c = ')'
  · rw [if_pos hr] at h
    cases hrp : p.right_parentheses false with
    | error e => rw [hrp] at h; cases h
    | ok q3 =>
      rw [hrp] at h
      have hp1 : p1 = { q3 with after_operand := true } := by
        injection h with h; exact h.symm
      rw [hp1]
      have hq3 : q3.Counted q3.token :=
        counted_right_parentheses_loop false p.token hinv.2.1 hc hrp
      exact hq3
  rw [if_neg hr] at h
  by_cases hl : c = '('
  · rw [if_pos hl] at h
    cases hlp : p.left_parentheses with
    | error e => rw [hlp] at h; cases h
    | ok q3 =>
      rw [hlp] at h
      have hp1 : p1 = { q3 with after_operand := false } := by
        injection h with h; exact h.symm
      rw [hp1]
      unfold Parser.left_parentheses at hlp
      split_ifs at hlp
      cases hlp
      intro _
      right
      exact ⟨_, List.mem_cons_self _ _, rfl⟩
  rw [if_neg hl] at h
  simp only at h
  generalize (if c = '-' ∧ p.after_operand = false then OP_UNARY_MINUS else c) = c1 at h
  cases htab : operator_table c1 with
  | none => rw [htab] at h; cases h
  | some new_op =>
    rw [htab] at h
    simp only at h
    cases hfl : Parser.feed_loop new_op p.token { p with after_operand := false } with
    | error e => rw [hfl] at h; cases h
    | ok q3 =>
      rw [hfl] at h
      have hp1 : p1 = { q3 with token := (c1, 0) :: q3.token } := by
        injection h with h; exact h.symm
      rw [hp1]
      have hq3 : q3.Counted q3.token :=
        counted_feed_loop new_op p.token (p := { p with after_operand := false }) hc hfl
      intro hne
      rcases hq3 hne with h1 | ⟨t, ht, ht1⟩
      · exact Or.inl h1
      · exact Or.inr ⟨t, List.mem_cons_of_mem _ ht, ht1⟩

theorem counted_feed {p p1 : Parser} {c : Char} (hinv : p.Inv p.token)
    (hc : p.Counted p.token) (h : p.feed c = .ok p1) : p1.Counted p1.token := by
  rw [feed_eq] at h
  split_ifs at h with hdig
  · cases h; exact hc
  · cases hfl : p.flush with
    | error e => rw [hfl] at h; cases h
    | ok p2 =>
      rw [hfl] at h
      exact counted_dispatch (inv_flush hinv hfl) (counted_flush hinv hc hfl) h

theorem counted_feedAll (text : List Char) :
    ∀ {p p1 : Parser}, p.Inv p.token → p.Counted p.token → feedAll p text = .ok p1 →
      p1.Counted p1.token := by
  induction text with
  | nil => intro p p1 _ hc h; cases h; exact hc
  | cons c cs ih =>
    intro p p1 hinv hc h
    unfold feedAll at h
    cases hf : p.feed c with
    | error e => rw [hf] at h; cases h
    | ok p2 =>
      rw [hf] at h
      exact ih (inv_feed hinv hf) (counted_feed hinv hc hf) h

theorem counted_new : Parser.new.Counted Parser.new.token := fun h => absurd rfl h

theorem finish_clean {s : Parser} (hbuf : s.num_buf = []) (htok : s.token = [])
    (hexp : s.exp ≠ []) : s.finish = .ok s := by
  obtain ⟨tk, nb, ex, cnt, ao⟩ := s
  simp only at hbuf htok hexp
  subst hbuf htok
  have hne : ex.isEmpty = false := by
    cases ex with
    | nil => exact absurd rfl hexp
    | cons u rest => rfl
  simp [Parser.finish, Parser.produce_operand_unit, Parser.right_parentheses,
    Parser.right_parentheses_loop, hne]

/-- A text the constructor accepts is accepted, with the same program, when it
is put between parentheses.  When the closing parenthesis has popped the
operators above the marker of the opening one, the counter is at least 1. -/
theorem compile_paren_of_ok {e : List Char} {exp : List ExpUnit} (h : compile e = .ok exp) :
    compile ('(' :: (e ++ [')'])) = .ok exp ∧
    ∃ (p1 q r : Parser) (above : List (Char × Int)),
      feedAll Parser.new ('(' :: e) = .ok p1 ∧ p1.flush = .ok q ∧
      q.token = above ++ [('(', 0)] ∧
      Parser.right_parentheses_loop true above q = .ok r ∧ 1 ≤ r.operand_number := by
  rw [compile_eq_run] at h
  unfold Parser.run at h
  cases hfa : feedAll Parser.new e with
  | error x => rw [hfa] at h; cases h
  | ok pe =>
    rw [hfa] at h
    simp only at h
    cases hfin : pe.finish with
    | error x => rw [hfin] at h; cases h
    | ok pf =>
      rw [hfin] at h
      have hexp : pf.exp = exp := by injection h
      obtain ⟨b, pr, hprod, hloop, hne⟩ := finish_ok hfin
      obtain ⟨f1, f2, f3, -, -⟩ := produce_operand_unit_fields hprod
      have hfl := flush_of_produce hprod
      obtain ⟨-, -, d3, d4⟩ := right_parentheses_loop_drained 0 pr.token hloop
      -- the counter after the drain
      have hinv : pe.Inv pe.token := inv_feedAll e inv_new hfa
      have hcnt : pe.Counted pe.token := counted_feedAll e inv_new counted_new hfa
      have hinvr := (inv_produce_operand_unit hinv hprod).1
      have hcntr : pr.Counted pr.token := by
        have := counted_flush hinv hcnt hfl
        exact this
      have hcf : pf.Counted pf.token :=
        counted_right_parentheses_loop true pr.token (f1 ▸ hinvr.2.1) hcntr hloop
      have hone : 1 ≤ pf.operand_number := by
        rcases hcf hne with h1 | ⟨t, ht, -⟩
        · exact h1
        · rw [d4] at ht; cases ht
      rw [if_neg (by omega)] at d3
      -- the enclosed run
      have hfa2 : feedAll Parser.new ('(' :: e) = .ok pe.enclosed := by
        simp only [feedAll, feed_lparen_new]
        exact feedAll_enclosed e hfa
      have hfl2 : pe.enclosed.flush =
          .ok (Parser.enclosed { pr with after_operand := (b || pr.after_operand) }) := by
        rw [flush_enclosed, hfl]
      have hfr := right_parentheses_loop_frame true pr.token hloop
      have hfeed : pe.enclosed.feed ')' =
          .ok { pf with token := [], operand_number := 0 + 1, after_operand := true } := by
        rw [feed_eq, hfl2]
        have h1 : isdigit ')' = false := rfl
        have h2 : isblank ')' = false := rfl
        simp only [h1, Parser.dispatch, h2, Parser.right_parentheses, Bool.false_eq_true,
          if_false, if_true]
        have ht := right_parentheses_loop_token false
          (pr.token ++ [('(', 0)]) (pr.token ++ [('(', 0)])
          { pr with after_operand := (b || pr.after_operand) }
        have ha := right_parentheses_loop_after false (b || pr.after_operand)
          (pr.token ++ [('(', 0)]) pr
        rw [d3] at ha
        simp only at ha
        simp only [Parser.enclosed]
        rw [ht, ha]
      refine ⟨?_, pe.enclosed, _, { pf with after_operand := (b || pr.after_operand) },
        pr.token, hfa2, hfl2, rfl, ?_, hone⟩
      · rw [compile_eq_run]
        have : '(' :: (e ++ [')']) = ('(' :: e) ++ [')'] := rfl
        rw [this, run_append, hfa2]
        simp only
        rw [run_cons, hfeed]
        simp only
        have hcl := finish_clean
          (s := { pf with token := [], operand_number := 0 + 1, after_operand := true })
          (hfr.1.trans f2) rfl hne
        rw [run_nil, hcl]
        simp only [hexp]
      · have ht := right_parentheses_loop_token true (pr.token ++ [('(', 0)]) pr.token
          { pr with after_operand := (b || pr.after_operand) }
        have ha := right_parentheses_loop_after true (b || pr.after_operand) pr.token pr
        rw [hloop] at ha
        simp only [Parser.enclosed]
        rw [ht, ha]

/-! ## Adjacent values and missing operands -/

theorem dispatch_num_buf {q p1 : Parser} {c : Char} (h : q.dispatch c = .ok p1) :
    p1.num_buf = q.num_buf := by
  unfold Parser.dispatch at h
  by_cases hb : isblank c = true
  · rw [if_pos hb] at h; cases h; rfl
  rw [if_neg hb] at h
  by_cases hr : c = ')'
  · rw [if_pos hr] at h
    cases hrp : q.right_parentheses false with
    | error e => rw [hrp] at h; cases h
    | ok q3 =>
      rw [hrp] at h
      have hp1 : p1 = { q3 with after_operand := true } := by
        injection h with h; exact h.symm
      rw [hp1]
      exact (right_parentheses_loop_frame false q.token hrp).1
  rw [if_neg hr] at h
  by_cases hl : c = '('
  · rw [if_pos hl] at h
    unfold Parser.left_parentheses at h
    split_ifs at h
    cases h; rfl
  rw [if_neg hl] at h
  simp only at h
  generalize (if c = '-' ∧ q.after_operand = false then OP_UNARY_MINUS else c) = c1 at h
  cases htab : operator_table c1 with
  | none => rw [htab] at h; cases h
  | some new_op =>
    rw [htab] at h
    simp only at h
    cases hfl : Parser.feed_loop new_op q.token { q with after_operand := false } with
    | error e => rw [hfl] at h; cases h
    | ok q3 =>
      rw [hfl] at h
      have hp1 : p1 = { q3 with token := (c1, 0) :: q3.token } := by
        injection h with h; exact h.symm
      rw [hp1]
      exact (feed_loop_frame new_op q.token hfl).1

theorem feed_num_buf {p p1 : Parser} {c : Char} (hd : isdigit c = false)
    (h : p.feed c = .ok p1) : p1.num_buf = [] := by
  rw [feed_eq, hd] at h
  simp only [Bool.false_eq_true, if_false] at h
  cases hfl : p.flush with
  | error e => rw [hfl] at h; cases h
  | ok q =>
    rw [hfl] at h
    rw [dispatch_num_buf h]
    exact (flush_flag hfl).1

theorem produce_literal {p : Parser} {ds : List Char} {a : Nat} (hl : Literal ds a)
    (hbuf : p.num_buf = ds) (ha : p.after_operand = false) :
    p.produce_operand_unit =
      .ok (true, { p with exp := p.exp ++ [.Operand a], num_buf := [],
                          operand_number := p.operand_number + 1 }) := by
  obtain ⟨hne, hdig, hval, hle⟩ := hl
  have hnew : Operand.new ds = .ok (a : Int) := by
    rw [operand_new_spec ds hdig, if_pos (by unfold NUMBER_MAX; omega), hval]
  have hlen : ds.length ≠ 0 := fun h => hne (List.length_eq_zero.mp h)
  unfold Parser.produce_operand_unit
  simp only [hbuf, hlen, if_false, ha, Bool.false_eq_true, hnew]

theorem flush_literal {p : Parser} {ds : List Char} {a : Nat} (hl : Literal ds a)
    (hbuf : p.num_buf = ds) (ha : p.after_operand = false) :
    p.flush = .ok { p with exp := p.exp ++ [.Operand a], num_buf := [],
                           operand_number := p.operand_number + 1, after_operand := true } := by
  unfold Parser.flush
  rw [produce_literal hl hbuf ha]
  rfl

/-- A number that follows an operand is rejected wherever the text ends. -/
theorem run_doomed (rest : List Char) :
    ∀ p : Parser, p.after_operand = true → p.num_buf ≠ [] →
      p.run rest = .error (syntax_error "Missing operator") := by
  induction rest with
  | nil =>
    intro p ha hbuf
    have hlen : p.num_buf.length ≠ 0 := fun h => hbuf (List.length_eq_zero.mp h)
    simp [run_nil, Parser.finish, Parser.produce_operand_unit, hlen, ha]
  | cons c cs ih =>
    intro p ha hbuf
    have hlen : p.num_buf.length ≠ 0 := fun h => hbuf (List.length_eq_zero.mp h)
    rw [run_cons, feed_eq]
    by_cases hd : isdigit c = true
    · rw [if_pos hd]
      exact ih _ ha (by simp)
    · rw [if_neg hd]
      simp [Parser.flush, Parser.produce_operand_unit, hlen, ha]

theorem run_digits_after_operand {p : Parser} (ha : p.after_operand = true)
    (hbuf : p.num_buf = []) {ds : List Char} (hne : ds ≠ [])
    (hdig : ∀ c ∈ ds, isdigit c = true) (rest : List Char) :
    p.run (ds ++ rest) = .error (syntax_error "Missing operator") := by
  rw [run_append, feedAll_digits ds hdig]
  exact run_doomed rest _ ha (by simpa [hbuf] using hne)

theorem run_lparen_after_operand {p q : Parser} (hq : p.flush = .ok q)
    (ha : q.after_operand = true) (rest : List Char) :
    p.run ('(' :: rest) = .error (syntax_error "Missing operator before '('") := by
  rw [run_cons, feed_eq, hq]
  have h1 : isdigit '(' = false := rfl
  have h2 : isblank '(' = false := rfl
  simp [h1, Parser.dispatch, h2, Parser.left_parentheses, ha]

theorem feedAll_blanks {w : List Char} (hw : Blank w) {p : Parser} (hbuf : p.num_buf = []) :
    feedAll p w = .ok p := by
  induction w with
  | nil => rfl
  | cons b w ih =>
    simp only [feedAll, step_blank (hw b (List.mem_cons_self _ _)) (flush_clean p hbuf)]
    exact ih (fun c hc => hw c (List.mem_cons_of_mem _ hc))

theorem after_rparen {pre : List Char} {p0 p : Parser}
    (h : feedAll p0 (pre ++ [')']) = .ok p) : p.after_operand = true ∧ p.num_buf = [] := by
  rw [feedAll_append] at h
  cases hpre : feedAll p0 pre with
  | error e => rw [hpre] at h; cases h
  | ok p1 =>
    rw [hpre] at h
    simp only [feedAll_single] at h
    have hbuf := feed_num_buf (c := ')') rfl h
    have hflag := (feed_flag h).1
    have h1 : isdigit ')' = false := rfl
    have h2 : isblank ')' = false := rfl
    simp only [h1, h2, Bool.false_eq_true, if_false, if_true, Parser.after_value, hbuf,
      List.isEmpty_nil, Bool.not_true, Bool.false_or] at hflag
    exact ⟨hflag, hbuf⟩

theorem run_operator_last (op : BinOp) {s : Parser} (hbuf : s.num_buf = [])
    (htok : s.token = [(op.symbol, 0)]) (hcnt : s.operand_number = 1) :
    s.run [] = .error (syntax_error "Missing operand") := by
  obtain ⟨-, -, -, h4, h5⟩ := binop_symbol_class op
  simp [run_nil, Parser.finish, Parser.produce_operand_unit, hbuf, Parser.right_parentheses,
    htok, Parser.right_parentheses_loop, h4, Parser.produce_operator_unit, h5, hcnt]

/-! ## The syntax errors of the constructor -/

theorem other_of_mem {m : String} (h : m ∈ otherMessages) : (syntax_error m).Other :=
  ⟨m, h, rfl⟩

theorem operand_loop_error (s : List Char) :
    ∀ (val : Int) {e : Exception}, Operand.loop s val = .error e →
      e = syntax_error "operand too big" := by
  induction s with
  | nil => intro val e h; cases h
  | cons d s ih =>
    intro val e h
    unfold Operand.loop at h
    split_ifs at h
    · cases h; rfl
    · exact ih _ h

theorem operand_new_error {s : List Char} {e : Exception} (h : Operand.new s = .error e) :
    e = syntax_error "operand too big" := by
  unfold Operand.new at h
  cases hl : Operand.loop s 0 with
  | error x => rw [hl] at h; cases h; exact operand_loop_error s 0 hl
  | ok val =>
    rw [hl] at h
    simp only at h
    split_ifs at h
    cases h; rfl

theorem produce_operand_unit_error {p : Parser} {e : Exception}
    (h : p.produce_operand_unit = .error e) : e.Other := by
  unfold Parser.produce_operand_unit at h
  split_ifs at h
  · cases h; exact other_of_mem (by decide)
  · cases hnew : Operand.new p.num_buf with
    | error x =>
      rw [hnew] at h; cases h
      rw [operand_new_error hnew]; exact other_of_mem (by decide)
    | ok val => rw [hnew] at h; cases h

theorem flush_error {p : Parser} {e : Exception} (h : p.flush = .error e) : e.Other := by
  unfold Parser.flush at h
  cases hprod : p.produce_operand_unit with
  | error x => rw [hprod] at h; cases h; exact produce_operand_unit_error hprod
  | ok r => rw [hprod] at h; cases h

theorem produce_operator_unit_error {p : Parser} {c : Char} {e : Exception}
    (hk : (operator_table c).isSome = true) (h : p.produce_operator_unit c = .error e) :
    e.Other := by
  unfold Parser.produce_operator_unit at h
  cases htab : operator_table c with
  | none => rw [htab] at hk; cases hk
  | some op =>
    rw [htab] at h
    simp only at h
    split_ifs at h
    cases h; exact other_of_mem (by decide)

theorem right_parentheses_loop_error (finale : Bool) (tk : List (Char × Int)) :
    ∀ {p : Parser} {e : Exception}, Known tk →
      Parser.right_parentheses_loop finale tk p = .error e → e.Other := by
  induction tk with
  | nil =>
    intro p e _ h
    unfold Parser.right_parentheses_loop at h
    split_ifs at h
    cases h; exact other_of_mem (by decide)
  | cons c rest ih =>
    intro p e hk h
    unfold Parser.right_parentheses_loop at h
    by_cases h1 : c.1 = '('
    · rw [if_pos h1] at h
      split_ifs at h
      · cases h; exact other_of_mem (by decide)
      · cases h; exact other_of_mem (by decide)
    · rw [if_neg h1] at h
      have hc : (operator_table c.1).isSome = true := by
        rcases hk c (List.mem_cons_self _ _) with h2 | h2
        · exact absurd h2 h1
        · exact h2
      cases hprod : p.produce_operator_unit c.1 with
      | error x => rw [hprod] at h; cases h; exact produce_operator_unit_error hc hprod
      | ok p2 =>
        rw [hprod] at h
        exact ih (fun t ht => hk t (List.mem_cons_of_mem _ ht)) h

theorem feed_loop_error (new_op : Oprtr) (tk : List (Char × Int)) :
    ∀ {p : Parser} {e : Exception}, Known tk →
      Parser.feed_loop new_op tk p = .error e → e.Other := by
  induction tk with
  | nil => intro p e _ h; cases h
  | cons t rest ih =>
    intro p e hk h
    unfold Parser.feed_loop at h
    by_cases h1 : t.1 = '('
    · rw [if_pos h1] at h; cases h
    · rw [if_neg h1] at h
      have hc : (operator_table t.1).isSome = true := by
        rcases hk t (List.mem_cons_self _ _) with h2 | h2
        · exact absurd h2 h1
        · exact h2
      cases htab : operator_table t.1 with
      | none => rw [htab] at hc; cases hc
      | some old_op =>
        rw [htab] at h
        simp only at h
        by_cases h2 : old_op.priority < new_op.priority
        · rw [if_pos h2] at h; cases h
        · rw [if_neg h2] at h
          cases hprod : p.produce_operator_unit t.1 with
          | error x => rw [hprod] at h; cases h; exact produce_operator_unit_error hc hprod
          | ok p2 =>
            rw [hprod] at h
            exact ih (fun t ht => hk t (List.mem_cons_of_mem _ ht)) h

theorem right_parentheses_loop_known (finale : Bool) (tk : List (Char × Int)) :
    ∀ {p q : Parser}, Known tk → Parser.right_parentheses_loop finale tk p = .ok q →
      Known q.token := by
  induction tk with
  | nil =>
    intro p q _ h
    unfold Parser.right_parentheses_loop at h
    split_ifs at h
    cases h
    intro t ht; cases ht
  | cons c rest ih =>
    intro p q hk h
    have hrest : Known rest := fun t ht => hk t (List.mem_cons_of_mem _ ht)
    unfold Parser.right_parentheses_loop at h
    split_ifs at h
    · cases h; exact hrest
    · cases hprod : p.produce_operator_unit c.1 with
      | error x => rw [hprod] at h; cases h
      | ok p2 => rw [hprod] at h; exact ih hrest h

theorem feed_loop_known (new_op : Oprtr) (tk : List (Char × Int)) :
    ∀ {p q : Parser}, Known tk → Parser.feed_loop new_op tk p = .ok q → Known q.token := by
  induction tk with
  | nil =>
    intro p q _ h
    unfold Parser.feed_loop at h
    cases h
    intro t ht; cases ht
  | cons c rest ih =>
    intro p q hk h
    have hrest : Known rest := fun t ht => hk t (List.mem_cons_of_mem _ ht)
    unfold Parser.feed_loop at h
    split_ifs at h
    · cases h; exact hk
    · cases htab : operator_table c.1 with
      | none => rw [htab] at h; cases h
      | some old_op =>
        rw [htab] at h
        simp only at h
        split_ifs at h
        · cases h; exact hk
        · cases hprod : p.produce_operator_unit c.1 with
          | error x => rw [hprod] at h; cases h
          | ok p2 => rw [hprod] at h; exact ih hrest h

theorem flush_token {p q : Parser} (h : p.flush = .ok q) : q.token = p.token := by
  unfold Parser.flush at h
  cases hprod : p.produce_operand_unit with
  | error x => rw [hprod] at h; cases h
  | ok r =>
    obtain ⟨b, pr⟩ := r
    rw [hprod] at h
    simp only at h
    have hq : q = if b = true then { pr with after_operand := true } else pr := by
      injection h with h; exact h.symm
    rw [hq, ← (produce_operand_unit_fields hprod).1]
    split_ifs <;> rfl

theorem dispatch_known {q p1 : Parser} {c : Char} (hk : Known q.token)
    (h : q.dispatch c = .ok p1) : Known p1.token := by
  unfold Parser.dispatch at h
  by_cases hb : isblank c = true
  · rw [if_pos hb] at h; cases h; exact hk
  rw [if_neg hb] at h
  by_cases hr : c = ')'
  · rw [if_pos hr] at h
    cases hrp : q.right_parentheses false with
    | error e => rw [hrp] at h; cases h
    | ok q3 =>
      rw [hrp] at h
      have hp1 : p1 = { q3 with after_operand := true } := by
        injection h with h; exact h.symm
      rw [hp1]
      have hq3 : Known q3.token := right_parentheses_loop_known false q.token hk hrp
      exact hq3
  rw [if_neg hr] at h
  by_cases hl : c = '('
  · rw [if_pos hl] at h
    unfold Parser.left_parentheses at h
    split_ifs at h
    cases h
    intro t ht
    rcases List.mem_cons.mp ht with rfl | ht
    · exact Or.inl rfl
    · exact hk t ht
  rw [if_neg hl] at h
  simp only at h
  generalize (if c = '-' ∧ q.after_operand = false then OP_UNARY_MINUS else c) = c1 at h
  cases htab : operator_table c1 with
  | none => rw [htab] at h; cases h
  | some new_op =>
    rw [htab] at h
    simp only at h
    cases hfl : Parser.feed_loop new_op q.token { q with after_operand := false } with
    | error e => rw [hfl] at h; cases h
    | ok q3 =>
      rw [hfl] at h
      have hp1 : p1 = { q3 with token := (c1, 0) :: q3.token } := by
        injection h with h; exact h.symm
      rw [hp1]
      have hk3 := feed_loop_known new_op q.token hk hfl
      intro t ht
      rcases List.mem_cons.mp ht with rfl | ht
      · right; simp only; rw [htab]; rfl
      · exact hk3 t ht

theorem dispatch_error {q : Parser} {c : Char} {e : Exception} (hk : Known q.token)
    (h : q.dispatch c = .error e) : e.Other := by
  unfold Parser.dispatch at h
  by_cases hb : isblank c = true
  · rw [if_pos hb] at h; cases h
  rw [if_neg hb] at h
  by_cases hr : c = ')'
  · rw [if_pos hr] at h
    cases hrp : q.right_parentheses false with
    | error x =>
      rw [hrp] at h; cases h
      exact right_parentheses_loop_error false q.token hk hrp
    | ok q3 => rw [hrp] at h; cases h
  rw [if_neg hr] at h
  by_cases hl : c = '('
  · rw [if_pos hl] at h
    unfold Parser.left_parentheses at h
    by_cases ha : q.after_operand = true
    · rw [if_pos ha] at h; cases h; exact other_of_mem (by decide)
    · rw [if_neg ha] at h; cases h
  rw [if_neg hl] at h
  simp only at h
  generalize (if c = '-' ∧ q.after_operand = false then OP_UNARY_MINUS else c) = c1 at h
  cases htab : operator_table c1 with
  | none => rw [htab] at h; cases h; exact other_of_mem (by decide)
  | some new_op =>
    rw [htab] at h
    simp only at h
    cases hfl : Parser.feed_loop new_op q.token { q with after_operand := false } with
    | error x =>
      rw [hfl] at h; cases h
      exact feed_loop_error new_op q.token hk hfl
    | ok q3 => rw [hfl] at h; cases h

theorem feed_known {p p1 : Parser} {c : Char} (hk : Known p.token) (h : p.feed c = .ok p1) :
    Known p1.token := by
  rw [feed_eq] at h
  by_cases hd : isdigit c = true
  · rw [if_pos hd] at h; cases h; exact hk
  · rw [if_neg hd] at h
    cases hfl : p.flush with
    | error e => rw [hfl] at h; cases h
    | ok q =>
      rw [hfl] at h
      exact dispatch_known (by rw [flush_token hfl]; exact hk) h

theorem feed_error {p : Parser} {c : Char} {e : Exception} (hk : Known p.token)
    (h : p.feed c = .error e) : e.Other := by
  rw [feed_eq] at h
  by_cases hd : isdigit c = true
  · rw [if_pos hd] at h; cases h
  · rw [if_neg hd] at h
    cases hfl : p.flush with
    | error x => rw [hfl] at h; cases h; exact flush_error hfl
    | ok q =>
      rw [hfl] at h
      exact dispatch_error (by rw [flush_token hfl]; exact hk) h

theorem feedAll_known (text : List Char) :
    ∀ {p p1 : Parser}, Known p.token → feedAll p text = .ok p1 → Known p1.token := by
  induction text with
  | nil => intro p p1 hk h; cases h; exact hk
  | cons c cs ih =>
    intro p p1 hk h
    unfold feedAll at h
    cases hf : p.feed c with
    | error e => rw [hf] at h; cases h
    | ok p2 => rw [hf] at h; exact ih (feed_known hk hf) h

theorem feedAll_error (text : List Char) :
    ∀ {p : Parser} {e : Exception}, Known p.token → feedAll p text = .error e → e.Other := by
  induction text with
  | nil => intro p e _ h; cases h
  | cons c cs ih =>
    intro p e hk h
    unfold feedAll at h
    cases hf : p.feed c with
    | error x => rw [hf] at h; cases h; exact feed_error hk hf
    | ok p2 => rw [hf] at h; exact ih (feed_known hk hf) h

theorem finish_error {p : Parser} {e : Exception} (hk : Known p.token)
    (h : p.finish = .error e) : e.Other ∨ e = syntax_error "empty expression" := by
  unfold Parser.finish at h
  cases hprod : p.produce_operand_unit with
  | error x => rw [hprod] at h; cases h; exact Or.inl (produce_operand_unit_error hprod)
  | ok r =>
    obtain ⟨b, pr⟩ := r
    rw [hprod] at h
    simp only at h
    have htok := (produce_operand_unit_fields hprod).1
    cases hrp : pr.right_parentheses true with
    | error x =>
      rw [hrp] at h; cases h
      exact Or.inl (right_parentheses_loop_error true pr.token (by rw [htok]; exact hk) hrp)
    | ok q =>
      rw [hrp] at h
      simp only at h
      split_ifs at h
      cases h; exact Or.inr rfl

theorem produce_operator_unit_exp {p p1 : Parser} {c : Char}
    (h : p.produce_operator_unit c = .ok p1) : p1.exp ≠ [] := by
  unfold Parser.produce_operator_unit at h
  cases htab : operator_table c with
  | none => rw [htab] at h; cases h
  | some op =>
    rw [htab] at h
    simp only at h
    split_ifs at h
    cases h
    simp

theorem produce_operand_unit_exp {p pr : Parser} {b : Bool}
    (h : p.produce_operand_unit = .ok (b, pr)) :
    (b = true → pr.exp ≠ []) ∧ (p.exp ≠ [] → pr.exp ≠ []) ∧ (b = false → p.num_buf = []) := by
  unfold Parser.produce_operand_unit at h
  by_cases hlen : p.num_buf.length = 0
  · rw [if_pos hlen] at h
    cases h
    exact ⟨fun hb => (by cases hb), fun hne => hne, fun _ => List.length_eq_zero.mp hlen⟩
  · rw [if_neg hlen] at h
    by_cases ha : p.after_operand = true
    · rw [if_pos ha] at h; cases h
    · rw [if_neg ha] at h
      cases hnew : Operand.new p.num_buf with
      | error e => rw [hnew] at h; cases h
      | ok val =>
        rw [hnew] at h
        cases h
        refine ⟨fun _ => (by simp), fun _ => (by simp), ?_⟩
        intro hb; cases hb

theorem right_parentheses_loop_exp (finale : Bool) (tk : List (Char × Int)) :
    ∀ {p q : Parser}, Parser.right_parentheses_loop finale tk p = .ok q →
      p.exp ≠ [] → q.exp ≠ [] := by
  induction tk with
  | nil =>
    intro p q h hne
    unfold Parser.right_parentheses_loop at h
    split_ifs at h
    cases h; exact hne
  | cons c rest ih =>
    intro p q h hne
    unfold Parser.right_parentheses_loop at h
    split_ifs at h
    · cases h; exact hne
    · cases hprod : p.produce_operator_unit c.1 with
      | error x => rw [hprod] at h; cases h
      | ok p2 => rw [hprod] at h; exact ih h (produce_operator_unit_exp hprod)

theorem right_parentheses_loop_exp_finale {tk : List (Char × Int)} {p q : Parser}
    (h : Parser.right_parentheses_loop true tk p = .ok q) (hne : p.exp ≠ [] ∨ tk ≠ []) :
    q.exp ≠ [] := by
  rcases hne with hne | hne
  · exact right_parentheses_loop_exp true tk h hne
  · cases tk with
    | nil => exact absurd rfl hne
    | cons c rest =>
      unfold Parser.right_parentheses_loop at h
      by_cases h1 : c.1 = '('
      · rw [if_pos h1] at h; simp at h
      · rw [if_neg h1] at h
        cases hprod : p.produce_operator_unit c.1 with
        | error x => rw [hprod] at h; cases h
        | ok p2 =>
          rw [hprod] at h
          exact right_parentheses_loop_exp true rest h (produce_operator_unit_exp hprod)

theorem right_parentheses_loop_exp_inv {tk : List (Char × Int)} {p q : Parser}
    (hinv : p.Inv tk) (h : Parser.right_parentheses_loop false tk p = .ok q) :
    q.exp ≠ [] := by
  cases tk with
  | nil =>
    unfold Parser.right_parentheses_loop at h
    simp at h
  | cons c rest =>
    unfold Parser.right_parentheses_loop at h
    by_cases h1 : c.1 = '('
    · rw [if_pos h1] at h
      simp only [Bool.false_eq_true, if_false] at h
      by_cases h2 : p.operand_number < 1
      · rw [if_pos h2] at h; cases h
      · rw [if_neg h2] at h
        cases h
        simp only
        intro hnil
        obtain ⟨-, htk, d, hd, hsum, -⟩ := hinv
        rw [hnil] at hd
        simp only [depthLoop, Option.some.injEq] at hd
        have hnn : 0 ≤ ((c :: rest).map Prod.snd).sum := by
          apply List.sum_nonneg
          intro x hx
          obtain ⟨t, ht, rfl⟩ := List.mem_map.mp hx
          exact htk t ht
        omega
    · rw [if_neg h1] at h
      cases hprod : p.produce_operator_unit c.1 with
      | error x => rw [hprod] at h; cases h
      | ok p2 =>
        rw [hprod] at h
        exact right_parentheses_loop_exp false rest h (produce_operator_unit_exp hprod)

theorem started_dispatch {q p1 : Parser} {c : Char} (hinv : q.Inv q.token)
    (h : q.dispatch c = .ok p1) (hs : q.Started ∨ isblank c = false) : p1.Started := by
  unfold Parser.dispatch at h
  by_cases hb : isblank c = true
  · rw [if_pos hb] at h
    cases h
    rcases hs with hs | hs
    · exact hs
    · rw [hb] at hs; cases hs
  rw [if_neg hb] at h
  by_cases hr : c = ')'
  · rw [if_pos hr] at h
    cases hrp : q.right_parentheses false with
    | error e => rw [hrp] at h; cases h
    | ok q3 =>
      rw [hrp] at h
      have hp1 : p1 = { q3 with after_operand := true } := by
        injection h with h; exact h.symm
      rw [hp1]
      have hq3 : q3.exp ≠ [] := right_parentheses_loop_exp_inv hinv hrp
      exact Or.inl hq3
  rw [if_neg hr] at h
  by_cases hl : c = '('
  · rw [if_pos hl] at h
    unfold Parser.left_parentheses at h
    split_ifs at h
    cases h
    exact Or.inr (Or.inr (by simp))
  rw [if_neg hl] at h
  simp only at h
  generalize (if c = '-' ∧ q.after_operand = false then OP_UNARY_MINUS else c) = c1 at h
  cases htab : operator_table c1 with
  | none => rw [htab] at h; cases h
  | some new_op =>
    rw [htab] at h
    simp only at h
    cases hfl : Parser.feed_loop new_op q.token { q with after_operand := false } with
    | error e => rw [hfl] at h; cases h
    | ok q3 =>
      rw [hfl] at h
      have hp1 : p1 = { q3 with token := (c1, 0) :: q3.token } := by
        injection h with h; exact h.symm
      rw [hp1]
      exact Or.inr (Or.inr (by simp))

theorem started_flush {p q : Parser} (h : p.flush = .ok q) (hs : p.Started) : q.Started := by
  unfold Parser.flush at h
  cases hprod : p.produce_operand_unit with
  | error x => rw [hprod] at h; cases h
  | ok r =>
    obtain ⟨b, pr⟩ := r
    rw [hprod] at h
    simp only at h
    have hq : q = if b = true then { pr with after_operand := true } else pr := by
      injection h with h; exact h.symm
    obtain ⟨e1, e2, e3⟩ := produce_operand_unit_exp hprod
    obtain ⟨f1, -, -, -, -⟩ := produce_operand_unit_fields hprod
    have hpr : pr.Started := by
      cases b with
      | true => exact Or.inl (e1 rfl)
      | false =>
        rcases hs with hs | hs | hs
        · exact Or.inl (e2 hs)
        · exact absurd (e3 rfl) hs
        · exact Or.inr (Or.inr (by rw [f1]; exact hs))
    rw [hq]
    split_ifs
    · exact hpr
    · exact hpr

theorem started_feed {p p1 : Parser} {c : Char} (hinv : p.Inv p.token)
    (h : p.feed c = .ok p1) (hs : p.Started ∨ isblank c = false) : p1.Started := by
  rw [feed_eq] at h
  by_cases hd : isdigit c = true
  · rw [if_pos hd] at h
    cases h
    exact Or.inr (Or.inl (by simp))
  · rw [if_neg hd] at h
    cases hfl : p.flush with
    | error e => rw [hfl] at h; cases h
    | ok q =>
      rw [hfl] at h
      refine started_dispatch (inv_flush hinv hfl) h ?_
      rcases hs with hs | hs
      · exact Or.inl (started_flush hfl hs)
      · exact Or.inr hs

theorem started_feedAll (text : List Char) :
    ∀ {p p1 : Parser}, p.Inv p.token → feedAll p text = .ok p1 →
      p.Started ∨ ¬ Blank text → p1.Started := by
  induction text with
  | nil =>
    intro p p1 _ h hs
    cases h
    rcases hs with hs | hs
    · exact hs
    · exact absurd (fun c hc => by cases hc) hs
  | cons c cs ih =>
    intro p p1 hinv h hs
    unfold feedAll at h
    cases hf : p.feed c with
    | error e => rw [hf] at h; cases h
    | ok p2 =>
      rw [hf] at h
      refine ih (inv_feed hinv hf) h ?_
      by_cases hb : isblank c = true
      · rcases hs with hs | hs
        · exact Or.inl (started_feed hinv hf (Or.inl hs))
        · right
          intro hcs
          apply hs
          intro x hx
          rcases List.mem_cons.mp hx with rfl | hx
          · exact hb
          · exact hcs x hx
      · exact Or.inl (started_feed hinv hf (Or.inr (Bool.eq_false_iff.mpr hb)))

theorem finish_error_started {p : Parser} {e : Exception} (hk : Known p.token)
    (hs : p.Started) (h : p.finish = .error e) : e.Other := by
  rcases finish_error hk h with ho | he
  · exact ho
  · exfalso
    rw [he] at h
    unfold Parser.finish at h
    cases hprod : p.produce_operand_unit with
    | error x =>
      rw [hprod] at h
      have := produce_operand_unit_error hprod
      injection h with h
      rw [h] at this
      obtain ⟨m, hm, heq⟩ := this
      injection heq with heq
      rw [← heq] at hm
      revert hm; decide
    | ok r =>
      obtain ⟨b, pr⟩ := r
      rw [hprod] at h
      simp only at h
      obtain ⟨e1, e2, e3⟩ := produce_operand_unit_exp hprod
      obtain ⟨f1, -, -, -, -⟩ := produce_operand_unit_fields hprod
      have hpr : pr.exp ≠ [] ∨ pr.token ≠ [] := by
        cases b with
        | true => exact Or.inl (e1 rfl)
        | false =>
          rcases hs with hs | hs | hs
          · exact Or.inl (e2 hs)
          · exact absurd (e3 rfl) hs
          · exact Or.inr (by rw [f1]; exact hs)
      cases hrp : pr.right_parentheses true with
      | error x =>
        rw [hrp] at h
        have := right_parentheses_loop_error true pr.token (by rw [f1]; exact hk) hrp
        injection h with h
        rw [h] at this
        obtain ⟨m, hm, heq⟩ := this
        injection heq with heq
        rw [← heq] at hm
        revert hm; decide
      | ok q =>
        rw [hrp] at h
        simp only at h
        have hq := right_parentheses_loop_exp_finale hrp hpr
        have hne : q.exp.isEmpty = false := by
          cases hx : q.exp with
          | nil => exact absurd hx hq
          | cons u rest => rfl
        rw [hne] at h
        simp at h

theorem known_new : Known Parser.new.token := fun t ht => by cases ht

theorem compile_blank {text : List Char} (h : Blank text) :
    compile text = .error (syntax_error "empty expression") := by
  unfold compile
  rw [feedAll_blanks h rfl]
  rfl

theorem compile_error_other {text : List Char} {e : Exception} (hnb : ¬ Blank text)
    (h : compile text = .error e) : e.Other := by
  unfold compile at h
  cases hfa : feedAll Parser.new text with
  | error x => rw [hfa] at h; cases h; exact feedAll_error text known_new hfa
  | ok p =>
    rw [hfa] at h
    simp only at h
    cases hfin : p.finish with
    | error x =>
      rw [hfin] at h; cases h
      exact finish_error_started (feedAll_known text known_new hfa)
        (started_feedAll text inv_new hfa (Or.inr hnb)) hfin
    | ok p1 => rw [hfin] at h; cases h

theorem other_ne_empty {e : Exception} (h : e.Other) :
    e ≠ syntax_error "empty expression" := by
  obtain ⟨m, hm, rfl⟩ := h
  intro heq
  injection heq with heq
  rw [heq] at hm
  revert hm; decide

theorem compile_ok_ne_nil {text : List Char} {exp : List ExpUnit}
    (h : compile text = .ok exp) : exp ≠ [] := by
  obtain ⟨d, hd, h1⟩ := compile_depth h
  intro hnil
  rw [hnil] at hd
  simp only [depthLoop, Option.some.injEq] at hd
  omega

/-! ## Blanks -/

theorem num_buf_of_feedAll {u : List Char} {p : Parser} (h : feedAll Parser.new u = .ok p)
    (hbuf : p.num_buf ≠ []) : ∃ d, u.getLast? = some d ∧ isdigit d = true := by
  rcases List.eq_nil_or_concat u with rfl | ⟨u1, c, rfl⟩
  · cases h; exact absurd rfl hbuf
  · rw [List.concat_eq_append] at h ⊢
    rw [feedAll_append] at h
    cases hu : feedAll Parser.new u1 with
    | error e => rw [hu] at h; cases h
    | ok p1 =>
      rw [hu] at h
      simp only [feedAll_single] at h
      refine ⟨c, by simp, ?_⟩
      by_contra hd
      exact hbuf (feed_num_buf (Bool.eq_false_iff.mpr hd) h)

theorem run_flush (p : Parser) :
    (match p.flush with
      | .error e => .error e
      | .ok q => q.run []) = p.run [] := by
  cases hprod : p.produce_operand_unit with
  | error x =>
    simp only [Parser.flush, run_nil, Parser.finish, hprod]
  | ok r =>
    obtain ⟨b, pr⟩ := r
    obtain ⟨f1, f2, -, -, -⟩ := produce_operand_unit_fields hprod
    rw [flush_of_produce hprod]
    have hq : Parser.produce_operand_unit { pr with after_operand := (b || pr.after_operand) } =
        .ok (false, { pr with after_operand := (b || pr.after_operand) }) := by
      unfold Parser.produce_operand_unit
      simp [f2]
    simp only [run_nil, Parser.finish, hprod, hq, Parser.right_parentheses]
    rw [right_parentheses_loop_after]
    cases Parser.right_parentheses_loop true pr.token pr with
    | error x => rfl
    | ok q =>
      simp only
      split_ifs <;> rfl

theorem run_blank {p : Parser} {b : Char} (hb : isblank b = true) (v : List Char)
    (h : p.num_buf = [] ∨ ∀ c, v.head? = some c → isdigit c = false) :
    p.run (b :: v) = p.run v := by
  rw [run_cons, feed_eq, isblank_not_digit hb]
  simp only [Bool.false_eq_true, if_false]
  by_cases hbuf : p.num_buf = []
  · rw [flush_clean p hbuf]
    simp [Parser.dispatch, hb]
  · rcases h with h | h
    · exact absurd h hbuf
    · cases v with
      | nil =>
        rw [← run_flush p]
        cases p.flush with
        | error e => rfl
        | ok q => simp [Parser.dispatch, hb]
      | cons c v1 =>
        have hc : isdigit c = false := h c rfl
        rw [run_cons (p := p), feed_eq, hc]
        simp only [Bool.false_eq_true, if_false]
        cases hfl : p.flush with
        | error e => rfl
        | ok q =>
          simp only [Parser.dispatch, hb, if_true]
          rw [run_cons, feed_eq, hc, flush_clean q (flush_flag hfl).1]
          simp only [Bool.false_eq_true, if_false, Parser.dispatch]

/-! ## Texts outside the grammar -/

theorem ofExp_toExp (t : Tree) :
    ∀ (rest : List ExpUnit) (st : List Tree),
      Tree.ofExp (t.toExp ++ rest) st = Tree.ofExp rest (t :: st) := by
  induction t with
  | number n => intro rest st; simp [Tree.toExp, Tree.ofExp]
  | negate t ih =>
    intro rest st
    simp only [Tree.toExp, List.append_assoc, ih, List.singleton_append, Tree.ofExp]
  | binary op l r ihl ihr =>
    intro rest st
    simp only [Tree.toExp, List.append_assoc, ihl, ihr, List.singleton_append]
    cases op <;> rfl

theorem toExp_injective {t1 t2 : Tree} (h : t1.toExp = t2.toExp) : t1 = t2 := by
  have h1 := ofExp_toExp t1 [] []
  have h2 := ofExp_toExp t2 [] []
  rw [List.append_nil] at h1 h2
  rw [h, h2] at h1
  simp only [Tree.ofExp, Option.some.injEq, List.cons.injEq, and_true] at h1
  exact h1.symm

theorem filter_digits {ds : List Char} (h : ∀ c ∈ ds, isdigit c = true) :
    ds.filter isOperatorChar = [] := by
  rw [List.filter_eq_nil_iff]
  intro c hc
  have hb := isdigit_bounds (h c hc)
  have hn : ∀ x : Char, isOperatorChar x = true → x.toNat < 48 ∨ 57 < x.toNat := by
    intro x hx
    unfold isOperatorChar at hx
    simp only [Bool.or_eq_true, beq_iff_eq] at hx
    rcases hx with ((((rfl | rfl) | rfl) | rfl) | rfl) | rfl <;> decide
  intro hop
  have := hn c hop
  omega

theorem derives_operators {n : Nat} {w : List Char} {t : Tree} (hd : Derives n w t) :
    w.filter isOperatorChar = t.operators := by
  induction hd with
  | number ds hne hdig hle => rw [filter_digits hdig]; rfl
  | paren hd1 ih =>
    have h1 : isOperatorChar '(' = false := rfl
    have h2 : isOperatorChar ')' = false := rfl
    simp [List.filter_cons, h1, h2, ih]
  | minus hd1 ih =>
    have h1 : isOperatorChar '-' = true := rfl
    simp [List.filter_cons, h1, ih, Tree.operators]
  | binary op hd1 hd2 ih1 ih2 =>
    have h1 : isOperatorChar op.symbol = true := by cases op <;> rfl
    simp [List.filter_cons, h1, ih1, ih2, Tree.operators]
  | lift hn hd1 ih => exact ih
  | @blank_left n b w t hb hd1 ih =>
    have h1 : isOperatorChar b = false := by
      unfold isblank at hb
      simp only [Bool.or_eq_true, beq_iff_eq] at hb
      rcases hb with rfl | rfl <;> rfl
    simp [List.filter_cons, h1, ih]
  | @blank_right n b w t hb hd1 ih =>
    have h1 : isOperatorChar b = false := by
      unfold isblank at hb
      simp only [Bool.or_eq_true, beq_iff_eq] at hb
      rcases hb with rfl | rfl <;> rfl
    simp [List.filter_cons, h1, ih]

theorem derives_no_hash {n : Nat} {w : List Char} {t : Tree} (hd : Derives n w t) :
    OP_UNARY_MINUS ∉ w := by
  induction hd with
  | number ds hne hdig hle =>
    intro hmem
    have := hdig _ hmem
    revert this; decide
  | paren hd1 ih =>
    intro hmem
    simp only [List.mem_cons, List.mem_append, List.mem_singleton] at hmem
    rcases hmem with h | h | h
    · revert h; decide
    · exact ih h
    · rcases h with h | h
      · revert h; decide
      · cases h
  | minus hd1 ih =>
    intro hmem
    rcases List.mem_cons.mp hmem with h | h
    · revert h; decide
    · exact ih h
  | binary op hd1 hd2 ih1 ih2 =>
    intro hmem
    simp only [List.mem_cons, List.mem_append] at hmem
    rcases hmem with h | h | h
    · exact ih1 h
    · cases op <;> revert h <;> decide
    · exact ih2 h
  | lift hn hd1 ih => exact ih
  | @blank_left n b w t hb hd1 ih =>
    intro hmem
    rcases List.mem_cons.mp hmem with h | h
    · rw [← h] at hb; revert hb; decide
    · exact ih h
  | @blank_right n b w t hb hd1 ih =>
    intro hmem
    simp only [List.mem_append, List.mem_singleton] at hmem
    rcases hmem with h | h
    · exact ih h
    · rw [← h] at hb; revert hb; decide

/-! ## Formatting -/

theorem digitRunsFrom_eq (text : List Char) :
    ∀ cur : List Char, (∀ c ∈ cur, isdigit c = true) →
      digitRunsFrom cur text = digitRuns (cur ++ text) := by
  induction text with
  | nil =>
    intro cur hcur
    have h : ∀ x ∈ cur, ¬ (fun c => !isdigit c) x = true := by
      intro x hx; simp [hcur x hx]
    simp only [digitRunsFrom, digitRuns, List.append_nil, List.splitOnP_eq_single _ _ h]
    cases cur <;> rfl
  | cons c cs ih =>
    intro cur hcur
    unfold digitRunsFrom
    by_cases hd : isdigit c = true
    · rw [if_pos hd, ih (cur ++ [c])]
      · simp
      · intro x hx
        rcases List.mem_append.mp hx with h | h
        · exact hcur x h
        · simp only [List.mem_singleton] at h; rw [h]; exact hd
    · rw [if_neg hd]
      have h : ∀ x ∈ cur, ¬ (fun c => !isdigit c) x = true := by
        intro x hx; simp [hcur x hx]
      have hsep : (fun c => !isdigit c) c = true := by simpa using hd
      have hsplit := List.splitOnP_first (fun c => !isdigit c) cur h c hsep cs
      have ih0 := ih [] (fun x hx => by cases hx)
      simp only [List.nil_append] at ih0
      unfold digitRuns
      rw [hsplit, List.filter_cons]
      unfold digitRuns at ih0
      cases cur with
      | nil => simpa using ih0
      | cons d ds => simp [ih0]


theorem literals_append (a b : List ExpUnit) : literals (a ++ b) = literals a ++ literals b := by
  induction a with
  | nil => rfl
  | cons u rest ih => cases u <;> simp [literals, ih]

theorem operatorCount_append (a b : List ExpUnit) :
    operatorCount (a ++ b) = operatorCount a + operatorCount b := by
  induction a with
  | nil => simp [operatorCount]
  | cons u rest ih => cases u <;> simp [operatorCount, ih] <;> omega

theorem length_eq_ledger (a : List ExpUnit) :
    a.length = (literals a).length + operatorCount a := by
  induction a with
  | nil => rfl
  | cons u rest ih => cases u <;> simp [literals, operatorCount, ih] <;> omega

theorem clone_ledger {c : Char} {op : Oprtr} (h : operator_table c = some op) :
    literals [op.clone] = [] ∧ operatorCount [op.clone] = 1 := by
  unfold operator_table at h
  split_ifs at h <;> cases h <;> exact ⟨rfl, rfl⟩

theorem ledger_produce_operator_unit {p p1 : Parser} {c : Char}
    (h : p.produce_operator_unit c = .ok p1) :
    literals p1.exp = literals p.exp ∧ operatorCount p1.exp = operatorCount p.exp + 1 := by
  unfold Parser.produce_operator_unit at h
  cases htab : operator_table c with
  | none => rw [htab] at h; cases h
  | some op =>
    rw [htab] at h
    simp only at h
    split_ifs at h
    cases h
    obtain ⟨h1, h2⟩ := clone_ledger htab
    refine ⟨?_, ?_⟩ <;> simp [literals_append, operatorCount_append, h1, h2]

theorem pendingCount_cons_paren {c : Char × Int} (rest : List (Char × Int)) (h : c.1 = '(') :
    pendingCount (c :: rest) = pendingCount rest := by
  simp [pendingCount, h]

theorem pendingCount_cons_operator {c : Char × Int} (rest : List (Char × Int)) (h : ¬ c.1 = '(') :
    pendingCount (c :: rest) = pendingCount rest + 1 := by
  simp [pendingCount, h]

theorem ledger_right_parentheses_loop (finale : Bool) (tk : List (Char × Int)) :
    ∀ {p q : Parser}, Parser.right_parentheses_loop finale tk p = .ok q →
      literals q.exp = literals p.exp ∧
        operatorCount q.exp + pendingCount q.token = operatorCount p.exp + pendingCount tk := by
  induction tk with
  | nil =>
    intro p q h
    unfold Parser.right_parentheses_loop at h
    split_ifs at h
    cases h
    exact ⟨rfl, rfl⟩
  | cons c rest ih =>
    intro p q h
    unfold Parser.right_parentheses_loop at h
    by_cases h1 : c.1 = '('
    · rw [if_pos h1] at h
      split_ifs at h
      cases h
      rw [pendingCount_cons_paren rest h1]
      exact ⟨rfl, rfl⟩
    · rw [if_neg h1] at h
      cases hprod : p.produce_operator_unit c.1 with
      | error x => rw [hprod] at h; cases h
      | ok p2 =>
        rw [hprod] at h
        obtain ⟨h2, h3⟩ := ledger_produce_operator_unit hprod
        obtain ⟨h4, h5⟩ := ih h
        rw [pendingCount_cons_operator rest h1]
        exact ⟨h4.trans h2, by omega⟩

theorem ledger_feed_loop (new_op : Oprtr) (tk : List (Char × Int)) :
    ∀ {p q : Parser}, Parser.feed_loop new_op tk p = .ok q →
      literals q.exp = literals p.exp ∧
        operatorCount q.exp + pendingCount q.token = operatorCount p.exp + pendingCount tk := by
  induction tk with
  | nil =>
    intro p q h
    unfold Parser.feed_loop at h
    cases h
    exact ⟨rfl, rfl⟩
  | cons c rest ih =>
    intro p q h
    unfold Parser.feed_loop at h
    by_cases h1 : c.1 = '('
    · rw [if_pos h1] at h
      cases h
      exact ⟨rfl, rfl⟩
    · rw [if_neg h1] at h
      cases htab : operator_table c.1 with
      | none => rw [htab] at h; cases h
      | some old_op =>
        rw [htab] at h
        simp only at h
        by_cases h2 : old_op.priority < new_op.priority
        · rw [if_pos h2] at h
          cases h
          exact ⟨rfl, rfl⟩
        · rw [if_neg h2] at h
          cases hprod : p.produce_operator_unit c.1 with
          | error x => rw [hprod] at h; cases h
          | ok p2 =>
            rw [hprod] at h
            obtain ⟨h3, h4⟩ := ledger_produce_operator_unit hprod
            obtain ⟨h5, h6⟩ := ih h
            rw [pendingCount_cons_operator rest h1]
            exact ⟨h5.trans h3, by omega⟩

theorem ledger_produce_operand_unit {p pr : Parser} {b : Bool}
    (h : p.produce_operand_unit = .ok (b, pr)) :
    operatorCount pr.exp = operatorCount p.exp ∧
      ((p.num_buf = [] ∧ literals pr.exp = literals p.exp) ∨
        (p.num_buf ≠ [] ∧ ∃ v, Operand.new p.num_buf = .ok v ∧
          literals pr.exp = literals p.exp ++ [v])) := by
  unfold Parser.produce_operand_unit at h
  by_cases hlen : p.num_buf.length = 0
  · rw [if_pos hlen] at h
    cases h
    exact ⟨rfl, Or.inl ⟨List.length_eq_zero.mp hlen, rfl⟩⟩
  · rw [if_neg hlen] at h
    by_cases ha : p.after_operand = true
    · rw [if_pos ha] at h; cases h
    · rw [if_neg ha] at h
      cases hnew : Operand.new p.num_buf with
      | error e => rw [hnew] at h; cases h
      | ok val =>
        rw [hnew] at h
        cases h
        refine ⟨?_, Or.inr ⟨fun hn => hlen (by rw [hn]; rfl), val, rfl, ?_⟩⟩
        · simp [operatorCount_append, operatorCount]
        · simp [literals_append, literals]

theorem ledger_flush {p q : Parser} (h : p.flush = .ok q) :
    q.token = p.token ∧ q.num_buf = [] ∧ operatorCount q.exp = operatorCount p.exp ∧
      ((p.num_buf = [] ∧ literals q.exp = literals p.exp) ∨
        (p.num_buf ≠ [] ∧ ∃ v, Operand.new p.num_buf = .ok v ∧
          literals q.exp = literals p.exp ++ [v])) := by
  have htok := flush_token h
  unfold Parser.flush at h
  cases hprod : p.produce_operand_unit with
  | error x => rw [hprod] at h; cases h
  | ok r =>
    obtain ⟨b, pr⟩ := r
    rw [hprod] at h
    simp only at h
    have hq : q = if b = true then { pr with after_operand := true } else pr := by
      injection h with h; exact h.symm
    have hexp : q.exp = pr.exp := by rw [hq]; split_ifs <;> rfl
    have hbuf : q.num_buf = pr.num_buf := by rw [hq]; split_ifs <;> rfl
    rw [hexp, hbuf]
    exact ⟨htok, (produce_operand_unit_fields hprod).2.1, ledger_produce_operand_unit hprod⟩

theorem table_of_unary {c : Char} {op : Oprtr} {a : Bool}
    (h : operator_table (if c = '-' ∧ a = false then OP_UNARY_MINUS else c) = some op) :
    (operator_table c).isSome = true := by
  by_cases hc : c = '-' ∧ a = false
  · rw [hc.1]; rfl
  · rw [if_neg hc] at h; rw [h]; rfl

theorem ledger_dispatch {q p1 : Parser} {c : Char} (h : q.dispatch c = .ok p1) :
    literals p1.exp = literals q.exp ∧
      operatorCount p1.exp + pendingCount p1.token =
        operatorCount q.exp + pendingCount q.token +
          (if (operator_table c).isSome = true then 1 else 0) := by
  unfold Parser.dispatch at h
  by_cases hb : isblank c = true
  · rw [if_pos hb] at h
    cases h
    have hnone : (operator_table c).isSome = false := by
      unfold isblank at hb
      simp only [Bool.or_eq_true, beq_iff_eq] at hb
      rcases hb with rfl | rfl <;> rfl
    rw [hnone]
    exact ⟨rfl, rfl⟩
  rw [if_neg hb] at h
  by_cases hr : c = ')'
  · rw [if_pos hr] at h
    cases hrp : q.right_parentheses false with
    | error e => rw [hrp] at h; cases h
    | ok q3 =>
      rw [hrp] at h
      have hp1 : p1 = { q3 with after_operand := true } := by
        injection h with h; exact h.symm
      have hq3 := ledger_right_parentheses_loop false q.token hrp
      have hnone : (operator_table c).isSome = false := by rw [hr]; rfl
      rw [hp1, hnone]
      exact hq3
  rw [if_neg hr] at h
  by_cases hl : c = '('
  · rw [if_pos hl] at h
    unfold Parser.left_parentheses at h
    split_ifs at h
    cases h
    have hnone : (operator_table c).isSome = false := by rw [hl]; rfl
    rw [hnone]
    exact ⟨rfl, by simp [pendingCount]⟩
  rw [if_neg hl] at h
  simp only at h
  cases htab : operator_table (if c = '-' ∧ q.after_operand = false then OP_UNARY_MINUS else c) with
  | none => rw [htab] at h; cases h
  | some new_op =>
    have hsome := table_of_unary htab
    have hc1 : ¬ (if c = '-' ∧ q.after_operand = false then OP_UNARY_MINUS else c) = '(' := by
      intro hp
      rw [hp] at htab
      cases htab
    rw [htab] at h
    simp only at h
    cases hfl : Parser.feed_loop new_op q.token { q with after_operand := false } with
    | error e => rw [hfl] at h; cases h
    | ok q3 =>
      rw [hfl] at h
      have hp1 : p1 = { q3 with token :=
          ((if c = '-' ∧ q.after_operand = false then OP_UNARY_MINUS else c), 0) :: q3.token } := by
        injection h with h; exact h.symm
      obtain ⟨h1, h2⟩ := ledger_feed_loop new_op q.token hfl
      have hpc : pendingCount p1.token = pendingCount q3.token + 1 := by
        rw [hp1]
        exact pendingCount_cons_operator q3.token hc1
      have hexp : p1.exp = q3.exp := by rw [hp1]
      rw [hsome, hpc, hexp]
      simp only [if_true]
      exact ⟨h1, by have h3 : operatorCount q3.exp + pendingCount q3.token =
                      operatorCount q.exp + pendingCount q.token := h2
                    omega⟩

theorem operand_new_bounds {s : List Char} {v : Int} (hs : ∀ c ∈ s, isdigit c = true)
    (h : Operand.new s = .ok v) : v = (decimalValue s : Int) ∧ 0 ≤ v ∧ v ≤ NUMBER_MAX := by
  rw [operand_new_spec s hs] at h
  by_cases hle : (decimalValue s : Int) ≤ NUMBER_MAX
  · rw [if_pos hle] at h
    cases h
    exact ⟨rfl, Int.natCast_nonneg _, hle⟩
  · rw [if_neg hle] at h; cases h

theorem digit_not_key {c : Char} (h : isdigit c = true) : (operator_table c).isSome = false := by
  cases hk : (operator_table c).isSome with
  | false => rfl
  | true =>
    exfalso
    unfold operator_table at hk
    split_ifs at hk with h1 h2 h3 h4 h5 h6 h7
    · rw [h1] at h; exact absurd h (by decide)
    · rw [h2] at h; exact absurd h (by decide)
    · rw [h3] at h; exact absurd h (by decide)
    · rw [h4] at h; exact absurd h (by decide)
    · rw [h5] at h; exact absurd h (by decide)
    · rw [h6] at h; exact absurd h (by decide)
    · rw [h7] at h; exact absurd h (by decide)
    · cases hk

theorem operatorChars_cons (c : Char) (cs : List Char) :
    operatorChars (c :: cs) =
      operatorChars cs + (if (operator_table c).isSome = true then 1 else 0) := by
  unfold operatorChars
  rw [List.filter_cons]
  split_ifs <;> simp

/-- The ledger of a run from any state whose pending run holds digits only. -/
theorem ledger_run (text : List Char) :
    ∀ {p : Parser} {exp : List ExpUnit}, (∀ c ∈ p.num_buf, isdigit c = true) →
      p.run text = .ok exp →
      literals exp = literals p.exp ++
          (digitRunsFrom p.num_buf text).map (fun run => (decimalValue run : Int)) ∧
        operatorCount exp = operatorCount p.exp + pendingCount p.token + operatorChars text ∧
        ∀ v ∈ literals exp, v ∈ literals p.exp ∨ (0 ≤ v ∧ v ≤ NUMBER_MAX) := by
  induction text with
  | nil =>
    intro p exp hd h
    rw [← run_flush] at h
    cases hfl : p.flush with
    | error e => rw [hfl] at h; cases h
    | ok q =>
      rw [hfl] at h
      simp only at h
      obtain ⟨htok, hbuf, hops, hlit⟩ := ledger_flush hfl
      rw [run_nil] at h
      cases hfin : q.finish with
      | error e => rw [hfin] at h; cases h
      | ok q2 =>
        rw [hfin] at h
        simp only at h
        cases h
        obtain ⟨b, pr, hprod, hloop, -⟩ := finish_ok hfin
        have hpr : pr = q := by
          unfold Parser.produce_operand_unit at hprod
          rw [hbuf] at hprod
          simp only [List.length_nil, if_true] at hprod
          cases hprod; rfl
        rw [hpr] at hloop
        obtain ⟨h1, h2⟩ := ledger_right_parentheses_loop true q.token hloop
        have hq2 : q2.token = [] := (right_parentheses_loop_drained 0 q.token hloop).2.2.2
        have hcount : operatorCount q2.exp =
            operatorCount p.exp + pendingCount p.token + operatorChars [] := by
          rw [hq2] at h2
          rw [htok] at h2
          simp only [pendingCount, operatorChars, List.filter_nil, List.length_nil,
            Nat.add_zero] at h2 ⊢
          omega
        rcases hlit with ⟨hnil, hl⟩ | ⟨hne, v, hv, hl⟩
        · refine ⟨?_, hcount, ?_⟩
          · rw [h1, hl, hnil]; simp [digitRunsFrom]
          · intro v hv; left; rw [h1, hl] at hv; exact hv
        · obtain ⟨hv1, hv2, hv3⟩ := operand_new_bounds hd hv
          refine ⟨?_, hcount, ?_⟩
          · rw [h1, hl, hv1]
            cases hnb : p.num_buf with
            | nil => exact absurd hnb hne
            | cons d ds => simp [digitRunsFrom]
          · intro w hw
            rw [h1, hl] at hw
            rcases List.mem_append.mp hw with hw | hw
            · exact Or.inl hw
            · simp only [List.mem_singleton] at hw
              rw [hw]; exact Or.inr ⟨hv2, hv3⟩
  | cons c cs ih =>
    intro p exp hd h
    rw [run_cons, feed_eq] at h
    by_cases hdig : isdigit c = true
    · rw [if_pos hdig] at h
      simp only at h
      have hd2 : ∀ x ∈ p.num_buf ++ [c], isdigit x = true := by
        intro x hx
        rcases List.mem_append.mp hx with hx | hx
        · exact hd x hx
        · simp only [List.mem_singleton] at hx; rw [hx]; exact hdig
      obtain ⟨h1, h2, h3⟩ := ih (p := { p with num_buf := p.num_buf ++ [c] }) hd2 h
      refine ⟨?_, ?_, h3⟩
      · rw [h1]; simp only [digitRunsFrom, hdig, if_true]
      · rw [h2, operatorChars_cons, digit_not_key hdig]; simp
    · rw [if_neg hdig] at h
      cases hfl : p.flush with
      | error e => rw [hfl] at h; cases h
      | ok q =>
        rw [hfl] at h
        simp only at h
        obtain ⟨htok, hbuf, hops, hlit⟩ := ledger_flush hfl
        cases hdis : q.dispatch c with
        | error e => rw [hdis] at h; cases h
        | ok p1 =>
          rw [hdis] at h
          simp only at h
          obtain ⟨hl1, hc1⟩ := ledger_dispatch hdis
          have hb1 : p1.num_buf = [] := (dispatch_num_buf hdis).trans hbuf
          have hd1 : ∀ x ∈ p1.num_buf, isdigit x = true := by
            rw [hb1]; intro x hx; cases hx
          obtain ⟨h1, h2, h3⟩ := ih hd1 h
          rw [hb1] at h1
          have hcount : operatorCount exp =
              operatorCount p.exp + pendingCount p.token + operatorChars (c :: cs) := by
            rw [h2, operatorChars_cons]
            rw [htok] at hc1
            omega
          rcases hlit with ⟨hnil, hl⟩ | ⟨hne, v, hv, hl⟩
          · refine ⟨?_, hcount, ?_⟩
            · rw [h1, hl1, hl, hnil]
              simp [digitRunsFrom, hdig]
            · intro w hw
              rcases h3 w hw with h4 | h4
              · rw [hl1, hl] at h4; exact Or.inl h4
              · exact Or.inr h4
          · obtain ⟨hv1, hv2, hv3⟩ := operand_new_bounds hd hv
            refine ⟨?_, hcount, ?_⟩
            · rw [h1, hl1, hl, hv1]
              cases hnb : p.num_buf with
              | nil => exact absurd hnb hne
              | cons d ds => simp [digitRunsFrom, hdig]
            · intro w hw
              rcases h3 w hw with h4 | h4
              · rw [hl1, hl] at h4
                rcases List.mem_append.mp h4 with h5 | h5
                · exact Or.inl h5
                · simp only [List.mem_singleton] at h5
                  rw [h5]; exact Or.inr ⟨hv2, hv3⟩
              · exact Or.inr h4

theorem exponent_eval_inInt32 (first second : Int) : InInt32 (ExponentOp.eval first second) := by
  rw [exponent_eval_spec]
  split_ifs
  · unfold InInt32; omega
  · unfold InInt32; omega
  · exact wrap32_inInt32 _

theorem eval_bounded {u : ExpUnit} {acm acm1 : List Int} (hu : ∀ v ∈ literals [u], InInt32 v)
    (hacm : ∀ x ∈ acm, InInt32 x) (h : u.eval acm = .ok acm1) : ∀ x ∈ acm1, InInt32 x := by
  have htail2 : ∀ {a b : Int} {rest : List Int} {y : Int}, acm = a :: b :: rest → InInt32 y →
      ∀ x ∈ y :: rest, InInt32 x := by
    intro a b rest y hc hy x hx
    rcases List.mem_cons.mp hx with rfl | hx
    · exact hy
    · exact hacm x (by rw [hc]; exact List.mem_cons_of_mem _ (List.mem_cons_of_mem _ hx))
  cases u with
  | Operand val =>
    simp only [ExpUnit.eval] at h
    cases h
    intro x hx
    rcases List.mem_cons.mp hx with rfl | hx
    · exact hu _ (by simp [literals])
    · exact hacm x hx
  | MinusOp =>
    cases acm with
    | nil => simp [ExpUnit.eval] at h
    | cons a rest =>
      simp only [ExpUnit.eval] at h
      cases h
      intro x hx
      rcases List.mem_cons.mp hx with rfl | hx
      · exact wrap32_inInt32 _
      · exact hacm x (List.mem_cons_of_mem _ hx)
  | AdditionOp =>
    cases acm with
    | nil => simp [ExpUnit.eval] at h
    | cons a rest =>
      cases rest with
      | nil => simp [ExpUnit.eval] at h
      | cons b rest =>
        simp only [ExpUnit.eval] at h
        cases h
        exact htail2 rfl (wrap32_inInt32 _)
  | SubstractionOp =>
    cases acm with
    | nil => simp [ExpUnit.eval] at h
    | cons a rest =>
      cases rest with
      | nil => simp [ExpUnit.eval] at h
      | cons b rest =>
        simp only [ExpUnit.eval] at h
        cases h
        exact htail2 rfl (wrap32_inInt32 _)
  | MultiplicationOp =>
    cases acm with
    | nil => simp [ExpUnit.eval] at h
    | cons a rest =>
      cases rest with
      | nil => simp [ExpUnit.eval] at h
      | cons b rest =>
        simp only [ExpUnit.eval] at h
        cases h
        exact htail2 rfl (wrap32_inInt32 _)
  | DivisionOp =>
    cases acm with
    | nil => simp [ExpUnit.eval] at h
    | cons a rest =>
      cases rest with
      | nil => simp [ExpUnit.eval] at h
      | cons b rest =>
        simp only [ExpUnit.eval] at h
        split_ifs at h
        cases h
        exact htail2 rfl (wrap32_inInt32 _)
  | ModulusOp =>
    cases acm with
    | nil => simp [ExpUnit.eval] at h
    | cons a rest =>
      cases rest with
      | nil => simp [ExpUnit.eval] at h
      | cons b rest =>
        simp only [ExpUnit.eval] at h
        split_ifs at h
        cases h
        exact htail2 rfl (wrap32_inInt32 _)
  | ExponentOp =>
    cases acm with
    | nil => simp [ExpUnit.eval] at h
    | cons a rest =>
      cases rest with
      | nil => simp [ExpUnit.eval] at h
      | cons b rest =>
        simp only [ExpUnit.eval] at h
        cases h
        exact htail2 rfl (exponent_eval_inInt32 _ _)

theorem exponent_mem {u : ExpUnit} {acm : List Int} {e : Int} (h : e ∈ u.exponent acm) :
    e ∈ acm := by
  cases u <;> cases acm with
  | nil => simp [ExpUnit.exponent] at h
  | cons a rest =>
    cases rest with
    | nil => simp [ExpUnit.exponent] at h
    | cons b rest =>
      first
        | (simp only [ExpUnit.exponent, List.not_mem_nil] at h; done)
        | (simp only [ExpUnit.exponent, List.mem_singleton] at h
           rw [h]; exact List.mem_cons_self _ _)

theorem exponents_bounded (exp : List ExpUnit) :
    ∀ acm : List Int, (∀ v ∈ literals exp, InInt32 v) → (∀ x ∈ acm, InInt32 x) →
      ∀ e ∈ exponents exp acm, InInt32 e := by
  induction exp with
  | nil => intro acm _ _ e he; simp [exponents] at he
  | cons u rest ih =>
    intro acm hlit hacm e he
    have hlit1 : ∀ v ∈ literals [u], InInt32 v := by
      intro v hv
      apply hlit v
      have := literals_append [u] rest
      simp only [List.singleton_append] at this
      rw [this]; exact List.mem_append_left _ hv
    have hlit2 : ∀ v ∈ literals rest, InInt32 v := by
      intro v hv
      apply hlit v
      have := literals_append [u] rest
      simp only [List.singleton_append] at this
      rw [this]; exact List.mem_append_right _ hv
    unfold exponents at he
    rcases List.mem_append.mp he with he | he
    · exact hacm e (exponent_mem he)
    · cases hev : u.eval acm with
      | error x => rw [hev] at he; simp at he
      | ok acm1 =>
        rw [hev] at he
        exact ih acm1 hlit2 (eval_bounded hlit1 hacm hev) e he

theorem compile_literals_bounded {text : List Char} {exp : List ExpUnit}
    (h : compile text = .ok exp) : ∀ v ∈ literals exp, 0 ≤ v ∧ v ≤ NUMBER_MAX := by
  rw [compile_eq_run] at h
  intro v hv
  rcases (ledger_run text (p := Parser.new) (fun c hc => by cases hc) h).2.2 v hv with h1 | h1
  · simp [Parser.new, literals] at h1
  · exact h1

theorem key_eq_operator_char {c : Char} (h : c ≠ '#') :
    (operator_table c).isSome = isOperatorChar c := by
  unfold operator_table isOperatorChar
  by_cases h1 : c = '+'
  · subst h1; rfl
  by_cases h2 : c = '-'
  · subst h2; rfl
  by_cases h3 : c = '*'
  · subst h3; rfl
  by_cases h4 : c = '/'
  · subst h4; rfl
  by_cases h5 : c = '%'
  · subst h5; rfl
  by_cases h6 : c = '^'
  · subst h6; rfl
  have h7 : ¬ c = OP_UNARY_MINUS := h
  simp [h1, h2, h3, h4, h5, h6, h7]

theorem operatorChars_eq_filter {text : List Char} (h : '#' ∉ text) :
    operatorChars text = (text.filter isOperatorChar).length := by
  unfold operatorChars
  congr 1
  apply List.filter_congr
  intro c hc
  exact key_eq_operator_char (fun hh => h (hh ▸ hc))

/-! ## Grammar soundness (C1) -/

/-- C2. For every text on which the constructor succeeds, the units of the
postfix program, run in order from an empty stack, never pop more values than
the stack holds (a binary operator always finds two values, the unary minus
one), whatever the values are; the run either stops at a division or modulus
by zero, or at a division or modulus of `INT32_MIN` by `-1`, or ends on a stack
that is not empty, from which `eval` returns the top. -/
theorem stack_safety (text : String) (exp : List ExpUnit) (h : UnCalc text = .ok exp) :
    (∃ d : Nat, depthLoop exp 0 = some d ∧ 1 ≤ d) ∧
    ((∃ top acm, evalLoop exp [] = .ok (top :: acm) ∧ eval exp = .ok top) ∨
      (∃ m, evalLoop exp [] = .error (domain_error m) ∧
        eval exp = .error (domain_error m)) ∨
      (evalLoop exp [] = .error division_overflow ∧ eval exp = .error division_overflow)) ∧
    evalLoop exp [] ≠ .error stack_underflow ∧ eval exp ≠ .error stack_underflow := by
  obtain ⟨d, hd, h1⟩ := compile_depth h
  have hcases : (∃ top acm, evalLoop exp [] = .ok (top :: acm) ∧ eval exp = .ok top) ∨
      (∃ m, evalLoop exp [] = .error (domain_error m) ∧
        eval exp = .error (domain_error m)) ∨
      (evalLoop exp [] = .error division_overflow ∧
        eval exp = .error division_overflow) := by
    rcases evalLoop_of_depth exp [] hd with ⟨acm1, he, hl⟩ | ⟨m, he⟩ | he
    · left
      cases acm1 with
      | nil => simp at hl; omega
      | cons top acm => exact ⟨top, acm, he, by simp [eval, he]⟩
    · right; left; exact ⟨m, he, by simp [eval, he]⟩
    · right; right; exact ⟨he, by simp [eval, he]⟩
  refine ⟨⟨d, hd, h1⟩, hcases, ?_, ?_⟩
  · rcases hcases with ⟨top, acm, he, -⟩ | ⟨m, he, -⟩ | ⟨he, -⟩ <;> rw [he] <;> simp
  · rcases hcases with ⟨top, acm, -, he⟩ | ⟨m, -, he⟩ | ⟨-, he⟩ <;> rw [he] <;> simp

/-- C2, instance: the program of `"2+3*4"` runs to depth 1 without underflow. -/
theorem stack_safety_witness :
    UnCalc "2+3*4" =
      .ok [.Operand 2, .Operand 3, .Operand 4, .MultiplicationOp, .AdditionOp] ∧
    eval [.Operand 2, .Operand 3, .Operand 4, .MultiplicationOp, .AdditionOp]
      ≠ .error stack_underflow :=
  ⟨by rfl, (stack_safety "2+3*4" _ (by rfl)).2.2.2⟩

/-! ## Single result (C3) -/

/-- C3, at the text `"1#2"`: the constructor accepts the typed character `#`
after the operand 1 as a unary minus, the program is `1 2 #`, and its
evaluation ends with the two values -2 and 1 on the stack; `eval` returns the
top, -2. -/
theorem single_result_fails :
    UnCalc "1#2" = .ok [.Operand 1, .Operand 2, .MinusOp] ∧
    evalLoop [.Operand 1, .Operand 2, .MinusOp] [] = .ok [-2, 1] ∧
    eval [.Operand 1, .Operand 2, .MinusOp] = .ok (-2) :=
  ⟨by rfl, by rfl, by rfl⟩

/-! ## Operand range (C4) -/

/-- C4. For every string `s` of decimal digits (leading zeros allowed, the
empty string included), constructing an `Operand` from `s` succeeds exactly
when the decimal value of `s` is at most 99,999,999; the stored value is then
that decimal value, and otherwise the constructor throws the syntax error
"operand too big".  Every sum `val * 10 + digit` the loop computes lies in the
`int32_t` range.  `"99999999"` compiles to the literal 99999999 and
`"100000000"` is rejected with "operand too big". -/
theorem operand_range (s : List Char) (hs : ∀ c ∈ s, isdigit c = true) :
    ((∃ val, Operand.new s = .ok val) ↔ decimalValue s ≤ 99999999) ∧
    (decimalValue s ≤ 99999999 → Operand.new s = .ok (decimalValue s : Int)) ∧
    (99999999 < decimalValue s →
      Operand.new s = .error (syntax_error "operand too big")) ∧
    (∀ x ∈ Operand.sums s 0, InInt32 x) ∧
    UnCalc "99999999" = .ok [.Operand 99999999] ∧
    UnCalc "100000000" = .error (syntax_error "operand too big") := by
  have h := operand_new_spec s hs
  have hmax : ((decimalValue s : Int) ≤ NUMBER_MAX) ↔ decimalValue s ≤ 99999999 := by
    unfold NUMBER_MAX; omega
  refine ⟨?_, ?_, ?_, (operand_loop_spec s hs 0 le_rfl).2, by rfl, by rfl⟩
  · constructor
    · rintro ⟨val, hval⟩
      by_contra hgt
      rw [h, if_neg (fun hle => hgt (hmax.mp hle))] at hval
      cases hval
    · intro hle
      exact ⟨_, by rw [h, if_pos (hmax.mpr hle)]⟩
  · intro hle; rw [h, if_pos (hmax.mpr hle)]
  · intro hgt; rw [h, if_neg (fun hle => absurd (hmax.mp hle) (by omega))]

/-- C4, instance: the digit string `"042"` is stored as 42. -/
theorem operand_range_witness :
    (∀ c ∈ ['0', '4', '2'], isdigit c = true) ∧ Operand.new ['0', '4', '2'] = .ok 42 :=
  ⟨by decide, by
    have h := (operand_range ['0', '4', '2'] (by decide)).2.1 (by decide)
    simpa [decimalValue] using h⟩

/-! ## Precedence and associativity (C5) -/

/-- C5. For all number literals `a`, `b`, `c` (digit strings of value at most
99,999,999), all binary operators `op1`, `op2` and all runs of blanks around
the operators, `a op1 b op2 c` compiles to `a b c op2 op1` when `op2` has the
higher priority and to `a b op1 c op2` otherwise (equal priorities, `^` with
`^` included, group to the left), and `(a op1 b) op2 c` compiles to
`a b op1 c op2`.  The level of an operator is its priority in
`operator_table`.  `"2+3*4"` evaluates to 14, `"(2+3)*4"` to 20, `"2^3^2"`
to 64. -/
theorem precedence_and_associativity (da db dc : List Char) (a b c : Nat) (op1 op2 : BinOp)
    (s1 s2 s3 s4 : List Char) (ha : Literal da a) (hb : Literal db b) (hc : Literal dc c)
    (h1 : Blank s1) (h2 : Blank s2) (h3 : Blank s3) (h4 : Blank s4) :
    compile (da ++ s1 ++ op1.symbol :: (s2 ++ (db ++ s3 ++ op2.symbol :: (s4 ++ dc)))) =
      .ok (if op1.level < op2.level
        then [.Operand a, .Operand b, .Operand c, op2.unit, op1.unit]
        else [.Operand a, .Operand b, op1.unit, .Operand c, op2.unit]) ∧
    compile ('(' :: (da ++ s1 ++ op1.symbol :: (s2 ++ db) ++ [')']) ++ s3 ++
        op2.symbol :: (s4 ++ dc)) =
      .ok [.Operand a, .Operand b, op1.unit, .Operand c, op2.unit] ∧
    operator_table op1.symbol = some ⟨op1.level, 2, op1.unit⟩ ∧
    operator_table op2.symbol = some ⟨op2.level, 2, op2.unit⟩ ∧
    evaluate "2+3*4" = .ok 14 ∧ evaluate "(2+3)*4" = .ok 20 ∧ evaluate "2^3^2" = .ok 64 := by
  obtain ⟨l1, u1⟩ := binop_level_bounds op1
  obtain ⟨l2, u2⟩ := binop_level_bounds op2
  refine ⟨?_, ?_, (binop_symbol_class op1).2.2.2.2, (binop_symbol_class op2).2.2.2.2,
    by rfl, by rfl, by rfl⟩
  · by_cases hlt : op1.level < op2.level
    · rw [if_pos hlt]
      have hr : Derives op2.level (db ++ s3 ++ op2.symbol :: (s4 ++ dc))
          (.binary op2 (.number b) (.number c)) :=
        derives_binary_text (derives_literal hb l2 (by omega))
          (derives_literal hc (by omega) (by omega)) h3 h4
      have hall := derives_binary_text (derives_literal ha l1 (by omega))
        (derives_le hr (by omega) (by omega)) h1 h2
      exact compile_of_derives (derives_le hall (le_refl _) l1)
    · rw [if_neg hlt]
      have hl : Derives op1.level (da ++ s1 ++ op1.symbol :: (s2 ++ db))
          (.binary op1 (.number a) (.number b)) :=
        derives_binary_text (derives_literal ha l1 (by omega))
          (derives_literal hb (by omega) (by omega)) h1 h2
      have hall := derives_binary_text (derives_le hl l2 (by omega))
        (derives_literal hc (by omega) (by omega)) h3 h4
      have := compile_of_derives (derives_le hall (le_refl _) l2)
      simpa [Tree.toExp] using this
  · have hl : Derives op1.level (da ++ s1 ++ op1.symbol :: (s2 ++ db))
        (.binary op1 (.number a) (.number b)) :=
      derives_binary_text (derives_literal ha l1 (by omega))
        (derives_literal hb (by omega) (by omega)) h1 h2
    have hp := Derives.paren (derives_le hl (le_refl _) l1)
    have hall := derives_binary_text (derives_le hp l2 (by omega))
      (derives_literal hc (by omega) (by omega)) h3 h4
    have := compile_of_derives (derives_le hall (le_refl _) l2)
    simpa [Tree.toExp] using this


/-- C5, instance: `"2+3*4"` compiles to `2 3 4 * +`. -/
theorem precedence_and_associativity_witness :
    compile ['2', '+', '3', '*', '4'] =
      .ok [.Operand 2, .Operand 3, .Operand 4, .MultiplicationOp, .AdditionOp] :=
  (precedence_and_associativity ['2'] ['3'] ['4'] 2 3 4 .add .mul [] [] [] []
    (by decide) (by decide)
    (by decide)
    (fun _ h => by cases h) (fun _ h => by cases h) (fun _ h => by cases h)
    (fun _ h => by cases h)).1

/-! ## Unary and binary minus (C6) -/

/-- C6, counterexample: `"99999999*-99999999"` compiles to
`99999999 99999999 # *`, whose evaluation returns -1674919425, the product
reduced to `int32_t`, and not `99999999 * (-99999999)` = -9999999800000001. -/
theorem minus_product_wraps :
    UnCalc "99999999*-99999999" =
      .ok [.Operand 99999999, .Operand 99999999, .MinusOp, .MultiplicationOp] ∧
    evaluate "99999999*-99999999" = .ok (-1674919425) ∧
    evaluate "99999999*-99999999" ≠ .ok ((99999999 : Int) * -(99999999 : Int)) := by
  have he : evaluate "99999999*-99999999" = .ok (-1674919425) := by rfl
  refine ⟨by rfl, he, ?_⟩
  rw [he]
  decide

/-- C6, amended. For all number literals `a`, `b` (digit strings of value at most
99,999,999): `a-b` compiles to `a b -` and evaluates to `a - b`; `a*-b`
compiles to `a b # *` and evaluates to `a * (-b)` reduced to `int32_t`, which
is `a * (-b)` itself when `a * b` is at most 2^31; `-a+b`
compiles to `a # b +` and evaluates to `(-a) + b`.  A character `-` is put on
the operator stack as the binary `-` exactly when the value flag holds and as
the unary `#` otherwise; the flag is off at the start, digits and `)` set it,
blanks keep it, `(` and operator characters clear it.  `"5-3"` evaluates to
2, `"5*-3"` to -15, `"-5+3"` to -2. -/
theorem minus_disambiguation (da db : List Char) (a b : Nat) (ha : Literal da a)
    (hb : Literal db b) :
    compile (da ++ '-' :: db) = .ok [.Operand a, .Operand b, .SubstractionOp] ∧
    eval [.Operand a, .Operand b, .SubstractionOp] = .ok ((a : Int) - b) ∧
    compile (da ++ '*' :: '-' :: db) =
      .ok [.Operand a, .Operand b, .MinusOp, .MultiplicationOp] ∧
    eval [.Operand a, .Operand b, .MinusOp, .MultiplicationOp] =
      .ok (wrap32 ((a : Int) * -(b : Int))) ∧
    ((a : Int) * b ≤ 2147483648 → wrap32 ((a : Int) * -(b : Int)) = (a : Int) * -(b : Int)) ∧
    compile ('-' :: da ++ '+' :: db) = .ok [.Operand a, .MinusOp, .Operand b, .AdditionOp] ∧
    eval [.Operand a, .MinusOp, .Operand b, .AdditionOp] = .ok (-(a : Int) + b) ∧
    Parser.new.after_value = false ∧
    (∀ (p p1 : Parser) (c : Char), p.feed c = .ok p1 →
      p1.after_value = (if isdigit c then true else if isblank c then p.after_value
        else if c = ')' then true else false)) ∧
    (∀ p p1 : Parser, p.feed '-' = .ok p1 →
      ∃ rest, p1.token = ((if p.after_value then '-' else OP_UNARY_MINUS), 0) :: rest) ∧
    evaluate "5-3" = .ok 2 ∧ evaluate "5*-3" = .ok (-15) ∧ evaluate "-5+3" = .ok (-2) := by
  have ha5 : (a : Int) ≤ 99999999 := by have := ha.2.2.2; omega
  have hb5 : (b : Int) ≤ 99999999 := by have := hb.2.2.2; omega
  have ha0 : (0 : Int) ≤ a := Int.natCast_nonneg a
  have hb0 : (0 : Int) ≤ b := Int.natCast_nonneg b
  have hmul : (a : Int) * b ≤ 2147483648 →
      wrap32 ((a : Int) * -(b : Int)) = (a : Int) * -(b : Int) := by
    intro hle
    have hnn : (0 : Int) ≤ (a : Int) * b := mul_nonneg ha0 hb0
    have heq : (a : Int) * -(b : Int) = -((a : Int) * b) := by ring
    rw [heq]
    exact wrap32_of_inInt32 (by unfold InInt32; omega)
  refine ⟨?_, ?_, ?_, ?_, hmul, ?_, ?_, rfl, fun p p1 c h => (feed_flag h).1,
    fun p p1 h => (feed_flag h).2 rfl, by rfl, by rfl, by rfl⟩
  · exact compile_of_derives (t := .binary .sub (.number a) (.number b))
      (Derives.binary .sub (derives_literal ha (le_refl 1) (by decide))
        (derives_literal hb (by decide) (by decide)))
  · have h : wrap32 ((a : Int) - b) = (a : Int) - b :=
      wrap32_of_inInt32 (by unfold InInt32; omega)
    simp [eval, evalLoop, ExpUnit.eval, h]
  · exact compile_of_derives
      (t := .binary .mul (.number a) (.negate (.number b)))
      (derives_le (Derives.binary .mul (derives_literal ha (by decide) (by decide))
        (derives_le (Derives.minus (derives_literal hb (by decide) (le_refl 5)))
          (by decide) (by decide))) (le_refl 1) (by decide))
  · have h : wrap32 (-(b : Int)) = -(b : Int) :=
      wrap32_of_inInt32 (by unfold InInt32; omega)
    simp [eval, evalLoop, ExpUnit.eval, h]
  · exact compile_of_derives
      (t := .binary .add (.negate (.number a)) (.number b))
      (Derives.binary .add
        (derives_le (Derives.minus (derives_literal ha (by decide) (le_refl 5)))
          (le_refl 1) (by decide))
        (derives_literal hb (by decide) (by decide)))
  · have h1 : wrap32 (-(a : Int)) = -(a : Int) :=
      wrap32_of_inInt32 (by unfold InInt32; omega)
    have h2 : wrap32 (-(a : Int) + b) = -(a : Int) + b :=
      wrap32_of_inInt32 (by unfold InInt32; omega)
    simp [eval, evalLoop, ExpUnit.eval, h1, h2]

/-- C6, instance: `"5-3"` compiles to `5 3 -`. -/
theorem minus_disambiguation_witness :
    compile ['5', '-', '3'] = .ok [.Operand 5, .Operand 3, .SubstractionOp] :=
  (minus_disambiguation ['5'] ['3'] 5 3 (by decide)
    (by decide)).1

/-! ## Double negation (C7) -/

/-- C7, at the text `"--5"` and at every text that starts with `--`: the
second `-` pops the first unary minus from the operator stack (equal priority)
before any operand has been counted, and the constructor throws the syntax
error "Missing operand"; nothing is evaluated.  After an operand the same pop
succeeds and negates that operand instead: `"3+--2"` compiles to `3 # 2 # +`,
which evaluates to -5.  With parentheses, `"-(-5)"` evaluates to 5. -/
theorem double_negation_rejected (rest : List Char) :
    compile ('-' :: '-' :: rest) = .error (syntax_error "Missing operand") ∧
    UnCalc "--5" = .error (syntax_error "Missing operand") ∧
    evaluate "--5" = .error (syntax_error "Missing operand") ∧
    UnCalc "3+--2" = .ok [.Operand 3, .MinusOp, .Operand 2, .MinusOp, .AdditionOp] ∧
    evaluate "3+--2" = .ok (-5) ∧ evaluate "-(-5)" = .ok 5 := by
  refine ⟨?_, by rfl, by rfl, by rfl, by rfl, by rfl⟩
  have h1 : Parser.new.feed '-' = .ok
      { token := [(OP_UNARY_MINUS, 0)], num_buf := [], exp := [], operand_number := 0,
        after_operand := false } := by rfl
  have h2 : Parser.feed
      { token := [(OP_UNARY_MINUS, 0)], num_buf := [], exp := [], operand_number := 0,
        after_operand := false } '-' = .error (syntax_error "Missing operand") := by rfl
  simp only [compile, feedAll, h1, h2]

/-! ## Division and modulus by zero (C8) -/

/-- C8, as the code behaves.  For every number literal `a` (a digit string of
value at most 99,999,999) the texts `a/0` and `a%0` compile (to `a 0 /` and
`a 0 %`); evaluating the first throws the `domain_error` "divided by zero in
#UnCalc" and evaluating the second throws the `domain_error` "modulo by zero
in #UnCalc"; no value is produced.  The same holds for `"5/0"` and `"5%0"`. -/
theorem zero_divisor (da : List Char) (a : Nat) (ha : Literal da a) :
    compile (da ++ ['/', '0']) = .ok [.Operand a, .Operand 0, .DivisionOp] ∧
    eval [.Operand a, .Operand 0, .DivisionOp] =
      .error (domain_error "divided by zero in #UnCalc") ∧
    compile (da ++ ['%', '0']) = .ok [.Operand a, .Operand 0, .ModulusOp] ∧
    eval [.Operand a, .Operand 0, .ModulusOp] =
      .error (domain_error "modulo by zero in #UnCalc") ∧
    UnCalc "5/0" = .ok [.Operand 5, .Operand 0, .DivisionOp] ∧
    evaluate "5/0" = .error (domain_error "divided by zero in #UnCalc") ∧
    UnCalc "5%0" = .ok [.Operand 5, .Operand 0, .ModulusOp] ∧
    evaluate "5%0" = .error (domain_error "modulo by zero in #UnCalc") := by
  have h0 : Literal ['0'] 0 := (by decide)
  refine ⟨?_, by rfl, ?_, by rfl, by rfl, by rfl, by rfl, by rfl⟩
  · exact compile_of_derives (t := .binary .div (.number a) (.number 0))
      (derives_le (Derives.binary .div (derives_literal ha (by decide) (by decide))
        (derives_literal h0 (by decide) (by decide))) (le_refl 1) (by decide))
  · exact compile_of_derives (t := .binary .mod (.number a) (.number 0))
      (derives_le (Derives.binary .mod (derives_literal ha (by decide) (by decide))
        (derives_literal h0 (by decide) (by decide))) (le_refl 1) (by decide))

/-- C8, instance: `"12/0"` compiles to `12 0 /`. -/
theorem zero_divisor_witness :
    compile ['1', '2', '/', '0'] = .ok [.Operand 12, .Operand 0, .DivisionOp] :=
  (zero_divisor ['1', '2'] 12 (by decide)).1

/-- C8 as stated fails at `"5%0"`: the evaluation does not throw the error of
the division, "divided by zero in #UnCalc". -/
theorem modulus_error_differs :
    evaluate "5%0" ≠ .error (domain_error "divided by zero in #UnCalc") := by
  rw [show evaluate "5%0" = .error (domain_error "modulo by zero in #UnCalc") from rfl]
  decide

/-! ## Exponentiation (C9) -/

/-- C9. For every base `a` and exponent `e`, the unit `^` run on a stack whose
top is `e` (right operand) above `a` (left operand) replaces them by 0 when
`e < 0`, by 1 when `e = 0` (also for `a = 0`), and by `a ^ e` reduced to
`int32_t` when `e > 0`.  `"2^-1"` evaluates to 0, `"2^0"` to 1, `"2^3"` to 8. -/
theorem exponent_semantics (a e : Int) (acm : List Int) :
    (ExpUnit.eval .ExponentOp (e :: a :: acm) =
      .ok ((if e < 0 then 0 else if e = 0 then 1 else wrap32 (a ^ e.toNat)) :: acm)) ∧
    evaluate "2^-1" = .ok 0 ∧ evaluate "2^0" = .ok 1 ∧ evaluate "2^3" = .ok 8 := by
  refine ⟨?_, by rfl, by rfl, by rfl⟩
  simp only [ExpUnit.eval, exponent_eval_spec]

/-! ## Truncating division and remainder (C10) -/

/-- C10. For all `int32_t` values `a` and `b` with `b ≠ 0`, other than
`a = INT32_MIN` with `b = -1`: on a stack whose top is `b` above `a`, the unit
`/` leaves a quotient `q` and the unit `%` a remainder `r` with
`a = q * b + r`, `|r| < |b|`, `r` zero or of the sign of the dividend `a`, and
`|q|` the floor of `|a| / |b|` (rounding toward zero); the value popped second
is the left operand.  `"-7/2"` evaluates to -3 and `"-7%2"` to -1. -/
theorem truncating_division (a b : Int) (acm : List Int) (ha : InInt32 a) (hb : InInt32 b)
    (hb0 : b ≠ 0) (hmin : ¬ (a = -2147483648 ∧ b = -1)) :
    ∃ q r : Int,
      ExpUnit.eval .DivisionOp (b :: a :: acm) = .ok (q :: acm) ∧
      ExpUnit.eval .ModulusOp (b :: a :: acm) = .ok (r :: acm) ∧
      a = q * b + r ∧ |r| < |b| ∧ (r = 0 ∨ Int.sign r = Int.sign a) ∧
      q.natAbs = a.natAbs / b.natAbs ∧
      evaluate "-7/2" = .ok (-3) ∧ evaluate "-7%2" = .ok (-1) := by
  have hq : InInt32 (Int.tdiv a b) := tdiv_inInt32 ha hb0 hmin
  have hr1 : |Int.tmod a b| < |b| := tmod_abs_lt a hb0
  have hr : InInt32 (Int.tmod a b) := by
    unfold InInt32 at *
    rw [abs_lt] at hr1
    rcases abs_cases b with ⟨h, _⟩ | ⟨h, _⟩ <;> omega
  refine ⟨Int.tdiv a b, Int.tmod a b, ?_, ?_, ?_, hr1, tmod_sign a b, Int.natAbs_tdiv a b,
    by rfl, by rfl⟩
  · simp only [ExpUnit.eval]
    rw [if_neg hb0, if_neg hmin, wrap32_of_inInt32 hq]
  · simp only [ExpUnit.eval]
    rw [if_neg hb0, if_neg hmin, wrap32_of_inInt32 hr]
  · have := Int.tdiv_add_tmod' a b
    omega

/-- C10, instance: `-7` and `2` are `int32_t` values, `2 ≠ 0`, and the units `/`
and `%` leave a quotient and a remainder with the stated properties. -/
theorem truncating_division_witness :
    ∃ q r : Int,
      ExpUnit.eval .DivisionOp [2, -7] = .ok [q] ∧
      ExpUnit.eval .ModulusOp [2, -7] = .ok [r] ∧
      (-7 : Int) = q * 2 + r ∧ |r| < |(2 : Int)| ∧ (r = 0 ∨ Int.sign r = Int.sign (-7)) ∧
      q.natAbs = (-7 : Int).natAbs / (2 : Int).natAbs ∧
      evaluate "-7/2" = .ok (-3) ∧ evaluate "-7%2" = .ok (-1) :=
  truncating_division (-7) 2 [] (by decide) (by decide) (by decide) (by decide)

/-! ## Unbalanced parentheses (C11) -/

/-- C11. For every text `e` the constructor accepts, the text `(e` is rejected
with the syntax error "Missing ')'" and the text `e)` with the syntax error
"Missing '('"; the text `")"` alone is rejected with "Missing '('".
`"(2+3"` fails with "Missing ')'", `"2+3)"` and `")"` with "Missing '('". -/
theorem unbalanced_parentheses (e : List Char) (exp : List ExpUnit)
    (h : compile e = .ok exp) :
    compile ('(' :: e) = .error (syntax_error "Missing ')'") ∧
    compile (e ++ [')']) = .error (syntax_error "Missing '('") ∧
    UnCalc ")" = .error (syntax_error "Missing '('") ∧
    UnCalc "(2+3" = .error (syntax_error "Missing ')'") ∧
    UnCalc "2+3)" = .error (syntax_error "Missing '('") :=
  ⟨compile_lparen_of_ok h, compile_rparen_of_ok h, by rfl, by rfl, by rfl⟩

/-- C11, instance: `"2+3"` is accepted, so `"(2+3"` and `"2+3)"` are rejected. -/
theorem unbalanced_parentheses_witness :
    compile ['(', '2', '+', '3'] = .error (syntax_error "Missing ')'") ∧
    compile ['2', '+', '3', ')'] = .error (syntax_error "Missing '('") :=
  have h := unbalanced_parentheses ['2', '+', '3']
    [.Operand 2, .Operand 3, .AdditionOp] (by rfl)
  ⟨h.1, h.2.1⟩

/-! ## Adjacent values (C12) -/

/-- C12. For all number literals `a`, `b` and every non-empty run `w` of
blanks, the text `a w b` is rejected with the syntax error "Missing operator".
A number directly after a right parenthesis is rejected with "Missing
operator" as well, wherever the text goes on; a left parenthesis directly
after a right parenthesis, or directly after a number that stands where an
operand may stand, is rejected with "Missing operator before '('".  `"2 3"`
and `"(1)2"` fail with "Missing operator", `"5(1)"` and `"(1)(2)"` with
"Missing operator before '('". -/
theorem adjacent_values_rejected (da db w : List Char) (a b : Nat) (ha : Literal da a)
    (hb : Literal db b) (hw : Blank w) (hne : w ≠ []) :
    compile (da ++ w ++ db) = .error (syntax_error "Missing operator") ∧
    (∀ (pre ds rest : List Char) (p : Parser), feedAll Parser.new (pre ++ [')']) = .ok p →
      ds ≠ [] → (∀ c ∈ ds, isdigit c = true) →
      compile (pre ++ ')' :: (ds ++ rest)) = .error (syntax_error "Missing operator")) ∧
    (∀ (pre rest : List Char) (p : Parser), feedAll Parser.new (pre ++ [')']) = .ok p →
      compile (pre ++ ')' :: '(' :: rest) =
        .error (syntax_error "Missing operator before '('")) ∧
    (∀ (pre rest : List Char) (p : Parser), feedAll Parser.new pre = .ok p →
      p.after_value = false →
      compile (pre ++ da ++ '(' :: rest) =
        .error (syntax_error "Missing operator before '('")) ∧
    UnCalc "2 3" = .error (syntax_error "Missing operator") ∧
    UnCalc "(1)2" = .error (syntax_error "Missing operator") ∧
    UnCalc "5(1)" = .error (syntax_error "Missing operator before '('") ∧
    UnCalc "(1)(2)" = .error (syntax_error "Missing operator before '('") := by
  refine ⟨?_, ?_, ?_, ?_, by rfl, by rfl, by rfl, by rfl⟩
  · cases w with
    | nil => exact absurd rfl hne
    | cons b1 w1 =>
      have hb1 : isblank b1 = true := hw b1 (List.mem_cons_self _ _)
      have hw1 : Blank w1 := fun c hc => hw c (List.mem_cons_of_mem _ hc)
      have hfl := flush_literal (p := { Parser.new with num_buf := Parser.new.num_buf ++ da })
        ha rfl rfl
      have hfa : feedAll Parser.new (da ++ b1 :: w1) = .ok
          { Parser.new with exp := Parser.new.exp ++ [.Operand a], num_buf := [],
                            operand_number := Parser.new.operand_number + 1,
                            after_operand := true } := by
        rw [feedAll_append, feedAll_digits da ha.2.1]
        simp only [feedAll, step_blank hb1 hfl]
        exact feedAll_blanks hw1 rfl
      rw [compile_eq_run, run_append, hfa]
      have := run_digits_after_operand
        (p := { Parser.new with exp := Parser.new.exp ++ [.Operand a], num_buf := [],
                                operand_number := Parser.new.operand_number + 1,
                                after_operand := true })
        rfl rfl hb.1 hb.2.1 []
      simpa using this
  · intro pre ds rest p hp hds hdig
    obtain ⟨h1, h2⟩ := after_rparen hp
    have : pre ++ ')' :: (ds ++ rest) = (pre ++ [')']) ++ (ds ++ rest) := by simp
    rw [compile_eq_run, this, run_append, hp]
    exact run_digits_after_operand h1 h2 hds hdig rest
  · intro pre rest p hp
    obtain ⟨h1, h2⟩ := after_rparen hp
    have : pre ++ ')' :: '(' :: rest = (pre ++ [')']) ++ ('(' :: rest) := by simp
    rw [compile_eq_run, this, run_append, hp]
    exact run_lparen_after_operand (flush_clean p h2) h1 rest
  · intro pre rest p hp hflag
    have hbuf : p.num_buf = [] := by
      unfold Parser.after_value at hflag
      cases hnb : p.num_buf with
      | nil => rfl
      | cons d ds => rw [hnb] at hflag; simp at hflag
    have haft : p.after_operand = false := by
      unfold Parser.after_value at hflag
      simpa [hbuf] using hflag
    have : pre ++ da ++ '(' :: rest = pre ++ (da ++ '(' :: rest) := by simp
    rw [compile_eq_run, this, run_append, hp]
    simp only
    rw [run_append, feedAll_digits da ha.2.1]
    have hfl := flush_literal (p := { p with num_buf := p.num_buf ++ da }) ha
      (by simp [hbuf]) haft
    exact run_lparen_after_operand hfl rfl rest

/-- C12, instance: `"2 3"`, the literals 2 and 3 with one space between. -/
theorem adjacent_values_rejected_witness :
    compile ['2', ' ', '3'] = .error (syntax_error "Missing operator") :=
  (adjacent_values_rejected ['2'] ['3'] [' '] 2 3 (by decide) (by decide) (by decide)
    (by decide)).1

/-! ## Missing operand (C13) -/

/-- C13. For every number literal `a` and every binary operator symbol `op`
among `+ - * / % ^`, the text `a op` is rejected with the syntax error
"Missing operand"; for every `op` other than `-`, the text `op a` is rejected
with "Missing operand"; the text `"-"` alone is rejected with "Missing
operand".  `"2+"` fails with "Missing operand". -/
theorem missing_operand (da : List Char) (a : Nat) (op : BinOp) (ha : Literal da a) :
    compile (da ++ [op.symbol]) = .error (syntax_error "Missing operand") ∧
    (op ≠ .sub → compile (op.symbol :: da) = .error (syntax_error "Missing operand")) ∧
    UnCalc "-" = .error (syntax_error "Missing operand") ∧
    UnCalc "2+" = .error (syntax_error "Missing operand") := by
  refine ⟨?_, ?_, by rfl, by rfl⟩
  · have hfl := flush_literal (p := { Parser.new with num_buf := Parser.new.num_buf ++ da })
      ha rfl rfl
    have hstep := step_binary hfl op rfl [] [] rfl (fun pd hpd => by cases hpd) trivial
      (by simp [Parser.new])
    rw [compile_eq_run, run_append, feedAll_digits da ha.2.1]
    simp only
    rw [run_cons, hstep]
    exact run_operator_last op rfl rfl (by simp [Parser.new])
  · intro hsub
    obtain ⟨h1, h2, h3, h4, h5⟩ := binop_symbol_class op
    have hminus : op.symbol ≠ '-' := by
      cases op <;> first | exact absurd rfl hsub | decide
    have hfeed : Parser.new.feed op.symbol =
        .ok { Parser.new with token := [(op.symbol, 0)] } := by
      rw [feed_eq, h1, flush_clean _ rfl]
      simp [Parser.dispatch, h2, h3, h4, hminus, h5, Parser.feed_loop, Parser.new]
    rw [compile_eq_run, run_cons, hfeed]
    simp only
    have : da = da ++ [] := by simp
    rw [this, run_append, feedAll_digits da ha.2.1]
    have hprod := produce_literal
      (p := { token := [(op.symbol, 0)], num_buf := da, exp := [], operand_number := 0,
              after_operand := false }) ha rfl rfl
    simp only at hprod
    simp [run_nil, Parser.finish, hprod, Parser.right_parentheses,
      Parser.right_parentheses_loop, h4, Parser.produce_operator_unit, h5, Parser.new]

/-- C13, instance: `"2+"`. -/
theorem missing_operand_witness :
    compile ['2', '+'] = .error (syntax_error "Missing operand") :=
  (missing_operand ['2'] 2 .add (by decide)).1

/-! ## Empty expression (C14) -/

/-- C14. The constructor throws the syntax error "empty expression" exactly on
the texts that consist of blanks only (spaces and tabs), the empty text
included.  Every other text it rejects is rejected with a syntax error whose
message is one of the eight other messages; every rejection is a syntax
error.  Every program it produces holds at least one unit.  `""` fails with
"empty expression". -/
theorem empty_expression (text : List Char) :
    (compile text = .error (syntax_error "empty expression") ↔ Blank text) ∧
    (∀ e, compile text = .error e → ¬ Blank text →
      ∃ m, m ∈ otherMessages ∧ e = syntax_error m ∧ m ≠ "empty expression") ∧
    (∀ e, compile text = .error e → ∃ m, e = syntax_error m) ∧
    (∀ exp, compile text = .ok exp → exp ≠ []) ∧
    UnCalc "" = .error (syntax_error "empty expression") := by
  refine ⟨⟨?_, compile_blank⟩, ?_, ?_, fun exp h => compile_ok_ne_nil h, by rfl⟩
  · intro h
    by_contra hnb
    exact other_ne_empty (compile_error_other hnb h) rfl
  · intro e h hnb
    have ho := compile_error_other hnb h
    obtain ⟨m, hm, heq⟩ := ho
    refine ⟨m, hm, heq, ?_⟩
    intro hme
    rw [hme] at hm
    revert hm; decide
  · intro e h
    by_cases hb : Blank text
    · rw [compile_blank hb] at h
      injection h with h
      exact ⟨_, h.symm⟩
    · obtain ⟨m, -, heq⟩ := compile_error_other hb h
      exact ⟨m, heq⟩

/-- C14, instance: a space and a tab. -/
theorem empty_expression_witness :
    Blank [' ', '\t'] ∧ compile [' ', '\t'] = .error (syntax_error "empty expression") :=
  ⟨by decide, (empty_expression [' ', '\t']).1.mpr (by decide)⟩

/-! ## Whitespace insignificance (C15) -/

/-- C15. For every text `u ++ v` and every position in it that is not between
two digits (`u` does not end with a digit or `v` does not start with one; the
start and the end of the text included), a blank inserted at that position
leaves the outcome of the constructor unchanged: the same program on success,
the same exception on failure.  `" 2 + 3 * 4 "` has the outcome of
`"2+3*4"`. -/
theorem whitespace_insignificance (u v : List Char) (b : Char) (hb : isblank b = true)
    (hpos : betweenDigits u v = false) :
    compile (u ++ b :: v) = compile (u ++ v) ∧
    UnCalc " 2 + 3 * 4 " = UnCalc "2+3*4" := by
  refine ⟨?_, by rfl⟩
  rw [compile_eq_run, compile_eq_run, run_append, run_append]
  cases hu : feedAll Parser.new u with
  | error e => rfl
  | ok p =>
    simp only
    apply run_blank hb
    by_cases hbuf : p.num_buf = []
    · exact Or.inl hbuf
    · right
      intro c hc
      obtain ⟨d, hd1, hd2⟩ := num_buf_of_feedAll hu hbuf
      by_contra hdc
      have hdc1 : isdigit c = true := by simpa using hdc
      simp [betweenDigits, hd1, hd2, hc, hdc1] at hpos

/-- C15, instance: a space between `2` and `+3`. -/
theorem whitespace_insignificance_witness :
    compile ['2', ' ', '+', '3'] = compile ['2', '+', '3'] :=
  (whitespace_insignificance ['2'] ['+', '3'] ' ' (by decide) (by decide)).1

/-! ## Grammar completeness (C16) -/

/-- C16, at the texts `"#5"` and `"3+--2"`: the constructor accepts both, the
first as `5 #` and the second as `3 # 2 # +`, and neither is a sentence of the
grammar, with or without blanks: no sentence holds the character `#`, and a
sentence that compiles to `3 # 2 # +` has its operator characters in the order
`- + -`. -/
theorem grammar_completeness_fails :
    UnCalc "#5" = .ok [.Operand 5, .MinusOp] ∧
    (¬ ∃ t, Derives 1 "#5".data t) ∧
    UnCalc "3+--2" = .ok [.Operand 3, .MinusOp, .Operand 2, .MinusOp, .AdditionOp] ∧
    (¬ ∃ t, Derives 1 "3+--2".data t) := by
  refine ⟨by rfl, ?_, by rfl, ?_⟩
  · rintro ⟨t, hd⟩
    exact derives_no_hash hd (by decide)
  · rintro ⟨t, hd⟩
    have hc := compile_of_derives hd
    have hc2 : compile "3+--2".data =
        .ok [.Operand 3, .MinusOp, .Operand 2, .MinusOp, .AdditionOp] := by rfl
    rw [hc2] at hc
    have ht : (Tree.binary .add (.negate (.number 3)) (.negate (.number 2))).toExp = t.toExp := by
      injection hc
    have := derives_operators hd
    rw [← toExp_injective ht] at this
    revert this; decide

/-! ## Formatting (C17) -/

/-- C18, counterexample: the text "2^(99999999+1)" compiles, and the one
execution of `^` in its evaluation finds the right operand 100000000, which
exceeds the greatest literal 99999999: the right operand of `^` is a computed
value, not a literal. -/
theorem exponent_exceeds_literal_maximum :
    UnCalc "2^(99999999+1)" =
        .ok [.Operand 2, .Operand 99999999, .Operand 1, .AdditionOp, .ExponentOp] ∧
      exponents [.Operand 2, .Operand 99999999, .Operand 1, .AdditionOp, .ExponentOp] [] =
        [100000000] ∧
      NUMBER_MAX < 100000000 := by
  refine ⟨by rfl, by rfl, by decide⟩

/-- C18, amended: for every text the constructor accepts, every literal of the
program lies between 0 and 99999999, and every execution of `^` during the
evaluation finds a right operand `e` that is an `int32_t` value; its loop runs
`e.toNat` rounds (none for a negative `e`), which is at most 2147483647, and the
unit returns. The bound of the loop is the width of the arithmetic type, not
the greatest literal. -/
theorem bounded_exponent_loop (text : String) (exp : List ExpUnit)
    (h : UnCalc text = .ok exp) :
    (∀ v ∈ literals exp, 0 ≤ v ∧ v ≤ NUMBER_MAX) ∧
      ∀ e ∈ exponents exp [], InInt32 e ∧ e.toNat ≤ 2147483647 ∧
        ∀ first : Int, ∀ acm : List Int,
          ExponentOp.eval first e = ExponentOp.loop e.toNat first (if e ≥ 0 then 1 else 0) ∧
          ExpUnit.eval .ExponentOp (e :: first :: acm) =
            .ok (ExponentOp.loop e.toNat first (if e ≥ 0 then 1 else 0) :: acm) := by
  have hlit := compile_literals_bounded h
  refine ⟨hlit, ?_⟩
  intro e he
  have hb : InInt32 e := by
    apply exponents_bounded exp [] _ (fun x hx => by cases hx) e he
    intro v hv
    obtain ⟨h1, h2⟩ := hlit v hv
    unfold NUMBER_MAX at h2
    unfold InInt32
    omega
  refine ⟨hb, ?_, ?_⟩
  · unfold InInt32 at hb; omega
  · intro first acm
    exact ⟨rfl, rfl⟩

/-- C18, witness: the text "2^(3+1)", whose one execution of `^` has the right
operand 4. -/
theorem bounded_exponent_loop_witness :
    UnCalc "2^(3+1)" = .ok [.Operand 2, .Operand 3, .Operand 1, .AdditionOp, .ExponentOp] ∧
      ((∀ v ∈ literals [.Operand 2, .Operand 3, .Operand 1, .AdditionOp, .ExponentOp],
          0 ≤ v ∧ v ≤ NUMBER_MAX) ∧
        ∀ e ∈ exponents [.Operand 2, .Operand 3, .Operand 1, .AdditionOp, .ExponentOp] [],
          InInt32 e ∧ e.toNat ≤ 2147483647 ∧
            ∀ first : Int, ∀ acm : List Int,
              ExponentOp.eval first e =
                  ExponentOp.loop e.toNat first (if e ≥ 0 then 1 else 0) ∧
                ExpUnit.eval .ExponentOp (e :: first :: acm) =
                  .ok (ExponentOp.loop e.toNat first (if e ≥ 0 then 1 else 0) :: acm)) :=
  ⟨by rfl, bounded_exponent_loop "2^(3+1)" _ (by rfl)⟩

/-! ## Operand order (C19) -/

/-- C19: for every text the constructor accepts, the literals of the program, in
program order, are the values of the maximal digit runs of the text, left to
right; the number of operator units is the number of characters of the text
that are keys of `operator_table` (the six binary operator characters when the
text has no '#'); and the program has no other unit: parentheses and blanks
emit nothing. -/
theorem operand_order_preserved (text : String) (exp : List ExpUnit)
    (h : UnCalc text = .ok exp) :
    literals exp = (digitRuns text.data).map (fun run => (decimalValue run : Int)) ∧
      operatorCount exp = operatorChars text.data ∧
      ('#' ∉ text.data → operatorCount exp = (text.data.filter isOperatorChar).length) ∧
      exp.length = (digitRuns text.data).length + operatorChars text.data := by
  have hrun : Parser.new.run text.data = .ok exp := h
  obtain ⟨h1, h2, -⟩ := ledger_run text.data (p := Parser.new) (fun c hc => by cases hc) hrun
  have h3 : literals exp =
      (digitRuns text.data).map (fun run => (decimalValue run : Int)) := by
    have h5 := digitRunsFrom_eq text.data [] (fun c hc => by cases hc)
    rw [List.nil_append] at h5
    rw [h1, ← h5]
    rfl
  have h4 : operatorCount exp = operatorChars text.data := by
    rw [h2]; simp [Parser.new, operatorCount, pendingCount]
  refine ⟨h3, h4, ?_, ?_⟩
  · intro hno; rw [h4, operatorChars_eq_filter hno]
  · rw [length_eq_ledger, h3, h4, List.length_map]

/-- C19, witness: the text "(12+3) * 4" with the program `12 3 + 4 *`. -/
theorem operand_order_preserved_witness :
    UnCalc "(12+3) * 4" =
        .ok [.Operand 12, .Operand 3, .AdditionOp, .Operand 4, .MultiplicationOp] ∧
      literals [.Operand 12, .Operand 3, .AdditionOp, .Operand 4, .MultiplicationOp] =
        (digitRuns "(12+3) * 4".data).map (fun run => (decimalValue run : Int)) ∧
      operatorCount [.Operand 12, .Operand 3, .AdditionOp, .Operand 4, .MultiplicationOp] =
        operatorChars "(12+3) * 4".data ∧
      ('#' ∉ "(12+3) * 4".data →
        operatorCount [.Operand 12, .Operand 3, .AdditionOp, .Operand 4, .MultiplicationOp] =
          ("(12+3) * 4".data.filter isOperatorChar).length) ∧
      [ExpUnit.Operand 12, .Operand 3, .AdditionOp, .Operand 4, .MultiplicationOp].length =
        (digitRuns "(12+3) * 4".data).length + operatorChars "(12+3) * 4".data :=
  ⟨by rfl, operand_order_preserved "(12+3) * 4" _ (by rfl)⟩

/-! ## Redundant parentheses (C20) -/

/-- C20. For every text `e` the constructor accepts, the text `(e)` is accepted
too and yields the same program, hence the same result of `eval`.  At the
closing parenthesis, once the operators above the marker of the opening
parenthesis have been popped, the counter of the scope is at least 1. -/
theorem redundant_parentheses (e : List Char) (exp : List ExpUnit)
    (h : compile e = .ok exp) :
    compile ('(' :: (e ++ [')'])) = .ok exp ∧
    ((compile ('(' :: (e ++ [')']))).bind eval = (compile e).bind eval) ∧
    ∃ (p1 q r : Parser) (above : List (Char × Int)),
      feedAll Parser.new ('(' :: e) = .ok p1 ∧ p1.flush = .ok q ∧
      q.token = above ++ [('(', 0)] ∧
      Parser.right_parentheses_loop true above q = .ok r ∧ 1 ≤ r.operand_number :=
  ⟨(compile_paren_of_ok h).1, by rw [(compile_paren_of_ok h).1, h], (compile_paren_of_ok h).2⟩

/-- C20, instance: `"(2+3)"` compiles to the program of `"2+3"`. -/
theorem redundant_parentheses_witness :
    compile ['(', '2', '+', '3', ')'] = .ok [.Operand 2, .Operand 3, .AdditionOp] :=
  (redundant_parentheses ['2', '+', '3'] [.Operand 2, .Operand 3, .AdditionOp] (by rfl)).1

end UnCalc
